import Mathlib

/-!
Shallow embedding of the Molang toolchain (the `nolana` crate): lexer
(`src/token.rs`), parser (`src/parser.rs`), semantic checker
(`src/semantic.rs`), transformer (`src/transformer.rs`) and code generator
(`src/codegen.rs`), together with theorems settling the claims about them.

Modelling conventions:
* Rust `u32`/`usize` values (byte offsets, counters) are modelled as `Nat`;
  no arithmetic in the embedded code can overflow at 32/64 bits for the
  inputs considered, and `usize` subtraction sites are noted where they occur.
* Rust `f32` literal values are modelled as exact rationals (`Rat`); the
  embedded model of `str::parse::<f32>` mirrors the acceptance grammar of the
  Rust float parser exactly and produces the exact decimal value (IEEE
  rounding is not modelled; no claim depends on rounding, only on acceptance
  and on small integer values that f32 represents exactly).
* Rust panics (`Vec::last_mut().unwrap()` on the transformer scope stack,
  `Vec::insert` out of bounds, the `unreachable!`/`expect` calls of
  `add_return_statement`) are modelled by `Option`: a `none` result of the
  embedded transformer marks a panic of the Rust code.
* The parser uses explicit fuel for termination; running out of fuel yields a
  distinguished diagnostic that cannot be produced by the embedded Rust code,
  and the entry point supplies fuel that is always sufficient.
* `token.rs` of this snapshot has no `Function`, `Parameter` or `Tilde`
  token, so the corresponding parser/AST paths (`parse_function_statement`,
  the `Parameter` lifetime check) are unreachable and are omitted; the
  `Parameter` lifetime, `BitwiseNot` operator and `Function` call kind
  constructors are kept in the enums as in `ast.rs`.
-/

namespace Nolana

/-- Byte span `(start, end)`; `end` is rendered as `stop` because `end` is a
Lean keyword. Mirrors `src/span.rs`. -/
structure Span where
  start : Nat
  stop : Nat
deriving Repr, DecidableEq

/-- The constant span `(0, 0)` used for synthetic nodes (`span::SPAN`). -/
def SPAN : Span := ⟨0, 0⟩

/-- Token kinds, mirroring the `Kind` enum of `src/token.rs` (constructor
names that clash with Lean keywords carry a `Kw` suffix). -/
inductive Kind where
  | eof
  | identifier
  | string
  | unterminatedString
  | number
  | leftParen
  | rightParen
  | leftBrace
  | rightBrace
  | leftBracket
  | rightBracket
  | eq
  | eq2
  | bang
  | neq
  | lt
  | gt
  | ltEq
  | gtEq
  | pipe
  | pipeEq
  | pipe2
  | pipe2Eq
  | amp
  | ampEq
  | amp2
  | amp2Eq
  | caret
  | caretEq
  | arrow
  | dot
  | question
  | question2
  | colon
  | semi
  | comma
  | minus
  | minus2
  | minusEq
  | plus
  | plus2
  | plugEq
  | star
  | starEq
  | star2
  | star2Eq
  | slash
  | slashEq
  | percent
  | percentEq
  | shiftLeft
  | shiftLeftEq
  | shiftRight
  | shiftRightEq
  | temporary
  | variableKw
  | context
  | math
  | query
  | geometry
  | material
  | texture
  | array
  | trueKw
  | falseKw
  | thisKw
  | breakKw
  | continueKw
  | forEach
  | loopKw
  | returnKw
deriving Repr, DecidableEq, Fintype

namespace Kind

/-- `Kind::is_binary_operator`. -/
def isBinaryOperator : Kind → Bool
  | .eq2 | .neq | .lt | .gt | .ltEq | .gtEq | .pipe | .pipe2 | .amp | .amp2
  | .caret | .question2 | .minus | .plus | .star | .slash | .percent | .star2
  | .shiftLeft | .shiftRight => true
  | _ => false

/-- `Kind::is_assignment_operator`. -/
def isAssignmentOperator : Kind → Bool
  | .eq | .plugEq | .minusEq | .starEq | .slashEq | .star2Eq | .percentEq
  | .pipeEq | .pipe2Eq | .amp2Eq | .ampEq | .caretEq | .shiftLeftEq
  | .shiftRightEq => true
  | _ => false

/-- `Kind::is_unary_operator`. -/
def isUnaryOperator : Kind → Bool
  | .minus | .bang => true
  | _ => false

/-- `Kind::is_update_operator`. -/
def isUpdateOperator : Kind → Bool
  | .plus2 | .minus2 => true
  | _ => false

/-- `Kind::is_variable`. -/
def isVariable : Kind → Bool
  | .variableKw | .temporary | .context => true
  | _ => false

/-- `Kind::is_call`. -/
def isCall : Kind → Bool
  | .math | .query => true
  | _ => false

/-- `Kind::is_resource`. -/
def isResource : Kind → Bool
  | .geometry | .material | .texture => true
  | _ => false

/-- `Kind::binding_power`: the infix binding-power table of `src/token.rs`.
Note the `Bang` entry `(27, 28)`. -/
def bindingPower : Kind → Option (Nat × Nat)
  | .plus2 | .minus2 => some (99, 0)
  | .bang => some (27, 28)
  | .star2 => some (25, 26)
  | .star | .slash | .percent => some (23, 24)
  | .plus | .minus => some (21, 22)
  | .shiftLeft | .shiftRight => some (19, 20)
  | .lt | .gt | .ltEq | .gtEq => some (17, 18)
  | .eq2 | .neq => some (15, 16)
  | .amp => some (13, 14)
  | .caret => some (11, 12)
  | .pipe => some (9, 10)
  | .amp2 => some (7, 8)
  | .pipe2 => some (5, 6)
  | .question => some (3, 4)
  | .question2 => some (1, 2)
  | _ => none

/-- `Kind::as_str` (brace characters written with escapes). -/
def asStr : Kind → String
  | .eof => "EOF"
  | .identifier => "Identifier"
  | .string => "string"
  | .unterminatedString => "Unterminated String"
  | .number => "number"
  | .leftParen => "("
  | .rightParen => ")"
  | .leftBrace => "\x7b"
  | .rightBrace => "\x7d"
  | .leftBracket => "["
  | .rightBracket => "]"
  | .eq => "="
  | .bang => "!"
  | .eq2 => "=="
  | .neq => "!="
  | .lt => "<"
  | .gt => ">"
  | .ltEq => "<="
  | .gtEq => ">="
  | .pipe => "|"
  | .pipeEq => "|="
  | .pipe2 => "||"
  | .pipe2Eq => "||="
  | .amp => "&"
  | .ampEq => "&="
  | .amp2 => "&&"
  | .amp2Eq => "&&="
  | .caret => "^"
  | .caretEq => "^="
  | .arrow => "->"
  | .dot => "."
  | .question => "?"
  | .question2 => "??"
  | .colon => ":"
  | .semi => ";"
  | .comma => ","
  | .minus => "-"
  | .minus2 => "--"
  | .plus => "+"
  | .plus2 => "++"
  | .star => "*"
  | .slash => "/"
  | .percent => "%"
  | .star2 => "**"
  | .minusEq => "-="
  | .plugEq => "+="
  | .starEq => "*="
  | .slashEq => "/="
  | .star2Eq => "**="
  | .percentEq => "%="
  | .shiftLeft => "<<"
  | .shiftLeftEq => "<<="
  | .shiftRight => ">>"
  | .shiftRightEq => ">>="
  | .temporary => "temp"
  | .variableKw => "variable"
  | .context => "context"
  | .math => "math"
  | .query => "query"
  | .geometry => "geometry"
  | .material => "material"
  | .texture => "texture"
  | .array => "array"
  | .trueKw => "true"
  | .falseKw => "false"
  | .thisKw => "this"
  | .breakKw => "break"
  | .continueKw => "continue"
  | .forEach => "for_each"
  | .loopKw => "loop"
  | .returnKw => "return"

end Kind

/-- A lexed token: kind, its source text (the `logos` slice) and byte span. -/
structure Token where
  kind : Kind
  text : String
  start : Nat
  stop : Nat
deriving Repr, DecidableEq

/-- `Diagnostic` (`src/diagnostic.rs`): message, optional help, labels.  All
diagnostics produced by the embedded components are error-severity, so the
severity field is omitted. -/
structure Diagnostic where
  message : String
  help : Option String
  labels : List Span
deriving Repr, DecidableEq

namespace Diagnostic

/-- `Diagnostic::error`. -/
def error (message : String) : Diagnostic := ⟨message, none, []⟩

/-- `Diagnostic::with_help`. -/
def withHelp (d : Diagnostic) (h : String) : Diagnostic := { d with help := some h }

/-- `Diagnostic::with_label` (replaces existing labels). -/
def withLabel (d : Diagnostic) (s : Span) : Diagnostic := { d with labels := [s] }

end Diagnostic

/-! ## Lexer

A hand-rolled maximal-munch lexer faithful to the `logos` token definitions
of `src/token.rs`: at each position the longest matching pattern wins, and on
a tie a keyword/symbol pattern beats `Identifier` (this is what the declared
`logos` priorities produce, confirmed by the lexer unit tests in
`src/token.rs`). Whitespace `[ \t\n\r]` is skipped; an input character that
matches no pattern becomes an `UnterminatedString`-kind token, mirroring how
`Parser::bump` maps a `logos` error to `Kind::UnterminatedString`. -/

/-- Identifier start: `[a-zA-Z_]`. -/
def isIdentStart (c : Char) : Bool := c.isAlpha || c = '_'

/-- Identifier continuation: `[a-zA-Z0-9_]`. -/
def isIdentChar (c : Char) : Bool := c.isAlpha || c.isDigit || c = '_'

/-- Whitespace skipped by the lexer: `[ \t\n\r]`. -/
def isLexWs (c : Char) : Bool :=
  c.toNat = 32 || c.toNat = 9 || c.toNat = 10 || c.toNat = 13

/-- Keyword table: the kind of an identifier-shaped word, `Identifier` when
no keyword pattern matches the whole word. -/
def keywordKind (w : String) : Kind :=
  if w = "temp" ∨ w = "t" then .temporary
  else if w = "variable" ∨ w = "v" then .variableKw
  else if w = "context" ∨ w = "c" then .context
  else if w = "Math" ∨ w = "math" then .math
  else if w = "Query" ∨ w = "query" ∨ w = "q" then .query
  else if w = "Geometry" ∨ w = "geometry" then .geometry
  else if w = "Material" ∨ w = "material" then .material
  else if w = "Texture" ∨ w = "texture" then .texture
  else if w = "Array" ∨ w = "array" then .array
  else if w = "true" then .trueKw
  else if w = "false" then .falseKw
  else if w = "this" then .thisKw
  else if w = "break" then .breakKw
  else if w = "continue" then .continueKw
  else if w = "for_each" then .forEach
  else if w = "loop" then .loopKw
  else if w = "return" then .returnKw
  else .identifier

/-- Length of the maximal match of the `Number` regex
`[0-9]*\.?[0-9]+([eE][+-]?[0-9]+)?f?` at the head of `cs`; `none` when the
regex does not match. -/
def numberLen (cs : List Char) : Option Nat :=
  let d1 := (cs.takeWhile Char.isDigit).length
  let rest1 := cs.drop d1
  let mantLen :=
    match rest1 with
    | '.' :: tl =>
        let d2 := (tl.takeWhile Char.isDigit).length
        if d2 > 0 then d1 + 1 + d2 else d1
    | _ => d1
  if mantLen = 0 then none
  else
    let rest2 := cs.drop mantLen
    let expLen :=
      match rest2 with
      | c :: tl =>
          if c = 'e' ∨ c = 'E' then
            match tl with
            | s :: tl2 =>
                if s = '+' ∨ s = '-' then
                  let d := (tl2.takeWhile Char.isDigit).length
                  if d > 0 then 2 + d else 0
                else
                  let d := (tl.takeWhile Char.isDigit).length
                  if d > 0 then 1 + d else 0
            | [] => 0
          else 0
      | [] => 0
    let rest3 := cs.drop (mantLen + expLen)
    let fLen := match rest3 with
      | c :: _ => if c = 'f' then 1 else 0
      | [] => 0
    some (mantLen + expLen + fLen)

/-- The punctuation table, longest patterns first (maximal munch). -/
def symbolTable : List (List Char × Kind) :=
  [(['<', '<', '='], .shiftLeftEq), (['>', '>', '='], .shiftRightEq),
   (['*', '*', '='], .star2Eq), (['|', '|', '='], .pipe2Eq),
   (['&', '&', '='], .amp2Eq),
   (['=', '='], .eq2), (['!', '='], .neq), (['<', '='], .ltEq),
   (['>', '='], .gtEq), (['|', '='], .pipeEq), (['|', '|'], .pipe2),
   (['&', '='], .ampEq), (['&', '&'], .amp2), (['^', '='], .caretEq),
   (['-', '>'], .arrow), (['?', '?'], .question2), (['-', '-'], .minus2),
   (['-', '='], .minusEq), (['+', '+'], .plus2), (['+', '='], .plugEq),
   (['*', '='], .starEq), (['*', '*'], .star2), (['/', '='], .slashEq),
   (['%', '='], .percentEq), (['<', '<'], .shiftLeft), (['>', '>'], .shiftRight),
   (['('], .leftParen), ([')'], .rightParen), (['\x7b'], .leftBrace),
   (['\x7d'], .rightBrace), (['['], .leftBracket), ([']'], .rightBracket),
   (['='], .eq), (['!'], .bang), (['<'], .lt), (['>'], .gt), (['|'], .pipe),
   (['&'], .amp), (['^'], .caret), (['.'], .dot), (['?'], .question),
   ([':'], .colon), ([';'], .semi), ([','], .comma), (['-'], .minus),
   (['+'], .plus), (['*'], .star), (['/'], .slash), (['%'], .percent)]

/-- Try the symbol table at the head of `cs`, returning kind and length. -/
def matchSymbol (cs : List Char) : Option (Kind × Nat) :=
  (symbolTable.find? fun p => cs.take p.1.length = p.1).map fun p => (p.2, p.1.length)

/-- One lexing step at the head of `cs` (which must be non-blank): the token
kind and the length of its slice. -/
def lexOne (cs : List Char) : Kind × Nat :=
  match cs with
  | [] => (.eof, 0)
  | c :: tl =>
    if c.toNat = 39 then
      -- single quote: String `'[^']*'` or UnterminatedString `'[^']*`
      let inner := tl.takeWhile (fun d => d.toNat ≠ 39)
      if inner.length < tl.length then (.string, inner.length + 2)
      else (.unterminatedString, inner.length + 1)
    else if isIdentStart c then
      let w := (cs.takeWhile isIdentChar)
      (keywordKind (String.mk w), w.length)
    else
      match numberLen cs with
      | some n => (.number, n)
      | none =>
        match matchSymbol cs with
        | some (k, n) => (k, n)
        | none => (.unterminatedString, 1)

/-- The lexer loop: `fuel` bounds the number of steps (each step consumes at
least one character, so `cs.length + 1` is always enough). -/
def lexGo (fuel : Nat) (pos : Nat) (cs : List Char) : List Token :=
  match fuel with
  | 0 => []
  | fuel + 1 =>
    match cs with
    | [] => []
    | c :: tl =>
      if isLexWs c then lexGo fuel (pos + 1) tl
      else
        let (k, n) := lexOne cs
        let n := max n 1
        { kind := k, text := String.mk (cs.take n), start := pos, stop := pos + n } ::
          lexGo fuel (pos + n) (cs.drop n)

/-- Lex a source string to its token list (without the trailing `Eof`; the
parser treats an exhausted list as `Eof`, as `Parser::bump` does). -/
def lex (src : String) : List Token :=
  lexGo (src.length + 1) 0 src.toList

end Nolana

namespace Nolana

/-! ## AST (`src/ast.rs`)

Boxed indirections are dropped; `Cow<str>` identifiers become `String`.
Constructor names clashing with Lean keywords are renamed (`variableExpr`,
`variableKw`, `thisExpr`, `ret`, `breakStmt`, `continueStmt`). -/

/-- `VariableLifetime`. -/
inductive VariableLifetime where
  | temporary
  | variableLt
  | context
  | parameter
deriving Repr, DecidableEq

/-- `VariableLifetime::as_str_long`. -/
def VariableLifetime.asStrLong : VariableLifetime → String
  | .temporary => "temp"
  | .variableLt => "variable"
  | .context => "context"
  | .parameter => "parameter"

/-- `VariableLifetime::as_str_short`. -/
def VariableLifetime.asStrShort : VariableLifetime → String
  | .temporary => "t"
  | .variableLt => "v"
  | .context => "c"
  | .parameter => "p"

/-- `CallKind`. -/
inductive CallKind where
  | math
  | query
  | function
deriving Repr, DecidableEq

/-- `CallKind::as_str_long`. -/
def CallKind.asStrLong : CallKind → String
  | .math => "math"
  | .query => "query"
  | .function => "function"

/-- `CallKind::as_str_short` (note: `math` has no short form). -/
def CallKind.asStrShort : CallKind → String
  | .math => "math"
  | .query => "q"
  | .function => "f"

/-- `ResourceSection`. -/
inductive ResourceSection where
  | geometry
  | material
  | texture
deriving Repr, DecidableEq

/-- `ResourceSection::as_str`. -/
def ResourceSection.asStr : ResourceSection → String
  | .geometry => "geometry"
  | .material => "material"
  | .texture => "texture"

/-- `BinaryOperator`. -/
inductive BinaryOperator where
  | equality
  | inequality
  | lessThan
  | lessEqualThan
  | greaterThan
  | greaterEqualThan
  | addition
  | subtraction
  | multiplication
  | division
  | exponential
  | remainder
  | or
  | and
  | coalesce
  | shiftLeft
  | shiftRight
  | bitwiseOr
  | bitwiseAnd
  | bitwiseXor
deriving Repr, DecidableEq

/-- `BinaryOperator::as_str`. -/
def BinaryOperator.asStr : BinaryOperator → String
  | .equality => "=="
  | .inequality => "!="
  | .lessThan => "<"
  | .lessEqualThan => "<="
  | .greaterThan => ">"
  | .greaterEqualThan => ">="
  | .addition => "+"
  | .subtraction => "-"
  | .multiplication => "*"
  | .division => "/"
  | .or => "||"
  | .and => "&&"
  | .coalesce => "??"
  | .exponential => "**"
  | .remainder => "%"
  | .shiftLeft => "<<"
  | .shiftRight => ">>"
  | .bitwiseOr => "|"
  | .bitwiseAnd => "&"
  | .bitwiseXor => "^"

/-- `BinaryOperator::is_custom`. -/
def BinaryOperator.isCustom : BinaryOperator → Bool
  | .equality | .inequality | .lessThan | .lessEqualThan | .greaterThan
  | .greaterEqualThan | .addition | .subtraction | .multiplication
  | .division | .or | .and | .coalesce => false
  | _ => true

/-- `AssignmentOperator`. -/
inductive AssignmentOperator where
  | assign
  | addition
  | subtraction
  | multiplication
  | division
  | exponential
  | remainder
  | logicalOr
  | logicalAnd
  | shiftLeft
  | shiftRight
  | bitwiseOr
  | bitwiseAnd
  | bitwiseXor
deriving Repr, DecidableEq

/-- `AssignmentOperator::as_str`. -/
def AssignmentOperator.asStr : AssignmentOperator → String
  | .assign => "="
  | .addition => "+="
  | .subtraction => "-="
  | .multiplication => "*="
  | .division => "/="
  | .exponential => "**="
  | .remainder => "%="
  | .logicalOr => "||="
  | .logicalAnd => "&&="
  | .shiftLeft => "<<="
  | .shiftRight => ">>="
  | .bitwiseOr => "|="
  | .bitwiseAnd => "&="
  | .bitwiseXor => "^="

/-- `AssignmentOperator::is_custom`. -/
def AssignmentOperator.isCustom : AssignmentOperator → Bool
  | .assign => false
  | _ => true

/-- `UnaryOperator`. -/
inductive UnaryOperator where
  | negate
  | not
  | bitwiseNot
deriving Repr, DecidableEq

/-- `UnaryOperator::as_str`. -/
def UnaryOperator.asStr : UnaryOperator → String
  | .negate => "-"
  | .not => "!"
  | .bitwiseNot => "~"

/-- `UpdateOperator`. -/
inductive UpdateOperator where
  | increment
  | decrement
deriving Repr, DecidableEq

/-- `UpdateOperator::as_str`. -/
def UpdateOperator.asStr : UpdateOperator → String
  | .increment => "++"
  | .decrement => "--"

/-- `From<Kind> for BinaryOperator` (the `unreachable!` default arm is
modelled by an arbitrary value; every call site is guarded by
`is_binary_operator`). -/
def binOpOfKind : Kind → BinaryOperator
  | .eq2 => .equality
  | .neq => .inequality
  | .lt => .lessThan
  | .gt => .greaterThan
  | .ltEq => .lessEqualThan
  | .gtEq => .greaterEqualThan
  | .pipe2 => .or
  | .amp2 => .and
  | .question2 => .coalesce
  | .minus => .subtraction
  | .plus => .addition
  | .star => .multiplication
  | .slash => .division
  | .star2 => .exponential
  | .percent => .remainder
  | .shiftLeft => .shiftLeft
  | .shiftRight => .shiftRight
  | .pipe => .bitwiseOr
  | .amp => .bitwiseAnd
  | .caret => .bitwiseXor
  | _ => .equality

/-- `From<Kind> for AssignmentOperator` (guarded by `is_assignment_operator`). -/
def assignOpOfKind : Kind → AssignmentOperator
  | .eq => .assign
  | .plugEq => .addition
  | .minusEq => .subtraction
  | .starEq => .multiplication
  | .slashEq => .division
  | .star2Eq => .exponential
  | .percentEq => .remainder
  | .pipe2Eq => .logicalOr
  | .amp2Eq => .logicalAnd
  | .shiftLeftEq => .shiftLeft
  | .shiftRightEq => .shiftRight
  | .pipeEq => .bitwiseOr
  | .ampEq => .bitwiseAnd
  | .caretEq => .bitwiseXor
  | _ => .assign

/-- `From<Kind> for UnaryOperator` (guarded by `is_unary_operator`; the
`Tilde` token does not exist in this snapshot of `token.rs`). -/
def unaryOpOfKind : Kind → UnaryOperator
  | .minus => .negate
  | .bang => .not
  | _ => .negate

/-- `From<Kind> for UpdateOperator` (guarded by `is_update_operator`). -/
def updateOpOfKind : Kind → UpdateOperator
  | .plus2 => .increment
  | _ => .decrement

/-- `From<Kind> for VariableLifetime` (guarded by `is_variable`). -/
def lifetimeOfKind : Kind → VariableLifetime
  | .temporary => .temporary
  | .variableKw => .variableLt
  | .context => .context
  | _ => .temporary

/-- `From<Kind> for CallKind` (guarded by `is_call`). -/
def callKindOfKind : Kind → CallKind
  | .math => .math
  | _ => .query

/-- `From<Kind> for ResourceSection` (guarded by `is_resource`). -/
def resourceSectionOfKind : Kind → ResourceSection
  | .geometry => .geometry
  | .material => .material
  | _ => .texture

/-- `From<AssignmentOperator> for BinaryOperator` (only called on the
arithmetic/shift/bitwise compound operators). -/
def binOpOfAssignOp : AssignmentOperator → BinaryOperator
  | .addition => .addition
  | .subtraction => .subtraction
  | .multiplication => .multiplication
  | .division => .division
  | .exponential => .exponential
  | .remainder => .remainder
  | .shiftLeft => .shiftLeft
  | .shiftRight => .shiftRight
  | .bitwiseOr => .bitwiseOr
  | .bitwiseAnd => .bitwiseAnd
  | .bitwiseXor => .bitwiseXor
  | _ => .equality

/-- `From<UpdateOperator> for BinaryOperator`. -/
def binOpOfUpdateOp : UpdateOperator → BinaryOperator
  | .increment => .addition
  | .decrement => .subtraction

/-- `Identifier`. -/
structure Identifier where
  span : Span
  name : String
deriving Repr, DecidableEq

/-- `VariableMember`: the right-leaning member chain of `v.a.b.c`. -/
inductive VariableMember where
  | object (object : VariableMember) (property : Identifier)
  | property (property : Identifier)
deriving Repr, DecidableEq

/-- `VariableExpression`. -/
structure VariableExpression where
  span : Span
  lifetime : VariableLifetime
  member : VariableMember
deriving Repr, DecidableEq

/-- `VariableExpression::is_struct`. -/
def VariableExpression.isStruct (v : VariableExpression) : Bool :=
  match v.member with
  | .object _ _ => true
  | .property _ => false

mutual

/-- `Expression` (`src/ast.rs`). -/
inductive Expression : Type where
  | numericLiteral (span : Span) (value : Rat) (raw : String)
  | booleanLiteral (span : Span) (value : Bool)
  | stringLiteral (span : Span) (value : String)
  | variableExpr (v : VariableExpression)
  | parenthesized (span : Span) (body : ParenthesizedBody)
  | block (b : BlockExpression)
  | binary (span : Span) (left : Expression) (operator : BinaryOperator)
      (right : Expression)
  | unary (span : Span) (operator : UnaryOperator) (argument : Expression)
  | update (span : Span) (var : VariableExpression) (operator : UpdateOperator)
  | ternary (span : Span) (test : Expression) (consequent : Expression)
      (alternate : Expression)
  | conditional (span : Span) (test : Expression) (consequent : Expression)
  | resource (span : Span) (sect : ResourceSection) (name : Identifier)
  | arrayAccess (span : Span) (name : Identifier) (index : Expression)
  | arrowAccess (span : Span) (left : Expression) (right : Expression)
  | call (span : Span) (kind : CallKind) (callee : Identifier)
      (arguments : Option (List Expression))
  | thisExpr (span : Span)

/-- `ParenthesizedBody`. -/
inductive ParenthesizedBody : Type where
  | single (e : Expression)
  | multiple (stmts : List Statement)

/-- `BlockExpression`. -/
inductive BlockExpression : Type where
  | mk (span : Span) (statements : List Statement)

/-- `Statement` (`Function` omitted: no `Function` token exists in this
snapshot of `token.rs` and `traverse.rs` has no case for it, so it is
unreachable). -/
inductive Statement : Type where
  | expression (e : Expression)
  | assignment (span : Span) (left : VariableExpression)
      (operator : AssignmentOperator) (right : Expression)
  | loop (span : Span) (count : Expression) (block : BlockExpression)
  | forEach (span : Span) (var : VariableExpression) (array : Expression)
      (block : BlockExpression)
  | ret (span : Span) (argument : Expression)
  | breakStmt (span : Span)
  | continueStmt (span : Span)
  | empty (span : Span)

end

/-- `BlockExpression.span`. -/
def BlockExpression.span : BlockExpression → Span
  | .mk s _ => s

/-- `BlockExpression.statements`. -/
def BlockExpression.statements : BlockExpression → List Statement
  | .mk _ l => l

/-- `Statement::is_empty`. -/
def Statement.isEmpty : Statement → Bool
  | .empty _ => true
  | _ => false

/-- `ProgramBody`. -/
inductive ProgramBody where
  | simple (e : Expression)
  | complex (stmts : List Statement)
  | empty

/-- `ProgramBody::is_simple`. -/
def ProgramBody.isSimple : ProgramBody → Bool
  | .simple _ => true
  | _ => false

/-- `ProgramBody::is_complex`. -/
def ProgramBody.isComplex : ProgramBody → Bool
  | .complex _ => true
  | _ => false

/-- `Program`. -/
structure Program where
  span : Span
  source : String
  body : ProgramBody

/-- `ParseResult`. -/
structure ParseResult where
  program : Program
  errors : List Diagnostic

end Nolana

namespace Nolana

/-! ## Model of `str::parse::<f32>` used by `Parser::parse_literal_number`

The acceptance grammar of Rust's float parser on the strings the lexer can
feed it (which never contain `inf`/`nan`/`+`/`-`):
`Digits '.'? Digits? | '.' Digits` followed by an optional exponent
`(e|E) Sign? Digits`; the whole string must be consumed.  In particular a
trailing `f` is rejected.  The value is the exact decimal value. -/

/-- Numeric value of a digit list (most significant first). -/
def digitsVal (ds : List Char) : Nat :=
  ds.foldl (fun acc c => 10 * acc + (c.toNat - 48)) 0

/-- Parse the optional exponent suffix and finish; `mant`/`fracLen` are the
mantissa digits value and the number of fraction digits. -/
def rustF32Exp (sign : Int) (mant : Nat) (fracLen : Nat) (cs : List Char) :
    Option Rat :=
  match cs with
  | [] => some (mkRat (sign * mant) (10 ^ fracLen))
  | c :: tl =>
    if c = 'e' ∨ c = 'E' then
      let (esign, tl2) : Int × List Char :=
        match tl with
        | '+' :: tl2 => (1, tl2)
        | '-' :: tl2 => (-1, tl2)
        | _ => (1, tl)
      let ed := tl2.takeWhile Char.isDigit
      if ed.length = 0 ∨ (tl2.drop ed.length).length ≠ 0 then none
      else
        let e : Int := esign * digitsVal ed
        some (if 0 ≤ e then
                mkRat (sign * mant * ((10 : Nat) ^ e.toNat : Nat)) (10 ^ fracLen)
              else mkRat (sign * mant) (10 ^ (fracLen + (-e).toNat)))
    else none

/-- Model of `str::parse::<f32>` (acceptance, and the exact decimal value). -/
def rustF32Parse (s : String) : Option Rat :=
  let cs := s.toList
  let (sign, cs) : Int × List Char :=
    match cs with
    | '+' :: tl => (1, tl)
    | '-' :: tl => (-1, tl)
    | _ => (1, cs)
  let d1 := cs.takeWhile Char.isDigit
  let cs1 := cs.drop d1.length
  match cs1 with
  | '.' :: tl =>
    let d2 := tl.takeWhile Char.isDigit
    let cs2 := tl.drop d2.length
    if d1.length + d2.length = 0 then none
    else rustF32Exp sign (digitsVal (d1 ++ d2)) d2.length cs2
  | _ =>
    if d1.length = 0 then none
    else rustF32Exp sign (digitsVal d1) 0 cs1

/-! ## Parser (`src/parser.rs`)

State-passing embedding of `Parser`.  The remaining token list plays the role
of the lexer plus the current token (its head is the current token; an empty
list is the `Eof` token, as produced by `Parser::bump`).  Failure
(`Result::Err`) carries the diagnostic together with the parser state at the
point of failure, mirroring the fact that the Rust parser keeps its
accumulated errors and consumed input when `?` propagates. -/

/-- Parser state (`Parser` struct fields minus the borrowed source text;
`eofPos` is the source length, used for the span of the synthesized `Eof`
token). -/
structure PState where
  tokens : List Token
  eofPos : Nat
  prevTokenEnd : Nat
  isComplex : Bool
  functionDepth : Nat
  errors : List Diagnostic
deriving Repr

end Nolana

namespace Nolana

/-- The parser monad: state passing over `PState` with `Result`-style failure
that keeps the state at the point of failure (the Rust parser keeps its
consumed input and accumulated errors when `?` propagates). -/
def PM (α : Type) : Type := PState → Except (Diagnostic × PState) (α × PState)

/-- Monadic unit for `PM`. -/
def PM.pure (a : α) : PM α := fun st => .ok (a, st)

/-- Monadic bind for `PM`. -/
def PM.bind (m : PM α) (f : α → PM β) : PM β := fun st =>
  match m st with
  | .ok (a, st1) => f a st1
  | .error e => .error e

instance : Monad PM where
  pure := PM.pure
  bind := PM.bind

/-- Raise a `Result::Err` carrying the current state. -/
def throwD (d : Diagnostic) : PM α := fun st => .error (d, st)

/-- `Parser::current_token` (an exhausted list is the `Eof` token). -/
def currentToken (st : PState) : Token :=
  match st.tokens with
  | [] => ⟨.eof, "", st.eofPos, st.eofPos⟩
  | t :: _ => t

/-- `Parser::current_kind`. -/
def currentKind (st : PState) : Kind := (currentToken st).kind

/-- `Token::span`. -/
def Token.span (t : Token) : Span := ⟨t.start, t.stop⟩

/-- `Parser::at`. -/
def atKind (st : PState) (k : Kind) : Bool := currentKind st = k

/-- `Parser::bump` (pure form). -/
def bumpS (st : PState) : PState :=
  { st with prevTokenEnd := (currentToken st).stop, tokens := st.tokens.tail }

/-- `Parser::eat` (pure form). -/
def eatS (st : PState) (k : Kind) : Bool × PState :=
  if atKind st k then (true, bumpS st) else (false, st)

/-- Read the current token. -/
def currentM : PM Token := fun st => .ok (currentToken st, st)

/-- Read the current token kind. -/
def currentKindM : PM Kind := fun st => .ok (currentKind st, st)

/-- `Parser::at` as an action. -/
def atM (k : Kind) : PM Bool := fun st => .ok (atKind st k, st)

/-- `Parser::bump` as an action. -/
def bumpM : PM Unit := fun st => .ok ((), bumpS st)

/-- `Parser::eat` as an action. -/
def eatM (k : Kind) : PM Bool := fun st =>
  let (ate, st1) := eatS st k
  .ok (ate, st1)

/-- `Parser::start_span` as an action (`Span::new(token.start, 0)`). -/
def startSpanM : PM Span := fun st => .ok (⟨(currentToken st).start, 0⟩, st)

/-- `Parser::end_span` as an action (`span.end = prev_token_end`). -/
def endSpanM (s : Span) : PM Span := fun st => .ok (⟨s.start, st.prevTokenEnd⟩, st)

/-- `Parser::end_span_single`. -/
def endSpanSingle (s : Span) : Span := ⟨s.start, s.start + 1⟩

/-- `Parser::error` (accumulate a recoverable diagnostic). -/
def errorM (d : Diagnostic) : PM Unit := fun st =>
  .ok ((), { st with errors := st.errors ++ [d] })

/-- Read the `is_complex` flag. -/
def getIsComplex : PM Bool := fun st => .ok (st.isComplex, st)

/-- Set the `is_complex` flag to `true`. -/
def setIsComplex : PM Unit := fun st => .ok ((), { st with isComplex := true })

/-- `invalid_number`. -/
def invalidNumber (s : Span) : Diagnostic :=
  Diagnostic.error "invalid number" |>.withLabel s

/-- `unexpected_token`. -/
def unexpectedToken (s : Span) : Diagnostic :=
  Diagnostic.error "unexpected token" |>.withLabel s

/-- `expected_token`. -/
def expectedToken (expected found : String) (s : Span) : Diagnostic :=
  Diagnostic.error ("expected `" ++ expected ++ "` but found `" ++ found ++ "`")
    |>.withLabel s

/-- `semi_required_in_complex`. -/
def semiRequiredInComplex (s : Span) : Diagnostic :=
  Diagnostic.error "semicolons are required for complex programs (containing `=` or `;`)"
    |>.withHelp "try inserting a semicolon here" |>.withLabel s

/-- `semi_required_in_parenthesized`. -/
def semiRequiredInParenthesized (s : Span) : Diagnostic :=
  Diagnostic.error "statements inside parenthesized expressions must be delimited by `;` if the other statements also end with `;`"
    |>.withHelp "try inserting a semicolon here" |>.withLabel s

/-- `semi_required_in_block_expression`. -/
def semiRequiredInBlockExpression (s : Span) : Diagnostic :=
  Diagnostic.error "statements inside block expressions must be delimited by `;`"
    |>.withHelp "try inserting a semicolon here" |>.withLabel s

/-- `unterminated_string`. -/
def unterminatedStringErr (s : Span) : Diagnostic :=
  Diagnostic.error "unterminated string" |>.withLabel s

/-- `loop_in_expression`. -/
def loopInExpression (s : Span) : Diagnostic :=
  Diagnostic.error "`loop` statement cannot be used inside expressions"
    |>.withHelp "try defining it in a statement" |>.withLabel s

/-- `illegal_update_operation`. -/
def illegalUpdateOperation (s : Span) : Diagnostic :=
  Diagnostic.error "`++` and `--` can only be used on variables" |>.withLabel s

/-- `invalid_for_each_first_arg`. -/
def invalidForEachFirstArg (s : Span) : Diagnostic :=
  Diagnostic.error "`for_each` statement first argument must be a variable"
    |>.withLabel s

/-- The out-of-fuel diagnostic; an artifact of the embedding, never produced
with the fuel `parse` supplies. -/
def fuelDiag : Diagnostic := Diagnostic.error "embedding: parser fuel exhausted"

/-- `Parser::expect`. -/
def expectM (k : Kind) : PM Unit := fun st =>
  let (ate, st1) := eatS st k
  if ate then .ok ((), st1)
  else .error (expectedToken k.asStr (currentKind st).asStr (currentToken st).span, st)

/-- `Parser::parse_semi`: eats a `;` after a non-empty statement and records
program complexity; returns whether a `;` was eaten. -/
def parseSemiM (stmt : Statement) : PM Bool := do
  if !stmt.isEmpty then
    let ate ← eatM .semi
    if ate then
      setIsComplex
      return true
    else return false
  else return false

/-- `Parser::parse_identifier`. -/
def parseIdentifierM : PM Identifier := do
  let span ← startSpanM
  let tok ← currentM
  let name := tok.text
  if tok.kind.isVariable || tok.kind.isCall then bumpM
  else expectM .identifier
  let span ← endSpanM span
  return ⟨span, name⟩

/-- `Parser::parse_literal_number`: `raw.parse::<f32>()` on the full token
slice — the `f` suffix is not stripped before the call. -/
def parseLiteralNumberM : PM Expression := do
  let span ← startSpanM
  let tok ← currentM
  let raw := tok.text
  expectM .number
  let span ← endSpanM span
  match rustF32Parse raw with
  | none => throwD (invalidNumber span)
  | some value => return .numericLiteral span value raw

/-- `Parser::parse_literal_boolean` (only reached at `True`/`False`). -/
def parseLiteralBooleanM : PM Expression := do
  let span ← startSpanM
  let k ← currentKindM
  let value := k = Kind.trueKw
  bumpM
  let span ← endSpanM span
  return .booleanLiteral span value

/-- `Parser::parse_literal_string` (strips the surrounding quotes). -/
def parseLiteralStringM : PM (Span × String) := do
  let span ← startSpanM
  let tok ← currentM
  let value := (tok.text.drop 1).dropRight 1
  expectM .string
  let span ← endSpanM span
  return (span, value)

/-- `Parser::parse_empty_statement` (note the quirky span: it is derived from
the token after the consumed `;`). -/
def parseEmptyStatementM : PM Statement := do
  expectM .semi
  let tok ← currentM
  return .empty (endSpanSingle tok.span)

/-- `Parser::parse_break_statement`. -/
def parseBreakStatementM : PM Statement := do
  let span ← startSpanM
  expectM .breakKw
  let span ← endSpanM span
  return .breakStmt span

/-- `Parser::parse_continue_statement`. -/
def parseContinueStatementM : PM Statement := do
  let span ← startSpanM
  expectM .continueKw
  let span ← endSpanM span
  return .continueStmt span

/-- `Parser::parse_this_expression`. -/
def parseThisExpressionM : PM Expression := do
  let span ← startSpanM
  expectM .thisKw
  let span ← endSpanM span
  return .thisExpr span

/-- `Parser::parse_resource_expression`. -/
def parseResourceExpressionM : PM Expression := do
  let span ← startSpanM
  let k ← currentKindM
  let sect := resourceSectionOfKind k
  bumpM
  expectM .dot
  let name ← parseIdentifierM
  let span ← endSpanM span
  return .resource span sect name

/-- `Parser::parse_update_expression`. -/
def parseUpdateExpressionM (span : Span) (v : VariableExpression) :
    PM Expression := do
  let k ← currentKindM
  let operator := updateOpOfKind k
  bumpM
  let span ← endSpanM span
  return .update span v operator

end Nolana

namespace Nolana

/-- `function_variable_outside_function` (dead in this snapshot: no
`Parameter` token exists, the check is mirrored for fidelity). -/
def functionVariableOutsideFunction (s : Span) : Diagnostic :=
  Diagnostic.error "parameter and local variables may only be used inside the body of a function"
    |>.withLabel s

/-- Read the function nesting depth (`Parser::is_in_function`). -/
def getFunctionDepth : PM Nat := fun st => .ok (st.functionDepth, st)

/-- Fall-through error cases of `Parser::parse_parenthesized_expression`
(missing `)`): `eat(Eof)` then the `expected_token`/`unexpected_token`
errors. -/
def parenMissingRpM : PM Expression := do
  let ate ← eatM .eof
  if ate then
    fun st =>
      .error (expectedToken Kind.rightParen.asStr (currentKind st).asStr
        ⟨st.prevTokenEnd, (currentToken st).start⟩, st)
  else do
    let tok ← currentM
    throwD (unexpectedToken tok.span)

mutual

/-- Member chain loop of `Parser::parse_variable_expression`
(`while self.eat(Kind::Dot) { ... }`). -/
def parseVariableMemberLoopM (fuel : Nat) (member : VariableMember) :
    PM VariableMember :=
  match fuel with
  | 0 => throwD fuelDiag
  | fuel + 1 => do
    let ate ← eatM .dot
    if ate then
      let property ← parseIdentifierM
      parseVariableMemberLoopM fuel (.object member property)
    else return member

/-- `Parser::parse_variable_expression`. -/
def parseVariableExpressionM (fuel : Nat) : PM VariableExpression :=
  match fuel with
  | 0 => throwD fuelDiag
  | fuel + 1 => do
    let span ← startSpanM
    let k ← currentKindM
    let lifetime := lifetimeOfKind k
    bumpM
    expectM .dot
    let property ← parseIdentifierM
    let member ← parseVariableMemberLoopM fuel (.property property)
    let depth ← getFunctionDepth
    if lifetime = .parameter ∧ depth = 0 then do
      let sp ← endSpanM span
      throwD (functionVariableOutsideFunction sp)
    else do
      let sp ← endSpanM span
      return ⟨sp, lifetime, member⟩

/-- `Parser::parse_expression`: the Pratt prefix (`nud`) dispatch followed by
`parse_expression_rest`. -/
def parseExpressionM (fuel : Nat) (minBp : Nat) : PM Expression :=
  match fuel with
  | 0 => throwD fuelDiag
  | fuel + 1 => do
    let span ← startSpanM
    let k ← currentKindM
    let left ←
      if k = Kind.trueKw ∨ k = Kind.falseKw then parseLiteralBooleanM
      else if k = Kind.number then parseLiteralNumberM
      else if k = Kind.string then do
        let (sp, v) ← parseLiteralStringM
        pure (Expression.stringLiteral sp v)
      else if k.isVariable then do
        let v ← parseVariableExpressionM fuel
        pure (Expression.variableExpr v)
      else if k = Kind.leftParen then parseParenthesizedExpressionM fuel
      else if k = Kind.leftBrace then do
        let b ← parseBlockExpressionM fuel
        pure (Expression.block b)
      else if k.isUnaryOperator then parseUnaryExpressionM fuel
      else if k.isCall then parseCallExpressionM fuel
      else if k.isResource then parseResourceExpressionM
      else if k = Kind.array then parseArrayAccessExpressionM fuel
      else if k = Kind.loopKw ∨ k = Kind.forEach then
        throwD (loopInExpression (endSpanSingle span))
      else if k = Kind.thisKw then parseThisExpressionM
      else if k = Kind.unterminatedString then do
        let sp ← endSpanM span
        throwD (unterminatedStringErr sp)
      else do
        let tok ← currentM
        throwD (unexpectedToken tok.span)
    parseExpressionRestM fuel minBp left span

/-- `Parser::parse_expression_rest`: the Pratt infix/postfix (`led`) loop. -/
def parseExpressionRestM (fuel : Nat) (minBp : Nat) (left : Expression)
    (span : Span) : PM Expression :=
  match fuel with
  | 0 => throwD fuelDiag
  | fuel + 1 => do
    let k ← currentKindM
    if k = Kind.arrow then parseArrowAccessExpressionM fuel span left
    else
      match k.bindingPower with
      | none => return left
      | some (lbp, rbp) =>
        if lbp < minBp then return left
        else if k.isBinaryOperator then do
          let left ← parseBinaryExpressionM fuel span left rbp
          parseExpressionRestM fuel minBp left span
        else if k.isUpdateOperator then
          match left with
          | .variableExpr v => do
            let left ← parseUpdateExpressionM span v
            parseExpressionRestM fuel minBp left span
          | _ => do
            let sp ← endSpanM span
            throwD (illegalUpdateOperation sp)
        else if k = Kind.question then do
          let left ← parseTernaryOrConditionalM fuel span left
          parseExpressionRestM fuel minBp left span
        else return left

/-- `Parser::parse_binary_expression`. -/
def parseBinaryExpressionM (fuel : Nat) (leftSpan : Span) (left : Expression)
    (rbp : Nat) : PM Expression :=
  match fuel with
  | 0 => throwD fuelDiag
  | fuel + 1 => do
    let k ← currentKindM
    let operator := binOpOfKind k
    bumpM
    let right ← parseExpressionM fuel rbp
    let sp ← endSpanM leftSpan
    return .binary sp left operator right

/-- `Parser::parse_unary_expression` (note: the operand is parsed with
minimum binding power `0`, not with the `binding_power` table entry). -/
def parseUnaryExpressionM (fuel : Nat) : PM Expression :=
  match fuel with
  | 0 => throwD fuelDiag
  | fuel + 1 => do
    let span ← startSpanM
    let k ← currentKindM
    let operator := unaryOpOfKind k
    bumpM
    let argument ← parseExpressionM fuel 0
    let sp ← endSpanM span
    return .unary sp operator argument

/-- `Parser::parse_ternary_or_conditional_expression`. -/
def parseTernaryOrConditionalM (fuel : Nat) (testSpan : Span)
    (test : Expression) : PM Expression :=
  match fuel with
  | 0 => throwD fuelDiag
  | fuel + 1 => do
    expectM .question
    let consequent ← parseExpressionM fuel 0
    let ate ← eatM .colon
    if ate then do
      let alternate ← parseExpressionM fuel 0
      let sp ← endSpanM testSpan
      return .ternary sp test consequent alternate
    else do
      let sp ← endSpanM testSpan
      return .conditional sp test consequent

/-- `Parser::parse_arrow_access_expression`. -/
def parseArrowAccessExpressionM (fuel : Nat) (leftSpan : Span)
    (left : Expression) : PM Expression :=
  match fuel with
  | 0 => throwD fuelDiag
  | fuel + 1 => do
    expectM .arrow
    let right ← parseExpressionM fuel 0
    let sp ← endSpanM leftSpan
    return .arrowAccess sp left right

/-- `Parser::parse_parenthesized_expression`. -/
def parseParenthesizedExpressionM (fuel : Nat) : PM Expression :=
  match fuel with
  | 0 => throwD fuelDiag
  | fuel + 1 => do
    let span ← startSpanM
    expectM .leftParen
    let firstStmt ← parseStatementM fuel
    let semi ← parseSemiM firstStmt
    if semi then parseParenthesizedRestM fuel [firstStmt] span
    else
      match firstStmt with
      | .expression e => do
        let ate ← eatM .rightParen
        if ate then do
          let sp ← endSpanM span
          return .parenthesized sp (.single e)
        else parenMissingRpM
      | _ => parenMissingRpM

/-- `Parser::parse_parenthesized_expression_rest`. -/
def parseParenthesizedRestM (fuel : Nat) (stmts : List Statement)
    (span : Span) : PM Expression :=
  match fuel with
  | 0 => throwD fuelDiag
  | fuel + 1 => do
    let rp ← atM .rightParen
    if rp then do
      expectM .rightParen
      let sp ← endSpanM span
      return .parenthesized sp (.multiple stmts)
    else do
      let stmt ← parseStatementM fuel
      let semi ← parseSemiM stmt
      if !semi then do
        let tok ← currentM
        errorM (semiRequiredInParenthesized tok.span)
      parseParenthesizedRestM fuel (stmts ++ [stmt]) span

/-- `Parser::parse_block_expression` (sets `is_complex` up front). -/
def parseBlockExpressionM (fuel : Nat) : PM BlockExpression :=
  match fuel with
  | 0 => throwD fuelDiag
  | fuel + 1 => do
    let ic ← getIsComplex
    if !ic then setIsComplex
    let span ← startSpanM
    expectM .leftBrace
    let stmts ← parseBlockLoopM fuel []
    expectM .rightBrace
    let sp ← endSpanM span
    return BlockExpression.mk sp stmts

/-- The statement loop of `Parser::parse_block_expression`. -/
def parseBlockLoopM (fuel : Nat) (stmts : List Statement) :
    PM (List Statement) :=
  match fuel with
  | 0 => throwD fuelDiag
  | fuel + 1 => do
    let rb ← atM .rightBrace
    if rb then return stmts
    else do
      let stmt ← parseStatementM fuel
      let semi ← parseSemiM stmt
      let ic ← getIsComplex
      if !semi && ic then do
        let tok ← currentM
        errorM (semiRequiredInBlockExpression tok.span)
      parseBlockLoopM fuel (stmts ++ [stmt])

/-- `Parser::parse_call_expression`. -/
def parseCallExpressionM (fuel : Nat) : PM Expression :=
  match fuel with
  | 0 => throwD fuelDiag
  | fuel + 1 => do
    let span ← startSpanM
    let k ← currentKindM
    let kind := callKindOfKind k
    bumpM
    expectM .dot
    let callee ← parseIdentifierM
    let lp ← eatM .leftParen
    let arguments ←
      if lp then do
        let args ← parseCallArgsM fuel true []
        pure (some args)
      else pure none
    let sp ← endSpanM span
    return .call sp kind callee arguments

/-- The argument loop of `Parser::parse_call_expression` (trailing comma
permitted; also breaks at `Eof`). -/
def parseCallArgsM (fuel : Nat) (first : Bool) (args : List Expression) :
    PM (List Expression) :=
  match fuel with
  | 0 => throwD fuelDiag
  | fuel + 1 => do
    let rp ← atM .rightParen
    let atEof ← atM .eof
    if rp || atEof then do
      expectM .rightParen
      return args
    else if first then do
      let e ← parseExpressionM fuel 0
      parseCallArgsM fuel false (args ++ [e])
    else do
      expectM .comma
      let rp2 ← atM .rightParen
      if rp2 then do
        expectM .rightParen
        return args
      else do
        let e ← parseExpressionM fuel 0
        parseCallArgsM fuel false (args ++ [e])

/-- `Parser::parse_array_access_expression`. -/
def parseArrayAccessExpressionM (fuel : Nat) : PM Expression :=
  match fuel with
  | 0 => throwD fuelDiag
  | fuel + 1 => do
    let span ← startSpanM
    expectM .array
    expectM .dot
    let name ← parseIdentifierM
    expectM .leftBracket
    let index ← parseExpressionM fuel 0
    expectM .rightBracket
    let sp ← endSpanM span
    return .arrayAccess sp name index

/-- `Parser::parse_loop_statement`. -/
def parseLoopStatementM (fuel : Nat) : PM Statement :=
  match fuel with
  | 0 => throwD fuelDiag
  | fuel + 1 => do
    let span ← startSpanM
    expectM .loopKw
    expectM .leftParen
    let count ← parseExpressionM fuel 0
    expectM .comma
    let block ← parseBlockExpressionM fuel
    expectM .rightParen
    let sp ← endSpanM span
    return .loop sp count block

/-- `Parser::parse_for_each_statement`. -/
def parseForEachStatementM (fuel : Nat) : PM Statement :=
  match fuel with
  | 0 => throwD fuelDiag
  | fuel + 1 => do
    let span ← startSpanM
    expectM .forEach
    expectM .leftParen
    let k ← currentKindM
    if !k.isVariable then do
      let tok ← currentM
      throwD (invalidForEachFirstArg tok.span)
    else do
      let v ← parseVariableExpressionM fuel
      expectM .comma
      let array ← parseExpressionM fuel 0
      expectM .comma
      let block ← parseBlockExpressionM fuel
      expectM .rightParen
      let sp ← endSpanM span
      return .forEach sp v array block

/-- `Parser::parse_return_statement` (wrapped `.into()` a `Statement`). -/
def parseReturnStatementM (fuel : Nat) : PM Statement :=
  match fuel with
  | 0 => throwD fuelDiag
  | fuel + 1 => do
    let span ← startSpanM
    expectM .returnKw
    let argument ← parseExpressionM fuel 0
    let sp ← endSpanM span
    return .ret sp argument

/-- `Parser::parse_assignment_statement_or_expression`. -/
def parseAssignmentOrExpressionM (fuel : Nat) : PM Statement :=
  match fuel with
  | 0 => throwD fuelDiag
  | fuel + 1 => do
    let span ← startSpanM
    let left ← parseVariableExpressionM fuel
    let k ← currentKindM
    if k.isAssignmentOperator then do
      let operator := assignOpOfKind k
      bumpM
      let ic ← getIsComplex
      if !ic then setIsComplex
      let right ← parseExpressionM fuel 0
      let sp ← endSpanM span
      return .assignment sp left operator right
    else do
      let e ← parseExpressionRestM fuel 0 (.variableExpr left) span
      return .expression e

/-- `Parser::parse_statement` (the `Function` dispatch arm is unreachable:
no `Function` token exists in this snapshot of `token.rs`). -/
def parseStatementM (fuel : Nat) : PM Statement :=
  match fuel with
  | 0 => throwD fuelDiag
  | fuel + 1 => do
    let k ← currentKindM
    if k = Kind.semi then parseEmptyStatementM
    else if k.isVariable then parseAssignmentOrExpressionM fuel
    else if k = Kind.loopKw then parseLoopStatementM fuel
    else if k = Kind.forEach then parseForEachStatementM fuel
    else if k = Kind.returnKw then parseReturnStatementM fuel
    else if k = Kind.breakKw then parseBreakStatementM
    else if k = Kind.continueKw then parseContinueStatementM
    else do
      let e ← parseExpressionM fuel 0
      return .expression e

/-- The statement loop of `Parser::parse_program`.  The `Simple` match arm of
the loop is `unreachable!` in Rust (`Simple` is only built at `Eof`); it is
modelled as leaving the body unchanged. -/
def parseProgramLoopM (fuel : Nat) (body : ProgramBody) : PM ProgramBody :=
  match fuel with
  | 0 => throwD fuelDiag
  | fuel + 1 => do
    let atEof ← atM .eof
    if atEof then return body
    else do
      let stmt ← parseStatementM fuel
      let semi ← parseSemiM stmt
      let ic ← getIsComplex
      if !semi && ic then do
        let tok ← currentM
        errorM (semiRequiredInComplex tok.span)
      let body ←
        match body with
        | .complex stmts => pure (ProgramBody.complex (stmts ++ [stmt]))
        | .empty => do
          let ic2 ← getIsComplex
          let eofNow ← atM .eof
          match stmt with
          | .expression e2 =>
            if !ic2 && eofNow then pure (ProgramBody.simple e2)
            else pure (ProgramBody.complex [stmt])
          | _ => pure (ProgramBody.complex [stmt])
        | .simple _ => pure body
      parseProgramLoopM fuel body

/-- `Parser::parse_program`. -/
def parseProgramM (fuel : Nat) : PM (Span × ProgramBody) :=
  match fuel with
  | 0 => throwD fuelDiag
  | fuel + 1 => do
    let span ← startSpanM
    let body ← parseProgramLoopM fuel .empty
    let sp ← endSpanM span
    return (sp, body)

end

/-- Fuel that is always sufficient for `parse` (the parser consumes at least
one token for every constant number of nested calls; a quadratic bound with
margin is far beyond what any run can use). -/
def parseFuel (src : String) : Nat := (src.length + 4) * (src.length + 4)

/-- `Parser::parse` — the entry point.  On `Err` the accumulated errors plus
the fatal one are returned with an `Empty` program (span `Span::default()`),
as in `Parser::parse`. -/
def parse (src : String) : ParseResult :=
  let st0 : PState := ⟨lex src, src.length, 0, false, 0, []⟩
  match parseProgramM (parseFuel src) st0 with
  | .ok ((sp, body), st) => ⟨⟨sp, src, body⟩, st.errors⟩
  | .error (d, st) => ⟨⟨⟨0, 0⟩, src, .empty⟩, st.errors ++ [d]⟩

end Nolana


namespace Nolana

/-! ## Code generator (`src/codegen.rs`)

Pure printing functions; `m` is `options.minify`, `ic` the `is_complex` flag
captured from the program body at `build`, `ind` the current indent.
`codegen.rs` of this snapshot has no `Print` arm for `UpdateExpression`
(the enum variant postdates that file); it is modelled as printing the
variable followed by `UpdateOperator::as_str`, the only printing consistent
with the AST helpers.  No claim depends on printing an update expression. -/

/-- `Codegen::print_indent`. -/
def cgIndent (m ic : Bool) (ind : Nat) : String :=
  if !m && ic then String.join (List.replicate ind "    ") else ""

/-- `Codegen::print_newline`. -/
def cgNl (m : Bool) : String := if !m then "\n" else ""

/-- `Codegen::print_space`. -/
def cgSp (m : Bool) : String := if !m then " " else ""

/-- `Print for VariableMember`. -/
def printMember : VariableMember → String
  | .object object property => printMember object ++ "." ++ property.name
  | .property property => property.name

/-- `Print for VariableExpression` (lifetime short form when minified). -/
def printVariable (m : Bool) (v : VariableExpression) : String :=
  (if m then v.lifetime.asStrShort else v.lifetime.asStrLong) ++ "." ++
    printMember v.member

mutual

/-- `Print for Expression` (and the leaf impls it dispatches to). -/
def printExpression (m ic : Bool) (ind : Nat) (e : Expression) : String :=
  match e with
  | .numericLiteral _ _ raw => raw
  | .booleanLiteral _ value => if value then "true" else "false"
  | .stringLiteral _ value => "'" ++ value ++ "'"
  | .variableExpr v => printVariable m v
  | .parenthesized _ (.single e1) => "(" ++ printExpression m ic ind e1 ++ ")"
  | .parenthesized _ (.multiple stmts) =>
    "(" ++ cgNl m ++ printStatements m ic (ind + 1) stmts ++
      cgIndent m ic ind ++ ")"
  | .block (.mk _ stmts) =>
    "\x7b" ++ cgNl m ++ printStatements m ic (ind + 1) stmts ++
      cgIndent m ic ind ++ "\x7d"
  | .binary _ left op right =>
    printExpression m ic ind left ++ cgSp m ++ op.asStr ++ cgSp m ++
      printExpression m ic ind right
  | .unary _ op argument => op.asStr ++ printExpression m ic ind argument
  | .update _ v op => printVariable m v ++ op.asStr
  | .ternary _ test consequent alternate =>
    printExpression m ic ind test ++ cgSp m ++ "?" ++ cgSp m ++
      printExpression m ic ind consequent ++ cgSp m ++ ":" ++ cgSp m ++
      printExpression m ic ind alternate
  | .conditional _ test consequent =>
    printExpression m ic ind test ++ cgSp m ++ "?" ++ cgSp m ++
      printExpression m ic ind consequent
  | .resource _ sect name => sect.asStr ++ "." ++ name.name
  | .arrayAccess _ name index =>
    "array" ++ "." ++ name.name ++ "[" ++ printExpression m ic ind index ++ "]"
  | .arrowAccess _ left right =>
    printExpression m ic ind left ++ "->" ++ printExpression m ic ind right
  | .call _ kind callee none =>
    (if m then kind.asStrShort else kind.asStrLong) ++ "." ++ callee.name
  | .call _ kind callee (some args) =>
    (if m then kind.asStrShort else kind.asStrLong) ++ "." ++ callee.name ++
      "(" ++ printExpressionList m ic ind true args ++ ")"
  | .thisExpr _ => "this"
termination_by structural e

/-- `Codegen::print_list` (comma plus space separators). -/
def printExpressionList (m ic : Bool) (ind : Nat) (first : Bool)
    (args : List Expression) : String :=
  match args with
  | [] => ""
  | e :: rest =>
    (if first then "" else "," ++ cgSp m) ++ printExpression m ic ind e ++
      printExpressionList m ic ind false rest
termination_by structural args

/-- `Print for Statement`: indent, node, then `;` and newline in a complex
program (except for `Empty`). -/
def printStatement (m ic : Bool) (ind : Nat) (stmt : Statement) : String :=
  cgIndent m ic ind ++
  (match stmt with
   | .expression e => printExpression m ic ind e
   | .assignment _ left op right =>
     printVariable m left ++ cgSp m ++ op.asStr ++ cgSp m ++
       printExpression m ic ind right
   | .loop _ count (.mk _ bstmts) =>
     "loop" ++ "(" ++ printExpression m ic ind count ++ "," ++ cgSp m ++
       "\x7b" ++ cgNl m ++ printStatements m ic (ind + 1) bstmts ++
       cgIndent m ic ind ++ "\x7d" ++ ")"
   | .forEach _ v array (.mk _ bstmts) =>
     "for_each" ++ "(" ++ cgNl m ++
       printVariable m v ++ "," ++ cgSp m ++
       printExpression m ic (ind + 1) array ++ "," ++ cgSp m ++
       "\x7b" ++ cgNl m ++ printStatements m ic (ind + 2) bstmts ++
       cgIndent m ic (ind + 1) ++ "\x7d" ++
       cgIndent m ic ind ++ ")"
   | .ret _ argument => "return " ++ printExpression m ic ind argument
   | .breakStmt _ => "break"
   | .continueStmt _ => "continue"
   | .empty _ => "") ++
  (if ic && !stmt.isEmpty then ";" ++ cgNl m else "")
termination_by structural stmt

/-- Print a statement list in order (`for stmt in stmts { stmt.print }`). -/
def printStatements (m ic : Bool) (ind : Nat) (stmts : List Statement) :
    String :=
  match stmts with
  | [] => ""
  | stmt :: rest => printStatement m ic ind stmt ++ printStatements m ic ind rest
termination_by structural stmts

end

/-- `Codegen::build` with explicit `minify` option
(`Codegen::with_options`). -/
def codegen (m : Bool) (p : Program) : String :=
  let ic := p.body.isComplex
  match p.body with
  | .simple e => printExpression m ic 0 e
  | .complex stmts => printStatements m ic 0 stmts
  | .empty => ""

end Nolana

namespace Nolana

/-! ## Transformer (`src/transformer.rs`)

The traversal (`traverse.rs`) composed with the `MolangTransformer` hooks is
embedded as structural recursion over the tree, threading the scope stack
explicitly.  A `none` result models a Rust panic (`self.scope()` on an empty
stack, `Vec::insert` out of bounds, or the `unreachable!`/`expect` of
`add_return_statement`).

The Rust walker visits the children of a node *after* the `enter_expression`
hook has replaced it.  For each replacement the freshly created wrapper nodes
(`math.*` calls, `*`/`/`-binaries, the `?`/block wrappers of `||=`/`&&=`)
trigger no hook themselves, so walking the replaced node is equivalent to
walking the surviving original children and reassembling — which is how it is
written here, keeping the recursion structural.  The operands moved into a
statement synthesized by bitwise lowering are *not* walked (the statement is
only spliced in at `exit_statements`, after the walk of the list), exactly as
in the Rust code. -/

/-- Scope of the transformer (`Scope` in `src/transformer.rs`). -/
structure Scope where
  statementCount : Nat
  newStatements : List (Nat × Statement)

/-- `Vec::insert`: panics (`none`) when the index exceeds the length. -/
def vecInsert (l : List α) (i : Nat) (a : α) : Option (List α) :=
  if i ≤ l.length then some (l.take i ++ a :: l.drop i) else none

/-- Splice the synthesized statements in push order
(`for (index, stmt) in scope.new_statements { it.insert(index, stmt) }`). -/
def insertAll (pairs : List (Nat × Statement)) (l : List Statement) :
    Option (List Statement) :=
  match pairs with
  | [] => some l
  | (i, s) :: rest => do insertAll rest (← vecInsert l i s)

/-- `MolangTransformer::optimize_statements` (dead-read elimination, skipped
when the program was promoted this pass). -/
def optimizeStatements (nc : Bool) (stmts : List Statement) : List Statement :=
  if nc then stmts
  else stmts.map fun s =>
    match s with
    | .expression (.variableExpr _) => .empty SPAN
    | _ => s

/-- `exit_statements` minus the walk: pop the scope, splice the synthesized
statements, run dead-read elimination (shared tail of `walk_statements`). -/
def exitStatements (nc : Bool) (r : List Statement × List Scope) :
    Option (List Statement × List Scope) :=
  match r with
  | (_, []) => none
  | (stmts1, sc :: rest) => do
    let stmts2 ← insertAll sc.newStatements stmts1
    some (optimizeStatements nc stmts2, rest)

/-- `binary_expression` helper. -/
def binaryExpressionB (l : Expression) (op : BinaryOperator) (r : Expression) :
    Expression := .binary SPAN l op r

/-- `math_pow_expression`. -/
def mathPowExpression (l r : Expression) : Expression :=
  .call SPAN .math ⟨SPAN, "pow"⟩ (some [l, r])

/-- `math_mod_expression`. -/
def mathModExpression (l r : Expression) : Expression :=
  .call SPAN .math ⟨SPAN, "mod"⟩ (some [l, r])

/-- `math_floor_expression`. -/
def mathFloorExpression (x : Expression) : Expression :=
  .call SPAN .math ⟨SPAN, "floor"⟩ (some [x])

/-- `math_min_expression`. -/
def mathMinExpression (l r : Expression) : Expression :=
  .call SPAN .math ⟨SPAN, "min"⟩ (some [l, r])

/-- `shift_left_expression`: `l * math.pow(2, r)`. -/
def shiftLeftExpression (l r : Expression) : Expression :=
  .binary SPAN l .multiplication
    (mathPowExpression (.numericLiteral SPAN 2 "2") r)

/-- `shift_right_expression`: `math.floor(l / math.pow(2, r))`. -/
def shiftRightExpression (l r : Expression) : Expression :=
  mathFloorExpression
    (.binary SPAN l .division (mathPowExpression (.numericLiteral SPAN 2 "2") r))

/-- `BitwiseOperation`. -/
inductive BitwiseOperation where
  | or
  | and
  | xor

/-- `From<BinaryOperator> for BitwiseOperation` (guarded). -/
def bitwiseOpOfBinOp : BinaryOperator → BitwiseOperation
  | .bitwiseOr => .or
  | .bitwiseAnd => .and
  | _ => .xor

/-- `From<AssignmentOperator> for BitwiseOperation` (guarded). -/
def bitwiseOpOfAssignOp : AssignmentOperator → BitwiseOperation
  | .bitwiseOr => .or
  | .bitwiseAnd => .and
  | _ => .xor

/-- `variable_expression` helper (a synthetic `variable.`-lifetime name). -/
def variableExpressionB (name : String) : VariableExpression :=
  ⟨SPAN, .variableLt, .property ⟨SPAN, name⟩⟩

/-- `assignment_statement` helper. -/
def assignmentStatementB (left : VariableExpression) (right : Expression) :
    Statement := .assignment SPAN left .assign right

/-- `bitwise_operation_statement`: the synthesized bit-by-bit loop block and
the replacement variable reference.  Note `num_1_expr` is built as
`NumericLiteral { value: 2.0, raw: "1" }` in the source — the value `2` with
raw text `"1"` is mirrored faithfully here. -/
def bitwiseOperationStatement (left right : Expression)
    (operation : BitwiseOperation) (index : Nat) : Statement × Expression :=
  let resultVar := variableExpressionB ("__" ++ toString index ++ "_result")
  let bitVar := variableExpressionB ("__" ++ toString index ++ "_bit")
  let leftBitVar := variableExpressionB ("__" ++ toString index ++ "_left_bit")
  let rightBitVar := variableExpressionB ("__" ++ toString index ++ "_right_bit")
  let num0 : Expression := .numericLiteral SPAN 0 "0"
  let num1 : Expression := .numericLiteral SPAN 2 "1"
  let num2 : Expression := .numericLiteral SPAN 2 "2"
  let extractBit (inputVar bitV : Expression) : Expression :=
    mathModExpression
      (mathFloorExpression
        (binaryExpressionB inputVar .division (mathPowExpression num2 bitV)))
      num2
  let (opBitVar, opExpr) :=
    match operation with
    | .or =>
      (variableExpressionB ("__" ++ toString index ++ "_or_bit"),
       mathMinExpression num1
         (binaryExpressionB (.variableExpr leftBitVar) .addition
           (.variableExpr rightBitVar)))
    | .and =>
      (variableExpressionB ("__" ++ toString index ++ "_and_bit"),
       binaryExpressionB (.variableExpr leftBitVar) .multiplication
         (.variableExpr rightBitVar))
    | .xor =>
      (variableExpressionB ("__" ++ toString index ++ "_xor_bit"),
       mathModExpression
         (binaryExpressionB (.variableExpr leftBitVar) .addition
           (.variableExpr rightBitVar))
         num2)
  let loopStatements : List Statement :=
    [assignmentStatementB leftBitVar (extractBit left (.variableExpr bitVar)),
     assignmentStatementB rightBitVar (extractBit right (.variableExpr bitVar)),
     assignmentStatementB opBitVar opExpr,
     assignmentStatementB resultVar
       (binaryExpressionB (.variableExpr resultVar) .addition
         (binaryExpressionB (.variableExpr opBitVar) .multiplication
           (mathPowExpression num2 (.variableExpr bitVar)))),
     assignmentStatementB bitVar
       (binaryExpressionB (.variableExpr bitVar) .addition num1)]
  let blockStatements : List Statement :=
    [assignmentStatementB resultVar num0,
     assignmentStatementB bitVar num0,
     .loop SPAN (.numericLiteral SPAN 24 "24") (.mk SPAN loopStatements)]
  (.expression (.block (.mk SPAN blockStatements)), .variableExpr resultVar)

/-! ### Pass 1 — `ProgramBodyTransformer`

The scan that decides promotion: `needs_complex` is set (when the program
body is `Simple`) by `enter_update_expression` on any update node and by
`enter_binary_expression` on any `|`/`&`/`^` binary, anywhere in the tree. -/

mutual

/-- Does the expression contain an update node or a bitwise binary? -/
def ncExpr (e : Expression) : Bool :=
  match e with
  | .numericLiteral _ _ _ => false
  | .booleanLiteral _ _ => false
  | .stringLiteral _ _ => false
  | .variableExpr _ => false
  | .parenthesized _ (.single e1) => ncExpr e1
  | .parenthesized _ (.multiple stmts) => ncStmts stmts
  | .block (.mk _ stmts) => ncStmts stmts
  | .binary _ l op r =>
    (match op with
     | .bitwiseOr | .bitwiseAnd | .bitwiseXor => true
     | _ => false) || ncExpr l || ncExpr r
  | .unary _ _ a => ncExpr a
  | .update _ _ _ => true
  | .ternary _ t c a => ncExpr t || ncExpr c || ncExpr a
  | .conditional _ t c => ncExpr t || ncExpr c
  | .resource _ _ _ => false
  | .arrayAccess _ _ i => ncExpr i
  | .arrowAccess _ l r => ncExpr l || ncExpr r
  | .call _ _ _ none => false
  | .call _ _ _ (some args) => ncExprList args
  | .thisExpr _ => false
termination_by structural e

/-- `ncExpr` over an argument list. -/
def ncExprList (args : List Expression) : Bool :=
  match args with
  | [] => false
  | e :: rest => ncExpr e || ncExprList rest
termination_by structural args

/-- `ncExpr` over a statement. -/
def ncStmt (s : Statement) : Bool :=
  match s with
  | .expression e => ncExpr e
  | .assignment _ _ _ r => ncExpr r
  | .loop _ c (.mk _ stmts) => ncExpr c || ncStmts stmts
  | .forEach _ _ a (.mk _ stmts) => ncExpr a || ncStmts stmts
  | .ret _ a => ncExpr a
  | .breakStmt _ => false
  | .continueStmt _ => false
  | .empty _ => false
termination_by structural s

/-- `ncStmt` over a statement list. -/
def ncStmts (stmts : List Statement) : Bool :=
  match stmts with
  | [] => false
  | s :: rest => ncStmt s || ncStmts rest
termination_by structural stmts

end

end Nolana

namespace Nolana

/-! ### Pass 2 — the main transformer walk

`tExpression` is `walk_expression` fused with `enter_expression`
(= `transform_update_expression` then `transform_binary_expression`);
`tStatement` is `walk_statement` fused with `enter_statement`
(scope counter increment, then `transform_assignment_statement`);
`tStatements` is `walk_statements` fused with `enter_statements` (scope push)
and `exit_statements` (pop, splice, dead-read elimination).  `nc` is the
`needs_complex` flag of the `ProgramBodyTransformer` (constant during this
pass). -/

mutual

/-- Walk an expression (enter hooks, then children of the replacement). -/
def tExpression (nc : Bool) (scopes : List Scope) (e : Expression) :
    Option (Expression × List Scope) :=
  match e with
  | .update _ v _op =>
    -- transform_update_expression: synthesize `v = v ± 1`, replace by `v`
    match scopes with
    | [] => none
    | sc :: rest =>
      let updateStmt : Statement :=
        .assignment SPAN v .assign
          (.binary SPAN (.variableExpr v) (binOpOfUpdateOp _op)
            (.numericLiteral SPAN 1 "1"))
      let index := sc.newStatements.length + sc.statementCount - 1
      some (.variableExpr v,
        { sc with newStatements := sc.newStatements ++ [(index, updateStmt)] } :: rest)
  | .binary sp l op r =>
    if op.isCustom then
      -- transform_binary_expression: `self.scope()` runs before the match,
      -- so an empty stack panics for every custom operator
      match scopes with
      | [] => none
      | sc :: rest =>
        match op with
        | .remainder => do
          let (l1, s1) ← tExpression nc (sc :: rest) l
          let (r1, s2) ← tExpression nc s1 r
          some (mathModExpression l1 r1, s2)
        | .exponential => do
          let (l1, s1) ← tExpression nc (sc :: rest) l
          let (r1, s2) ← tExpression nc s1 r
          some (mathPowExpression l1 r1, s2)
        | .shiftLeft => do
          let (l1, s1) ← tExpression nc (sc :: rest) l
          let (r1, s2) ← tExpression nc s1 r
          some (shiftLeftExpression l1 r1, s2)
        | .shiftRight => do
          let (l1, s1) ← tExpression nc (sc :: rest) l
          let (r1, s2) ← tExpression nc s1 r
          some (shiftRightExpression l1 r1, s2)
        | .bitwiseOr | .bitwiseAnd | .bitwiseXor =>
          -- the operands go (unwalked) into the synthesized statement
          let index := sc.newStatements.length + sc.statementCount - 1
          let (orStmt, orVarExpr) :=
            bitwiseOperationStatement l r (bitwiseOpOfBinOp op) index
          some (orVarExpr,
            { sc with newStatements := sc.newStatements ++ [(index, orStmt)] } :: rest)
        | _ => none
    else do
      let (l1, s1) ← tExpression nc scopes l
      let (r1, s2) ← tExpression nc s1 r
      some (.binary sp l1 op r1, s2)
  | .parenthesized sp (.single e1) => do
    let (e2, s1) ← tExpression nc scopes e1
    some (.parenthesized sp (.single e2), s1)
  | .parenthesized sp (.multiple stmts) => do
    let r ← tStatementsLoop nc (⟨0, []⟩ :: scopes) stmts
    let (stmts1, s1) ← exitStatements nc r
    some (.parenthesized sp (.multiple stmts1), s1)
  | .block (.mk bsp stmts) => do
    let r ← tStatementsLoop nc (⟨0, []⟩ :: scopes) stmts
    let (stmts1, s1) ← exitStatements nc r
    some (.block (.mk bsp stmts1), s1)
  | .unary sp op a => do
    let (a1, s1) ← tExpression nc scopes a
    some (.unary sp op a1, s1)
  | .ternary sp t c a => do
    let (t1, s1) ← tExpression nc scopes t
    let (c1, s2) ← tExpression nc s1 c
    let (a1, s3) ← tExpression nc s2 a
    some (.ternary sp t1 c1 a1, s3)
  | .conditional sp t c => do
    let (t1, s1) ← tExpression nc scopes t
    let (c1, s2) ← tExpression nc s1 c
    some (.conditional sp t1 c1, s2)
  | .arrayAccess sp name i => do
    let (i1, s1) ← tExpression nc scopes i
    some (.arrayAccess sp name i1, s1)
  | .arrowAccess sp l r => do
    let (l1, s1) ← tExpression nc scopes l
    let (r1, s2) ← tExpression nc s1 r
    some (.arrowAccess sp l1 r1, s2)
  | .call sp kind callee (some args) => do
    let (args1, s1) ← tExpressionList nc scopes args
    some (.call sp kind callee (some args1), s1)
  | e1 => some (e1, scopes)
termination_by structural e

/-- Walk a call argument list in order. -/
def tExpressionList (nc : Bool) (scopes : List Scope)
    (args : List Expression) : Option (List Expression × List Scope) :=
  match args with
  | [] => some ([], scopes)
  | e :: rest => do
    let (e1, s1) ← tExpression nc scopes e
    let (rest1, s2) ← tExpressionList nc s1 rest
    some (e1 :: rest1, s2)
termination_by structural args

/-- Walk a statement: `enter_statement` (counter increment +
`transform_assignment_statement`), then the children of the (possibly
replaced) statement. -/
def tStatement (nc : Bool) (scopes : List Scope) (s : Statement) :
    Option (Statement × List Scope) :=
  match scopes with
  | [] => none
  | sc0 :: rest0 =>
    let sc := { sc0 with statementCount := sc0.statementCount + 1 }
    let scopes := sc :: rest0
    match s with
    | .assignment sp left op right =>
      if op.isCustom then
        -- transform_assignment_statement
        let lhsExpr : Expression :=
          if left.isStruct then .variableExpr left
          else
            binaryExpressionB (.variableExpr left) .coalesce
              (.numericLiteral SPAN 0 "0")
        match op with
        | .addition | .subtraction | .multiplication | .division => do
          let (r1, s1) ← tExpression nc scopes right
          some (.assignment sp left .assign
            (binaryExpressionB lhsExpr (binOpOfAssignOp op) r1), s1)
        | .exponential => do
          let (r1, s1) ← tExpression nc scopes right
          some (.assignment sp left .assign (mathPowExpression lhsExpr r1), s1)
        | .remainder => do
          let (r1, s1) ← tExpression nc scopes right
          some (.assignment sp left .assign (mathModExpression lhsExpr r1), s1)
        | .logicalOr => do
          -- statement replaced by `!left ? { left = right; }`; the walk then
          -- enters the block: fresh scope, counter 1, walk `right`, splice
          let (r1, s1) ← tExpression nc (⟨1, []⟩ :: scopes) right
          match s1 with
          | [] => none
          | scB :: rest1 => do
            let inner ← insertAll scB.newStatements [.assignment sp left .assign r1]
            let inner := optimizeStatements nc inner
            some (.expression (.conditional SPAN
              (.unary SPAN .not (.variableExpr left))
              (.block (.mk SPAN inner))), rest1)
        | .logicalAnd => do
          let (r1, s1) ← tExpression nc (⟨1, []⟩ :: scopes) right
          match s1 with
          | [] => none
          | scB :: rest1 => do
            let inner ← insertAll scB.newStatements [.assignment sp left .assign r1]
            let inner := optimizeStatements nc inner
            some (.expression (.conditional SPAN
              (.variableExpr left)
              (.block (.mk SPAN inner))), rest1)
        | .shiftLeft => do
          let (r1, s1) ← tExpression nc scopes right
          some (.assignment sp left .assign (shiftLeftExpression lhsExpr r1), s1)
        | .shiftRight => do
          let (r1, s1) ← tExpression nc scopes right
          some (.assignment sp left .assign (shiftRightExpression lhsExpr r1), s1)
        | .bitwiseOr | .bitwiseAnd | .bitwiseXor =>
          -- `lhsExpr` and `right` go (unwalked) into the synthesized statement
          let index := sc.newStatements.length + sc.statementCount - 1
          let (orStmt, orVarExpr) :=
            bitwiseOperationStatement lhsExpr right (bitwiseOpOfAssignOp op) index
          some (.assignment sp left .assign orVarExpr,
            { sc with newStatements := sc.newStatements ++ [(index, orStmt)] } :: rest0)
        | .assign => none
      else do
        let (r1, s1) ← tExpression nc scopes right
        some (.assignment sp left op r1, s1)
    | .expression e => do
      let (e1, s1) ← tExpression nc scopes e
      some (.expression e1, s1)
    | .loop sp c (.mk bsp stmts) => do
      let (c1, s1) ← tExpression nc scopes c
      let r ← tStatementsLoop nc (⟨0, []⟩ :: s1) stmts
      let (stmts1, s2) ← exitStatements nc r
      some (.loop sp c1 (.mk bsp stmts1), s2)
    | .forEach sp v a (.mk bsp stmts) => do
      let (a1, s1) ← tExpression nc scopes a
      let r ← tStatementsLoop nc (⟨0, []⟩ :: s1) stmts
      let (stmts1, s2) ← exitStatements nc r
      some (.forEach sp v a1 (.mk bsp stmts1), s2)
    | .ret sp a => do
      let (a1, s1) ← tExpression nc scopes a
      some (.ret sp a1, s1)
    | s1 => some (s1, scopes)
termination_by structural s

/-- Walk the statements of one list (between `enter_statements` and
`exit_statements` of the enclosing `walk_statements`). -/
def tStatementsLoop (nc : Bool) (scopes : List Scope)
    (stmts : List Statement) : Option (List Statement × List Scope) :=
  match stmts with
  | [] => some ([], scopes)
  | s :: rest => do
    let (s1, sc1) ← tStatement nc scopes s
    let (rest1, sc2) ← tStatementsLoop nc sc1 rest
    some (s1 :: rest1, sc2)
termination_by structural stmts

end

/-- `walk_statements` with the transformer hooks: push a fresh scope, walk,
pop, splice the synthesized statements, run dead-read elimination. -/
def tStatements (nc : Bool) (scopes : List Scope) (stmts : List Statement) :
    Option (List Statement × List Scope) := do
  let r ← tStatementsLoop nc (⟨0, []⟩ :: scopes) stmts
  exitStatements nc r

/-- `MolangTransformer::transform`: pass 1 (promotion), the main walk, and
the `exit_program` hook (`add_return_statement`).  `none` models a panic. -/
def transform (p : Program) : Option Program := do
  let nc :=
    match p.body with
    | .simple e => ncExpr e
    | _ => false
  let body1 :=
    if nc then
      match p.body with
      | .simple e => ProgramBody.complex [.expression e]
      | b => b
    else p.body
  let body2 ←
    match body1 with
    | .simple e => do
      let (e1, _) ← tExpression nc [] e
      some (ProgramBody.simple e1)
    | .complex stmts => do
      let (stmts1, _) ← tStatements nc [] stmts
      some (ProgramBody.complex stmts1)
    | .empty => some ProgramBody.empty
  let body3 ←
    if nc then
      match body2 with
      | .complex stmts =>
        match stmts.getLast? with
        | some (.expression e) =>
          some (ProgramBody.complex (stmts.dropLast ++ [.ret SPAN e]))
        | some _ => none
        | none => none
      | b => some b
    else some body2
  some { p with body := body3 }

end Nolana

namespace Nolana

/-! ## Semantic checker (`src/semantic.rs`)

The traversal composed with `SemanticChecker`'s hooks.  The hooks in
`semantic.rs` only read the nodes (they push diagnostics and maintain
`loop_depth`); the embedding threads the checker state and returns the walked
tree, so that the frame property (claim C10) is a theorem about the walk
rather than a modelling assumption. -/

/-- `SemanticChecker` state. -/
structure ChkState where
  loopDepth : Nat
  errors : List Diagnostic

/-- `empty_block`. -/
def emptyBlockDiag (s : Span) : Diagnostic :=
  Diagnostic.error "block statement must contain at least one statement"
    |>.withLabel s

/-- `illegal_string_binary`. -/
def illegalStringBinaryDiag (s : Span) : Diagnostic :=
  Diagnostic.error "strings only support `==` and `!=` operators" |>.withLabel s

/-- `break_outside_loop`. -/
def breakOutsideLoopDiag (s : Span) : Diagnostic :=
  Diagnostic.error "`break` is only supported inside `loop` and `for_each` statements"
    |>.withLabel s

/-- `continue_outside_loop`. -/
def continueOutsideLoopDiag (s : Span) : Diagnostic :=
  Diagnostic.error "`continue` is only supported inside `loop` and `for_each` statements"
    |>.withLabel s

/-- `context_readonly`. -/
def contextReadonlyDiag (s : Span) : Diagnostic :=
  Diagnostic.error "`context.*` variables are read-only"
    |>.withHelp "try using `variable.*` or `temp.*` instead" |>.withLabel s

/-- `for_each_wrong_first_arg`. -/
def forEachWrongFirstArgDiag (s : Span) : Diagnostic :=
  Diagnostic.error "`for_each` first argument must be either `variable.*` or `temp.*`"
    |>.withLabel s

/-- Push a diagnostic onto the checker state. -/
def ChkState.push (st : ChkState) (d : Diagnostic) : ChkState :=
  { st with errors := st.errors ++ [d] }

/-- Is the expression a `StringLiteral` node? (the operand test of
`enter_binary_expression`). -/
def isStringLit : Expression → Bool
  | .stringLiteral _ _ => true
  | _ => false

/-- The push condition of `SemanticChecker::enter_binary_expression`: both
operands string literals with an operator other than `==`/`!=`, or exactly
one operand a string literal (any operator). -/
def stringOpViolation (l : Expression) (op : BinaryOperator) (r : Expression) :
    Bool :=
  if isStringLit l && isStringLit r then
    !(op = BinaryOperator.equality || op = BinaryOperator.inequality)
  else isStringLit l || isStringLit r

/-- `walk_variable_member` (no checker hooks; rebuilds the chain). -/
def chkMember : VariableMember → VariableMember
  | .object o p => .object (chkMember o) p
  | .property p => .property p

/-- `walk_variable_expression` (no checker hooks). -/
def chkVariable (v : VariableExpression) : VariableExpression :=
  ⟨v.span, v.lifetime, chkMember v.member⟩

mutual

/-- Walk an expression with the checker hooks. -/
def chkExpression (st : ChkState) (e : Expression) : Expression × ChkState :=
  match e with
  | .numericLiteral sp v r => (.numericLiteral sp v r, st)
  | .booleanLiteral sp v => (.booleanLiteral sp v, st)
  | .stringLiteral sp v => (.stringLiteral sp v, st)
  | .variableExpr v => (.variableExpr (chkVariable v), st)
  | .parenthesized sp (.single e1) =>
    let a := chkExpression st e1
    (.parenthesized sp (.single a.1), a.2)
  | .parenthesized sp (.multiple stmts) =>
    let a := chkStatements st stmts
    (.parenthesized sp (.multiple a.1), a.2)
  | .block (.mk sp stmts) =>
    -- enter_block_expression: empty blocks are diagnosed
    let st := if stmts.isEmpty then st.push (emptyBlockDiag sp) else st
    let a := chkStatements st stmts
    (.block (.mk sp a.1), a.2)
  | .binary sp l op r =>
    -- enter_binary_expression: the string-operand check
    let st := if stringOpViolation l op r then st.push (illegalStringBinaryDiag sp) else st
    let a := chkExpression st l
    let b := chkExpression a.2 r
    (.binary sp a.1 op b.1, b.2)
  | .unary sp op arg =>
    let a := chkExpression st arg
    (.unary sp op a.1, a.2)
  | .update sp v op =>
    -- enter_update_expression: updates of `context.*` are diagnosed
    let st := if v.lifetime = VariableLifetime.context then st.push (contextReadonlyDiag sp) else st
    (.update sp (chkVariable v) op, st)
  | .ternary sp t c alt =>
    let a := chkExpression st t
    let b := chkExpression a.2 c
    let d := chkExpression b.2 alt
    (.ternary sp a.1 b.1 d.1, d.2)
  | .conditional sp t c =>
    let a := chkExpression st t
    let b := chkExpression a.2 c
    (.conditional sp a.1 b.1, b.2)
  | .resource sp sect n => (.resource sp sect n, st)
  | .arrayAccess sp n i =>
    let a := chkExpression st i
    (.arrayAccess sp n a.1, a.2)
  | .arrowAccess sp l r =>
    let a := chkExpression st l
    let b := chkExpression a.2 r
    (.arrowAccess sp a.1 b.1, b.2)
  | .call sp kind callee none => (.call sp kind callee none, st)
  | .call sp kind callee (some args) =>
    let a := chkExpressionList st args
    (.call sp kind callee (some a.1), a.2)
  | .thisExpr sp => (.thisExpr sp, st)
termination_by structural e

/-- Walk a call argument list with the checker hooks. -/
def chkExpressionList (st : ChkState) (args : List Expression) :
    List Expression × ChkState :=
  match args with
  | [] => ([], st)
  | e :: rest =>
    let a := chkExpression st e
    let b := chkExpressionList a.2 rest
    (a.1 :: b.1, b.2)
termination_by structural args

/-- Walk a statement with the checker hooks. -/
def chkStatement (st : ChkState) (s : Statement) : Statement × ChkState :=
  match s with
  | .expression e =>
    let a := chkExpression st e
    (.expression a.1, a.2)
  | .assignment sp left op right =>
    -- enter_assignment_statement: assignments to `context.*` are diagnosed
    let st := if left.lifetime = VariableLifetime.context then st.push (contextReadonlyDiag sp) else st
    let a := chkExpression st right
    (.assignment sp (chkVariable left) op a.1, a.2)
  | .loop sp c (.mk bsp stmts) =>
    -- enter_loop_statement / exit_loop_statement: loop depth bracket
    let st : ChkState := { st with loopDepth := st.loopDepth + 1 }
    let a := chkExpression st c
    let stB := if stmts.isEmpty then a.2.push (emptyBlockDiag bsp) else a.2
    let b := chkStatements stB stmts
    (.loop sp a.1 (.mk bsp b.1), { b.2 with loopDepth := b.2.loopDepth - 1 })
  | .forEach sp v arr (.mk bsp stmts) =>
    -- enter_for_each_statement: depth bracket plus the first-argument check
    let st : ChkState := { st with loopDepth := st.loopDepth + 1 }
    let st := if v.lifetime = VariableLifetime.context then st.push (forEachWrongFirstArgDiag v.span) else st
    let a := chkExpression st arr
    let stB := if stmts.isEmpty then a.2.push (emptyBlockDiag bsp) else a.2
    let b := chkStatements stB stmts
    (.forEach sp (chkVariable v) a.1 (.mk bsp b.1),
      { b.2 with loopDepth := b.2.loopDepth - 1 })
  | .ret sp arg =>
    let a := chkExpression st arg
    (.ret sp a.1, a.2)
  | .breakStmt sp =>
    let st := if st.loopDepth = 0 then st.push (breakOutsideLoopDiag sp) else st
    (.breakStmt sp, st)
  | .continueStmt sp =>
    let st := if st.loopDepth = 0 then st.push (continueOutsideLoopDiag sp) else st
    (.continueStmt sp, st)
  | .empty sp => (.empty sp, st)
termination_by structural s

/-- Walk a statement list with the checker hooks. -/
def chkStatements (st : ChkState) (stmts : List Statement) :
    List Statement × ChkState :=
  match stmts with
  | [] => ([], st)
  | s :: rest =>
    let a := chkStatement st s
    let b := chkStatements a.2 rest
    (a.1 :: b.1, b.2)
termination_by structural stmts

end

/-- `SemanticChecker::check`: returns the walked tree and the diagnostics
(the Rust function takes `&mut Program` and returns the diagnostics; the
returned tree makes the frame property a provable statement). -/
def check (p : Program) : Program × List Diagnostic :=
  let st0 : ChkState := ⟨0, []⟩
  match p.body with
  | .simple e =>
    let (e1, st1) := chkExpression st0 e
    ({ p with body := .simple e1 }, st1.errors)
  | .complex stmts =>
    let (stmts1, st1) := chkStatements st0 stmts
    ({ p with body := .complex stmts1 }, st1.errors)
  | .empty => ({ p with body := .empty }, st0.errors)

end Nolana

namespace Nolana

/-! ## Scanners used by the claims -/

/-- Is the program body `Empty`? -/
def ProgramBody.isEmptyB : ProgramBody → Bool
  | .empty => true
  | _ => false

mutual

/-- Does the expression contain an update node, a binary with a custom
operator (`%`, `**`, `<<`, `>>`, `|`, `&`, `^`), or — in a nested statement —
a compound assignment? -/
def forbExpr (e : Expression) : Bool :=
  match e with
  | .numericLiteral _ _ _ => false
  | .booleanLiteral _ _ => false
  | .stringLiteral _ _ => false
  | .variableExpr _ => false
  | .parenthesized _ (.single e1) => forbExpr e1
  | .parenthesized _ (.multiple stmts) => forbStmts stmts
  | .block (.mk _ stmts) => forbStmts stmts
  | .binary _ l op r => op.isCustom || forbExpr l || forbExpr r
  | .unary _ _ a => forbExpr a
  | .update _ _ _ => true
  | .ternary _ t c a => forbExpr t || forbExpr c || forbExpr a
  | .conditional _ t c => forbExpr t || forbExpr c
  | .resource _ _ _ => false
  | .arrayAccess _ _ i => forbExpr i
  | .arrowAccess _ l r => forbExpr l || forbExpr r
  | .call _ _ _ none => false
  | .call _ _ _ (some args) => forbExprList args
  | .thisExpr _ => false
termination_by structural e

/-- `forbExpr` over a call argument list. -/
def forbExprList (args : List Expression) : Bool :=
  match args with
  | [] => false
  | e :: rest => forbExpr e || forbExprList rest
termination_by structural args

/-- `forbExpr` over a statement (also flags compound assignments). -/
def forbStmt (s : Statement) : Bool :=
  match s with
  | .expression e => forbExpr e
  | .assignment _ _ op r => op.isCustom || forbExpr r
  | .loop _ c (.mk _ stmts) => forbExpr c || forbStmts stmts
  | .forEach _ _ a (.mk _ stmts) => forbExpr a || forbStmts stmts
  | .ret _ a => forbExpr a
  | .breakStmt _ => false
  | .continueStmt _ => false
  | .empty _ => false
termination_by structural s

/-- `forbStmt` over a statement list. -/
def forbStmts (stmts : List Statement) : Bool :=
  match stmts with
  | [] => false
  | s :: rest => forbStmt s || forbStmts rest
termination_by structural stmts

end

/-- Does the program contain any construct the transformer is required to
eliminate (updates, compound assignments, custom binary operators)? -/
def containsForbidden (p : Program) : Bool :=
  match p.body with
  | .simple e => forbExpr e
  | .complex stmts => forbStmts stmts
  | .empty => false

mutual

/-- Does the expression contain a numeric literal whose `(value, raw)` pair
satisfies `pred`? -/
def anyLitExpr (pred : Rat → String → Bool) (e : Expression) : Bool :=
  match e with
  | .numericLiteral _ v r => pred v r
  | .booleanLiteral _ _ => false
  | .stringLiteral _ _ => false
  | .variableExpr _ => false
  | .parenthesized _ (.single e1) => anyLitExpr pred e1
  | .parenthesized _ (.multiple stmts) => anyLitStmts pred stmts
  | .block (.mk _ stmts) => anyLitStmts pred stmts
  | .binary _ l _ r => anyLitExpr pred l || anyLitExpr pred r
  | .unary _ _ a => anyLitExpr pred a
  | .update _ _ _ => false
  | .ternary _ t c a => anyLitExpr pred t || anyLitExpr pred c || anyLitExpr pred a
  | .conditional _ t c => anyLitExpr pred t || anyLitExpr pred c
  | .resource _ _ _ => false
  | .arrayAccess _ _ i => anyLitExpr pred i
  | .arrowAccess _ l r => anyLitExpr pred l || anyLitExpr pred r
  | .call _ _ _ none => false
  | .call _ _ _ (some args) => anyLitExprList pred args
  | .thisExpr _ => false
termination_by structural e

/-- `anyLitExpr` over a call argument list. -/
def anyLitExprList (pred : Rat → String → Bool) (args : List Expression) :
    Bool :=
  match args with
  | [] => false
  | e :: rest => anyLitExpr pred e || anyLitExprList pred rest
termination_by structural args

/-- `anyLitExpr` over a statement. -/
def anyLitStmt (pred : Rat → String → Bool) (s : Statement) : Bool :=
  match s with
  | .expression e => anyLitExpr pred e
  | .assignment _ _ _ r => anyLitExpr pred r
  | .loop _ c (.mk _ stmts) => anyLitExpr pred c || anyLitStmts pred stmts
  | .forEach _ _ a (.mk _ stmts) => anyLitExpr pred a || anyLitStmts pred stmts
  | .ret _ a => anyLitExpr pred a
  | .breakStmt _ => false
  | .continueStmt _ => false
  | .empty _ => false
termination_by structural s

/-- `anyLitStmt` over a statement list. -/
def anyLitStmts (pred : Rat → String → Bool) (stmts : List Statement) : Bool :=
  match stmts with
  | [] => false
  | s :: rest => anyLitStmt pred s || anyLitStmts pred rest
termination_by structural stmts

end

/-- Does the program contain a numeric literal whose `(value, raw)` pair
satisfies `pred`? -/
def anyLitProgram (pred : Rat → String → Bool) (p : Program) : Bool :=
  match p.body with
  | .simple e => anyLitExpr pred e
  | .complex stmts => anyLitStmts pred stmts
  | .empty => false

end Nolana

namespace Nolana

/-! ## Claim theorems (evaluation-based) -/

/-- C1. The claim states that after `MolangTransformer::transform` returns,
the tree contains no Update expression, no compound assignment and no custom
binary operator, including inside the statements the transformer itself
synthesizes.  The code violates this: for the error-free program
`v.a % v.b | v.c;` the bitwise lowering moves the untransformed operand
`v.a % v.b` into the synthesized loop statement, which is spliced in at
`exit_statements` after the walk and never revisited, so a `%` binary (a
forbidden custom operator) survives transformation. -/
theorem claim_C1_custom_op_survives_transform :
    (parse "v.a % v.b | v.c;").errors = [] ∧
    (transform (parse "v.a % v.b | v.c;").program).map containsForbidden =
      some true := by
  constructor
  · decide
  · decide

/-- C2. The claim states that `transform` terminates normally (no panic) on
every program `Parser::parse` returns, including `Simple` programs using a
custom operator such as `%`.  The code violates this: `v.x % v.y` parses
without errors to a `Simple` program, pass 1 does not promote it (only
updates and bitwise operators promote), and in the main pass
`transform_binary_expression` calls `self.scope()` — an `unwrap` of the empty
scope stack — for every custom operator, so the transformer panics (`none` in
the embedding). -/
theorem claim_C2_transform_panics_on_simple_custom :
    (parse "v.x % v.y").errors = [] ∧
    (parse "v.x % v.y").program.body.isSimple = true ∧
    (transform (parse "v.x % v.y").program).isNone = true := by
  refine ⟨by decide, by decide, by decide⟩

/-- C5. The claim states that a numeric literal with the trailing `f` suffix
(e.g. `1.5f`) parses to a `NumericLiteral` with the value of the unsuffixed
literal and no InvalidNumber error.  The code violates this: the lexer
accepts `1.5f` as a `Number` token (slice included), but
`parse_literal_number` calls `raw.parse::<f32>()` on the unstripped slice —
which Rust's float parser rejects — so parsing reports `invalid number` and
returns an `Empty` program.  (The suffix-less `1.5` is accepted with value
3/2, confirming that only the unstripped suffix is at fault, exactly what
the `NOTE` comment above `Kind::Number` in `token.rs` says must be removed.) -/
theorem claim_C5_f_suffix_rejected :
    lex "1.5f" = [⟨.number, "1.5f", 0, 4⟩] ∧
    rustF32Parse "1.5f" = none ∧
    rustF32Parse "1.5" = some (mkRat 3 2) ∧
    (parse "1.5f").errors = [invalidNumber ⟨0, 4⟩] ∧
    (parse "1.5f").program.body.isEmptyB = true := by
  refine ⟨by decide, by decide, by decide, by decide, by decide⟩

/-- Shape test: the body is `!(A && B)` — a Not applied to an And. -/
def notOverAnd : ProgramBody → Bool
  | .simple (.unary _ .not (.binary _ _ .and _)) => true
  | _ => false

/-- Shape test: the body is `(!A) && B` — an And whose left is a Not. -/
def andOverNot : ProgramBody → Bool
  | .simple (.binary _ (.unary _ .not _) .and _) => true
  | _ => false

/-- C7. The claim states that prefix `!` parses its operand with right
binding power 27 per the precedence table, so `!A && B` (with `&&` at lbp 7)
yields `(!A) && B`.  The code violates this: `Kind::binding_power` does
assign `Bang ↦ (27, 28)`, but `parse_unary_expression` parses the operand
with minimum binding power `0`, ignoring the table, so `!v.a && v.b` parses
as `!(v.a && v.b)` and not as `(!v.a) && v.b`. -/
theorem claim_C7_bang_ignores_binding_power :
    Kind.bang.bindingPower = some (27, 28) ∧
    (parse "!v.a && v.b").errors = [] ∧
    notOverAnd (parse "!v.a && v.b").program.body = true ∧
    andOverNot (parse "!v.a && v.b").program.body = false := by
  refine ⟨by decide, by decide, by decide, by decide⟩

/-- C9. The claim states that every `NumericLiteral` in any AST — parsed or
synthesized — has `value` equal to the number its `raw` text denotes.  The
code violates this: `bitwise_operation_statement` builds `num_1_expr` as
`NumericLiteral { value: 2.0, raw: "1" }`, so transforming `v.x | v.y;`
produces a literal whose raw text `"1"` denotes 1 while its value is 2. -/
theorem claim_C9_synthesized_literal_mismatch :
    (parse "v.x | v.y;").errors = [] ∧
    (transform (parse "v.x | v.y;").program).map
      (anyLitProgram fun v r => r = "1" && v = 2) = some true ∧
    rustF32Parse "1" = some 1 := by
  refine ⟨by decide, by decide, by decide⟩

/-- C6 (counterexample). The claim as stated says `==`/`!=` comparisons
involving a string literal operand produce no diagnostic; but
`SemanticChecker::enter_binary_expression` pushes the illegal-string-operator
diagnostic whenever exactly one operand is a string literal, regardless of
the operator: checking the error-free program `'foo' == 1` emits exactly the
illegal-string-operator diagnostic. -/
theorem claim_C6_counterexample_eq_mixed_string :
    (parse "'foo' == 1").errors = [] ∧
    (check (parse "'foo' == 1").program).2 =
      [illegalStringBinaryDiag ⟨0, 10⟩] := by
  refine ⟨by decide, by decide⟩

end Nolana

namespace Nolana

/-! ## C10 — the checker never modifies the tree -/

/-- The member walk rebuilds the member chain unchanged. -/
theorem chkMember_id (mem : VariableMember) : chkMember mem = mem := by
  induction mem with
  | object o p ih => simp [chkMember, ih]
  | property p => simp [chkMember]

/-- The variable walk rebuilds the variable unchanged. -/
theorem chkVariable_id (v : VariableExpression) : chkVariable v = v := by
  cases v with
  | mk sp lt mem => simp [chkVariable, chkMember_id]

mutual

/-- The expression walk of the checker rebuilds the expression unchanged. -/
theorem chkExpression_fst (st : ChkState) (e : Expression) :
    (chkExpression st e).1 = e :=
  match e with
  | .numericLiteral _ _ _ => by simp [chkExpression]
  | .booleanLiteral _ _ => by simp [chkExpression]
  | .stringLiteral _ _ => by simp [chkExpression]
  | .variableExpr v => by simp [chkExpression, chkVariable_id]
  | .parenthesized sp (.single e1) => by
    simp [chkExpression, chkExpression_fst _ e1]
  | .parenthesized sp (.multiple stmts) => by
    simp [chkExpression, chkStatements_fst _ stmts]
  | .block (.mk sp stmts) => by
    simp [chkExpression, chkStatements_fst _ stmts]
  | .binary sp l op r => by
    simp [chkExpression, chkExpression_fst _ l, chkExpression_fst _ r]
  | .unary sp op a => by simp [chkExpression, chkExpression_fst _ a]
  | .update sp v op => by simp [chkExpression, chkVariable_id]
  | .ternary sp t c a => by
    simp [chkExpression, chkExpression_fst _ t, chkExpression_fst _ c,
      chkExpression_fst _ a]
  | .conditional sp t c => by
    simp [chkExpression, chkExpression_fst _ t, chkExpression_fst _ c]
  | .resource _ _ _ => by simp [chkExpression]
  | .arrayAccess sp n i => by simp [chkExpression, chkExpression_fst _ i]
  | .arrowAccess sp l r => by
    simp [chkExpression, chkExpression_fst _ l, chkExpression_fst _ r]
  | .call sp kind callee none => by simp [chkExpression]
  | .call sp kind callee (some args) => by
    simp [chkExpression, chkExpressionList_fst _ args]
  | .thisExpr _ => by simp [chkExpression]
termination_by structural e

/-- The argument-list walk of the checker rebuilds the list unchanged. -/
theorem chkExpressionList_fst (st : ChkState) (args : List Expression) :
    (chkExpressionList st args).1 = args :=
  match args with
  | [] => by simp [chkExpressionList]
  | e :: rest => by
    simp [chkExpressionList, chkExpression_fst _ e, chkExpressionList_fst _ rest]
termination_by structural args

/-- The statement walk of the checker rebuilds the statement unchanged. -/
theorem chkStatement_fst (st : ChkState) (s : Statement) :
    (chkStatement st s).1 = s :=
  match s with
  | .expression e => by simp [chkStatement, chkExpression_fst _ e]
  | .assignment sp left op right => by
    simp [chkStatement, chkVariable_id, chkExpression_fst _ right]
  | .loop sp c (.mk bsp stmts) => by
    simp [chkStatement, chkExpression_fst _ c, chkStatements_fst _ stmts]
  | .forEach sp v a (.mk bsp stmts) => by
    simp [chkStatement, chkVariable_id, chkExpression_fst _ a,
      chkStatements_fst _ stmts]
  | .ret sp a => by simp [chkStatement, chkExpression_fst _ a]
  | .breakStmt _ => by simp [chkStatement]
  | .continueStmt _ => by simp [chkStatement]
  | .empty _ => by simp [chkStatement]
termination_by structural s

/-- The statement-list walk of the checker rebuilds the list unchanged. -/
theorem chkStatements_fst (st : ChkState) (stmts : List Statement) :
    (chkStatements st stmts).1 = stmts :=
  match stmts with
  | [] => by simp [chkStatements]
  | s :: rest => by
    simp [chkStatements, chkStatement_fst _ s, chkStatements_fst _ rest]
termination_by structural stmts

end

/-- C10. `SemanticChecker::check` never modifies the program it checks: for
every AST the walked tree (including every span) equals the input tree, and
the call's only output is the diagnostics vector. -/
theorem claim_C10_check_preserves_tree (p : Program) : (check p).1 = p := by
  cases p with
  | mk sp src body =>
    cases body with
    | simple e => simp [check, chkExpression_fst]
    | complex stmts => simp [check, chkStatements_fst]
    | empty => simp [check]

end Nolana

namespace Nolana

/-! ## C6 (amended) — the exact string-operator rule -/

/-- Count of illegal-string-operator diagnostics in a diagnostic list. -/
def countIllegalString (l : List Diagnostic) : Nat :=
  l.countP fun d => d.message = "strings only support `==` and `!=` operators"

mutual

/-- Number of binary nodes of the expression satisfying the checker's push
condition (`stringOpViolation`). -/
def vioExpr (e : Expression) : Nat :=
  match e with
  | .numericLiteral _ _ _ => 0
  | .booleanLiteral _ _ => 0
  | .stringLiteral _ _ => 0
  | .variableExpr _ => 0
  | .parenthesized _ (.single e1) => vioExpr e1
  | .parenthesized _ (.multiple stmts) => vioStmts stmts
  | .block (.mk _ stmts) => vioStmts stmts
  | .binary _ l op r =>
    (if stringOpViolation l op r then 1 else 0) + vioExpr l + vioExpr r
  | .unary _ _ a => vioExpr a
  | .update _ _ _ => 0
  | .ternary _ t c a => vioExpr t + vioExpr c + vioExpr a
  | .conditional _ t c => vioExpr t + vioExpr c
  | .resource _ _ _ => 0
  | .arrayAccess _ _ i => vioExpr i
  | .arrowAccess _ l r => vioExpr l + vioExpr r
  | .call _ _ _ none => 0
  | .call _ _ _ (some args) => vioExprList args
  | .thisExpr _ => 0
termination_by structural e

/-- `vioExpr` over a call argument list. -/
def vioExprList (args : List Expression) : Nat :=
  match args with
  | [] => 0
  | e :: rest => vioExpr e + vioExprList rest
termination_by structural args

/-- `vioExpr` over a statement. -/
def vioStmt (s : Statement) : Nat :=
  match s with
  | .expression e => vioExpr e
  | .assignment _ _ _ r => vioExpr r
  | .loop _ c (.mk _ stmts) => vioExpr c + vioStmts stmts
  | .forEach _ _ a (.mk _ stmts) => vioExpr a + vioStmts stmts
  | .ret _ a => vioExpr a
  | .breakStmt _ => 0
  | .continueStmt _ => 0
  | .empty _ => 0
termination_by structural s

/-- `vioStmt` over a statement list. -/
def vioStmts (stmts : List Statement) : Nat :=
  match stmts with
  | [] => 0
  | s :: rest => vioStmt s + vioStmts rest
termination_by structural stmts

end

/-- Number of binary nodes of the program satisfying the checker's push
condition. -/
def vioProgram (p : Program) : Nat :=
  match p.body with
  | .simple e => vioExpr e
  | .complex stmts => vioStmts stmts
  | .empty => 0

/-- Pushing a non-string-operator diagnostic does not change the count. -/
theorem countIll_push_other (st : ChkState) (d : Diagnostic)
    (h : ¬ d.message = "strings only support `==` and `!=` operators") :
    countIllegalString (st.push d).errors = countIllegalString st.errors := by
  simp [ChkState.push, countIllegalString, List.countP_append,
    List.countP_cons, h]

/-- Pushing the string-operator diagnostic increments the count. -/
theorem countIll_push_ill (st : ChkState) (sp : Span) :
    countIllegalString (st.push (illegalStringBinaryDiag sp)).errors =
      countIllegalString st.errors + 1 := by
  simp [ChkState.push, countIllegalString, List.countP_append,
    List.countP_cons, illegalStringBinaryDiag, Diagnostic.error,
    Diagnostic.withLabel]

mutual

/-- The expression walk emits exactly one string-operator diagnostic per
violating binary node. -/
theorem chkExpression_countIll (st : ChkState) (e : Expression) :
    countIllegalString (chkExpression st e).2.errors =
      countIllegalString st.errors + vioExpr e :=
  match e with
  | .numericLiteral _ _ _ => by simp [chkExpression, vioExpr]
  | .booleanLiteral _ _ => by simp [chkExpression, vioExpr]
  | .stringLiteral _ _ => by simp [chkExpression, vioExpr]
  | .variableExpr v => by simp [chkExpression, vioExpr]
  | .parenthesized sp (.single e1) => by
    simp [chkExpression, vioExpr, chkExpression_countIll _ e1]
  | .parenthesized sp (.multiple stmts) => by
    simp [chkExpression, vioExpr, chkStatements_countIll _ stmts]
  | .block (.mk sp stmts) => by
    by_cases h : stmts.isEmpty <;>
      simp [chkExpression, vioExpr, h, chkStatements_countIll _ stmts,
        countIll_push_other, emptyBlockDiag, Diagnostic.error,
        Diagnostic.withLabel]
  | .binary sp l op r => by
    by_cases h : stringOpViolation l op r <;>
      simp [chkExpression, vioExpr, h, chkExpression_countIll _ l,
        chkExpression_countIll _ r, countIll_push_ill] <;> omega
  | .unary sp op a => by simp [chkExpression, vioExpr, chkExpression_countIll _ a]
  | .update sp v op => by
    by_cases h : v.lifetime = VariableLifetime.context <;>
      simp [chkExpression, vioExpr, h, countIll_push_other, contextReadonlyDiag,
        Diagnostic.error, Diagnostic.withHelp, Diagnostic.withLabel]
  | .ternary sp t c a => by
    simp [chkExpression, vioExpr, chkExpression_countIll _ t,
      chkExpression_countIll _ c, chkExpression_countIll _ a] <;> omega
  | .conditional sp t c => by
    simp [chkExpression, vioExpr, chkExpression_countIll _ t,
      chkExpression_countIll _ c] <;> omega
  | .resource _ _ _ => by simp [chkExpression, vioExpr]
  | .arrayAccess sp n i => by
    simp [chkExpression, vioExpr, chkExpression_countIll _ i]
  | .arrowAccess sp l r => by
    simp [chkExpression, vioExpr, chkExpression_countIll _ l,
      chkExpression_countIll _ r] <;> omega
  | .call sp kind callee none => by simp [chkExpression, vioExpr]
  | .call sp kind callee (some args) => by
    simp [chkExpression, vioExpr, chkExpressionList_countIll _ args]
  | .thisExpr _ => by simp [chkExpression, vioExpr]
termination_by structural e

/-- Count lemma for argument lists. -/
theorem chkExpressionList_countIll (st : ChkState) (args : List Expression) :
    countIllegalString (chkExpressionList st args).2.errors =
      countIllegalString st.errors + vioExprList args :=
  match args with
  | [] => by simp [chkExpressionList, vioExprList]
  | e :: rest => by
    simp [chkExpressionList, vioExprList, chkExpression_countIll _ e,
      chkExpressionList_countIll _ rest] <;> omega
termination_by structural args

/-- Count lemma for statements. -/
theorem chkStatement_countIll (st : ChkState) (s : Statement) :
    countIllegalString (chkStatement st s).2.errors =
      countIllegalString st.errors + vioStmt s :=
  match s with
  | .expression e => by simp [chkStatement, vioStmt, chkExpression_countIll _ e]
  | .assignment sp left op right => by
    by_cases h : left.lifetime = VariableLifetime.context <;>
      simp [chkStatement, vioStmt, h, chkExpression_countIll _ right,
        countIll_push_other, contextReadonlyDiag, Diagnostic.error,
        Diagnostic.withHelp, Diagnostic.withLabel]
  | .loop sp c (.mk bsp stmts) => by
    by_cases h : stmts.isEmpty <;>
      simp [chkStatement, vioStmt, h, chkExpression_countIll _ c,
        chkStatements_countIll _ stmts, countIll_push_other, emptyBlockDiag,
        Diagnostic.error, Diagnostic.withLabel] <;> omega
  | .forEach sp v a (.mk bsp stmts) => by
    by_cases h1 : v.lifetime = VariableLifetime.context <;>
      by_cases h2 : stmts.isEmpty <;>
        simp [chkStatement, vioStmt, h1, h2, chkExpression_countIll _ a,
          chkStatements_countIll _ stmts, countIll_push_other,
          forEachWrongFirstArgDiag, emptyBlockDiag, Diagnostic.error,
          Diagnostic.withLabel] <;> omega
  | .ret sp a => by simp [chkStatement, vioStmt, chkExpression_countIll _ a]
  | .breakStmt sp => by
    by_cases h : st.loopDepth = 0 <;>
      simp [chkStatement, vioStmt, h, countIll_push_other, breakOutsideLoopDiag,
        Diagnostic.error, Diagnostic.withLabel]
  | .continueStmt sp => by
    by_cases h : st.loopDepth = 0 <;>
      simp [chkStatement, vioStmt, h, countIll_push_other,
        continueOutsideLoopDiag, Diagnostic.error, Diagnostic.withLabel]
  | .empty _ => by simp [chkStatement, vioStmt]
termination_by structural s

/-- Count lemma for statement lists. -/
theorem chkStatements_countIll (st : ChkState) (stmts : List Statement) :
    countIllegalString (chkStatements st stmts).2.errors =
      countIllegalString st.errors + vioStmts stmts :=
  match stmts with
  | [] => by simp [chkStatements, vioStmts]
  | s :: rest => by
    simp [chkStatements, vioStmts, chkStatement_countIll _ s,
      chkStatements_countIll _ rest] <;> omega
termination_by structural stmts

end

/-- C6 (amended). `SemanticChecker::check` emits the illegal-string-operator
diagnostic exactly once per binary expression whose operands satisfy the
rule: both operands string literals with an operator other than `==`/`!=`,
or exactly one operand a string literal (any operator) — `stringOpViolation`.
In particular `==`/`!=` comparisons of a string literal with a non-string
operand are diagnosed; only string-to-string `==`/`!=` comparisons are not. -/
theorem claim_C6_amended_string_op_rule (p : Program) :
    countIllegalString (check p).2 = vioProgram p := by
  cases p with
  | mk sp src body =>
    cases body with
    | simple e =>
      have h := chkExpression_countIll ⟨0, []⟩ e
      simpa [check, vioProgram, countIllegalString] using h
    | complex stmts =>
      have h := chkStatements_countIll ⟨0, []⟩ stmts
      simpa [check, vioProgram, countIllegalString] using h
    | empty => simp [check, vioProgram, countIllegalString]

end Nolana

namespace Nolana

/-! ## Claim C8 — promotion appends a trailing `return`

The scope-stack invariant of the main transformer walk: within one statement,
the walk only appends synthesized statements (with consecutive splice
indices) to the top scope, so `exit_statements` splices them in order before
the walked statement, and `add_return_statement` rewrites the final
`Expression` statement into a `Return` of the lowered original expression. -/

/-- Index discipline of synthesized statements: entry `j` was pushed when the
scope's list had `base + j` entries and the statement counter was `c`, so its
index is `base + j + c - 1`. -/
def SeqIdx (c base : Nat) (ds : List (Nat × Statement)) : Prop :=
  ∀ j, (h : j < ds.length) → (ds.get ⟨j, h⟩).1 = base + j + c - 1

theorem seqIdx_nil (c base : Nat) : SeqIdx c base [] := by
  intro j h; simp at h

theorem seqIdx_single (c base : Nat) (s : Statement) :
    SeqIdx c base [(base + c - 1, s)] := by
  intro j h
  simp at h
  subst h
  simp

theorem seqIdx_append (c base : Nat) (d1 d2 : List (Nat × Statement))
    (h1 : SeqIdx c base d1) (h2 : SeqIdx c (base + d1.length) d2) :
    SeqIdx c base (d1 ++ d2) := by
  intro j h
  simp only [List.get_eq_getElem] at *
  rcases Nat.lt_or_ge j d1.length with hj | hj
  · rw [List.getElem_append_left hj]
    exact h1 j hj
  · have h2' := h2 (j - d1.length) (by simp at h; omega)
    simp only [List.get_eq_getElem] at h2'
    rw [List.getElem_append_right hj]
    rw [h2']
    omega

end Nolana


namespace Nolana

/-- The scope-stack invariant of one walk step at constant statement counter:
the tail is untouched and the head only gains synthesized statements whose
indices continue the sequence `base + j + c - 1`. -/
def ScExt (sc : Scope) (rest S : List Scope) : Prop :=
  ∃ ds, S = ⟨sc.statementCount, sc.newStatements ++ ds⟩ :: rest ∧
    SeqIdx sc.statementCount sc.newStatements.length ds

theorem scExt_refl (sc : Scope) (rest : List Scope) : ScExt sc rest (sc :: rest) :=
  ⟨[], by cases sc; simp, seqIdx_nil _ _⟩

theorem scExt_single (sc : Scope) (rest : List Scope) (s : Statement) :
    ScExt sc rest
      ({ sc with newStatements :=
          sc.newStatements ++
            [(sc.newStatements.length + sc.statementCount - 1, s)] } :: rest) :=
  ⟨[(sc.newStatements.length + sc.statementCount - 1, s)], by cases sc; simp,
    seqIdx_single _ _ _⟩

theorem scExt_step {sc : Scope} {rest S : List Scope} (d1 : List (Nat × Statement))
    (hs1 : SeqIdx sc.statementCount sc.newStatements.length d1)
    (h2 : ScExt ⟨sc.statementCount, sc.newStatements ++ d1⟩ rest S) :
    ScExt sc rest S := by
  obtain ⟨d2, hS, hs2⟩ := h2
  refine ⟨d1 ++ d2, ?_, ?_⟩
  · rw [hS]; simp
  · exact seqIdx_append _ _ _ _ hs1 (by simpa using hs2)


/-- `exit_statements` pops exactly the top scope. -/
theorem exitStatements_scopes (nc : Bool) (q r3 : List Statement × List Scope)
    (h : exitStatements nc q = some r3) : ∃ sc2, q.2 = sc2 :: r3.2 := by
  obtain ⟨l1, S1⟩ := q
  match S1 with
  | [] => simp [exitStatements] at h
  | sc2 :: rest =>
    simp only [exitStatements, Option.bind_eq_bind, Option.bind_eq_some,
      Option.some.injEq] at h
    obtain ⟨x, hx, h⟩ := h
    exact ⟨sc2, by rw [← h]⟩

set_option maxHeartbeats 1600000

mutual

/-- Walking an expression leaves the scope-stack tail untouched and only
appends sequentially indexed synthesized statements to the head. -/
theorem tExpression_scopes (nc : Bool) (sc : Scope) (rest : List Scope)
    (e : Expression) :
    ∀ a, tExpression nc (sc :: rest) e = some a → ScExt sc rest a.2 := by
  match e with
  | .numericLiteral sp v r =>
    intro a h
    simp only [tExpression, Option.some.injEq] at h
    rw [← h]; exact scExt_refl sc rest
  | .booleanLiteral sp v =>
    intro a h
    simp only [tExpression, Option.some.injEq] at h
    rw [← h]; exact scExt_refl sc rest
  | .stringLiteral sp v =>
    intro a h
    simp only [tExpression, Option.some.injEq] at h
    rw [← h]; exact scExt_refl sc rest
  | .variableExpr v =>
    intro a h
    simp only [tExpression, Option.some.injEq] at h
    rw [← h]; exact scExt_refl sc rest
  | .resource sp k n =>
    intro a h
    simp only [tExpression, Option.some.injEq] at h
    rw [← h]; exact scExt_refl sc rest
  | .thisExpr sp =>
    intro a h
    simp only [tExpression, Option.some.injEq] at h
    rw [← h]; exact scExt_refl sc rest
  | .call sp k callee none =>
    intro a h
    simp only [tExpression, Option.some.injEq] at h
    rw [← h]; exact scExt_refl sc rest
  | .update sp v op =>
    intro a h
    simp only [tExpression, Option.some.injEq] at h
    rw [← h]; exact scExt_single sc rest _
  | .unary sp op x =>
    intro a h
    simp only [tExpression] at h
    cases h1 : tExpression nc (sc :: rest) x with
    | none => simp [h1] at h
    | some p =>
      simp only [h1, Option.some_bind, Option.bind_eq_bind, Option.some.injEq] at h
      rw [← h]
      exact tExpression_scopes nc sc rest x p h1
  | .arrayAccess sp n i =>
    intro a h
    simp only [tExpression] at h
    cases h1 : tExpression nc (sc :: rest) i with
    | none => simp [h1] at h
    | some p =>
      simp only [h1, Option.some_bind, Option.bind_eq_bind, Option.some.injEq] at h
      rw [← h]
      exact tExpression_scopes nc sc rest i p h1
  | .parenthesized sp (.single x) =>
    intro a h
    simp only [tExpression] at h
    cases h1 : tExpression nc (sc :: rest) x with
    | none => simp [h1] at h
    | some p =>
      simp only [h1, Option.some_bind, Option.bind_eq_bind, Option.some.injEq] at h
      rw [← h]
      exact tExpression_scopes nc sc rest x p h1
  | .call sp k callee (some args) =>
    intro a h
    simp only [tExpression] at h
    cases h1 : tExpressionList nc (sc :: rest) args with
    | none => simp [h1] at h
    | some p =>
      simp only [h1, Option.some_bind, Option.bind_eq_bind, Option.some.injEq] at h
      rw [← h]
      exact tExpressionList_scopes nc sc rest args p h1
  | .arrowAccess sp l r =>
    intro a h
    simp only [tExpression] at h
    cases h1 : tExpression nc (sc :: rest) l with
    | none => simp [h1] at h
    | some p =>
      simp only [h1, Option.some_bind, Option.bind_eq_bind, Option.bind_eq_some,
        Option.some.injEq] at h
      obtain ⟨q, hq, h⟩ := h
      obtain ⟨d1, hpe, hs1⟩ := tExpression_scopes nc sc rest l p h1
      rw [hpe] at hq
      refine scExt_step d1 hs1 ?_
      rw [← h]
      exact tExpression_scopes nc _ rest r q hq
  | .conditional sp t c =>
    intro a h
    simp only [tExpression] at h
    cases h1 : tExpression nc (sc :: rest) t with
    | none => simp [h1] at h
    | some p =>
      simp only [h1, Option.some_bind, Option.bind_eq_bind, Option.bind_eq_some,
        Option.some.injEq] at h
      obtain ⟨q, hq, h⟩ := h
      obtain ⟨d1, hpe, hs1⟩ := tExpression_scopes nc sc rest t p h1
      rw [hpe] at hq
      refine scExt_step d1 hs1 ?_
      rw [← h]
      exact tExpression_scopes nc _ rest c q hq
  | .ternary sp t c alt =>
    intro a h
    simp only [tExpression] at h
    cases h1 : tExpression nc (sc :: rest) t with
    | none => simp [h1] at h
    | some p =>
      simp only [h1, Option.some_bind, Option.bind_eq_bind, Option.bind_eq_some,
        Option.some.injEq] at h
      obtain ⟨q, hq, w, hw, h⟩ := h
      obtain ⟨d1, hpe, hs1⟩ := tExpression_scopes nc sc rest t p h1
      rw [hpe] at hq
      obtain ⟨d2, hqe, hs2⟩ := tExpression_scopes nc _ rest c q hq
      rw [hqe] at hw
      refine scExt_step d1 hs1 (scExt_step d2 hs2 ?_)
      rw [← h]
      exact tExpression_scopes nc _ rest alt w hw
  | .parenthesized sp (.multiple stmts) =>
    intro a h
    simp only [tExpression] at h
    cases h1 : tStatementsLoop nc (⟨0, []⟩ :: sc :: rest) stmts with
    | none => simp [h1] at h
    | some q =>
      simp only [h1, Option.some_bind, Option.bind_eq_bind, Option.bind_eq_some,
        Option.some.injEq] at h
      obtain ⟨r3, hr3, h⟩ := h
      obtain ⟨sc2, hq2⟩ := tStatementsLoop_scopes nc ⟨0, []⟩ (sc :: rest) stmts q h1
      obtain ⟨sc3, hq3⟩ := exitStatements_scopes nc q r3 hr3
      rw [hq2] at hq3
      injection hq3 with h1x h2
      rw [← h, ← h2]
      exact scExt_refl sc rest
  | .block (.mk bsp stmts) =>
    intro a h
    simp only [tExpression] at h
    cases h1 : tStatementsLoop nc (⟨0, []⟩ :: sc :: rest) stmts with
    | none => simp [h1] at h
    | some q =>
      simp only [h1, Option.some_bind, Option.bind_eq_bind, Option.bind_eq_some,
        Option.some.injEq] at h
      obtain ⟨r3, hr3, h⟩ := h
      obtain ⟨sc2, hq2⟩ := tStatementsLoop_scopes nc ⟨0, []⟩ (sc :: rest) stmts q h1
      obtain ⟨sc3, hq3⟩ := exitStatements_scopes nc q r3 hr3
      rw [hq2] at hq3
      injection hq3 with h1x h2
      rw [← h, ← h2]
      exact scExt_refl sc rest
  | .binary sp l op r =>
    intro a h
    simp only [tExpression] at h
    by_cases hc : op.isCustom = true
    · simp only [hc, if_true] at h
      cases op with
      | remainder =>
        cases h1 : tExpression nc (sc :: rest) l with
        | none => simp [h1] at h
        | some p =>
          simp only [h1, Option.some_bind, Option.bind_eq_bind, Option.bind_eq_some,
            Option.some.injEq] at h
          obtain ⟨q, hq, h⟩ := h
          obtain ⟨d1, hpe, hs1⟩ := tExpression_scopes nc sc rest l p h1
          rw [hpe] at hq
          refine scExt_step d1 hs1 ?_
          rw [← h]
          exact tExpression_scopes nc _ rest r q hq
      | exponential =>
        cases h1 : tExpression nc (sc :: rest) l with
        | none => simp [h1] at h
        | some p =>
          simp only [h1, Option.some_bind, Option.bind_eq_bind, Option.bind_eq_some,
            Option.some.injEq] at h
          obtain ⟨q, hq, h⟩ := h
          obtain ⟨d1, hpe, hs1⟩ := tExpression_scopes nc sc rest l p h1
          rw [hpe] at hq
          refine scExt_step d1 hs1 ?_
          rw [← h]
          exact tExpression_scopes nc _ rest r q hq
      | shiftLeft =>
        cases h1 : tExpression nc (sc :: rest) l with
        | none => simp [h1] at h
        | some p =>
          simp only [h1, Option.some_bind, Option.bind_eq_bind, Option.bind_eq_some,
            Option.some.injEq] at h
          obtain ⟨q, hq, h⟩ := h
          obtain ⟨d1, hpe, hs1⟩ := tExpression_scopes nc sc rest l p h1
          rw [hpe] at hq
          refine scExt_step d1 hs1 ?_
          rw [← h]
          exact tExpression_scopes nc _ rest r q hq
      | shiftRight =>
        cases h1 : tExpression nc (sc :: rest) l with
        | none => simp [h1] at h
        | some p =>
          simp only [h1, Option.some_bind, Option.bind_eq_bind, Option.bind_eq_some,
            Option.some.injEq] at h
          obtain ⟨q, hq, h⟩ := h
          obtain ⟨d1, hpe, hs1⟩ := tExpression_scopes nc sc rest l p h1
          rw [hpe] at hq
          refine scExt_step d1 hs1 ?_
          rw [← h]
          exact tExpression_scopes nc _ rest r q hq
      | bitwiseOr =>
        simp only [Option.some.injEq] at h
        rw [← h]
        exact scExt_single sc rest _
      | bitwiseAnd =>
        simp only [Option.some.injEq] at h
        rw [← h]
        exact scExt_single sc rest _
      | bitwiseXor =>
        simp only [Option.some.injEq] at h
        rw [← h]
        exact scExt_single sc rest _
      | _ => simp at h
    · rw [if_neg hc] at h
      cases h1 : tExpression nc (sc :: rest) l with
      | none => simp [h1] at h
      | some p =>
        simp only [h1, Option.some_bind, Option.bind_eq_bind] at h
        cases h2 : tExpression nc p.2 r with
        | none => simp [h2] at h
        | some q =>
          simp only [h2, Option.some_bind, Option.bind_eq_bind,
            Option.some.injEq] at h
          obtain ⟨d1, hpe, hs1⟩ := tExpression_scopes nc sc rest l p h1
          rw [hpe] at h2
          refine scExt_step d1 hs1 ?_
          rw [← h]
          exact tExpression_scopes nc _ rest r q h2
termination_by structural e

/-- `tExpression_scopes` over an argument list. -/
theorem tExpressionList_scopes (nc : Bool) (sc : Scope) (rest : List Scope)
    (args : List Expression) :
    ∀ a, tExpressionList nc (sc :: rest) args = some a → ScExt sc rest a.2 := by
  match args with
  | [] =>
    intro a h
    simp only [tExpressionList, Option.some.injEq] at h
    rw [← h]; exact scExt_refl sc rest
  | e :: rest2 =>
    intro a h
    simp only [tExpressionList] at h
    cases h1 : tExpression nc (sc :: rest) e with
    | none => simp [h1] at h
    | some p =>
      simp only [h1, Option.some_bind, Option.bind_eq_bind, Option.bind_eq_some,
        Option.some.injEq] at h
      obtain ⟨q, hq, h⟩ := h
      obtain ⟨d1, hpe, hs1⟩ := tExpression_scopes nc sc rest e p h1
      rw [hpe] at hq
      refine scExt_step d1 hs1 ?_
      rw [← h]
      exact tExpressionList_scopes nc _ rest rest2 q hq
termination_by structural args

/-- Walking a statement bumps the head counter once and otherwise satisfies
the same head-extension invariant. -/
theorem tStatement_scopes (nc : Bool) (sc0 : Scope) (rest : List Scope)
    (s : Statement) :
    ∀ a, tStatement nc (sc0 :: rest) s = some a →
      ScExt ⟨sc0.statementCount + 1, sc0.newStatements⟩ rest a.2 := by
  match s with
  | .breakStmt sp =>
    intro a h
    simp only [tStatement, Option.some.injEq] at h
    rw [← h]; exact scExt_refl _ rest
  | .continueStmt sp =>
    intro a h
    simp only [tStatement, Option.some.injEq] at h
    rw [← h]; exact scExt_refl _ rest
  | .empty sp =>
    intro a h
    simp only [tStatement, Option.some.injEq] at h
    rw [← h]; exact scExt_refl _ rest
  | .expression e =>
    intro a h
    simp only [tStatement] at h
    cases h1 : tExpression nc
        ((⟨sc0.statementCount + 1, sc0.newStatements⟩ : Scope) :: rest) e with
    | none => simp [h1] at h
    | some p =>
      simp only [h1, Option.some_bind, Option.bind_eq_bind, Option.some.injEq] at h
      rw [← h]
      exact tExpression_scopes nc _ rest e p h1
  | .ret sp e =>
    intro a h
    simp only [tStatement] at h
    cases h1 : tExpression nc
        ((⟨sc0.statementCount + 1, sc0.newStatements⟩ : Scope) :: rest) e with
    | none => simp [h1] at h
    | some p =>
      simp only [h1, Option.some_bind, Option.bind_eq_bind, Option.some.injEq] at h
      rw [← h]
      exact tExpression_scopes nc _ rest e p h1
  | .loop sp c (.mk bsp stmts) =>
    intro a h
    simp only [tStatement] at h
    cases h1 : tExpression nc
        ((⟨sc0.statementCount + 1, sc0.newStatements⟩ : Scope) :: rest) c with
    | none => simp [h1] at h
    | some p =>
      simp only [h1, Option.some_bind, Option.bind_eq_bind, Option.bind_eq_some,
        Option.some.injEq] at h
      obtain ⟨q, hq, r3, hr3, h⟩ := h
      obtain ⟨dc, hpe, hsc⟩ := tExpression_scopes nc _ rest c p h1
      rw [hpe] at hq
      obtain ⟨sc2, hq2⟩ := tStatementsLoop_scopes nc ⟨0, []⟩ _ stmts q hq
      obtain ⟨sc3, hq3⟩ := exitStatements_scopes nc q r3 hr3
      rw [hq2] at hq3
      injection hq3 with h1x h2
      rw [← h, ← h2]
      exact ⟨dc, rfl, hsc⟩
  | .forEach sp v arg (.mk bsp stmts) =>
    intro a h
    simp only [tStatement] at h
    cases h1 : tExpression nc
        ((⟨sc0.statementCount + 1, sc0.newStatements⟩ : Scope) :: rest) arg with
    | none => simp [h1] at h
    | some p =>
      simp only [h1, Option.some_bind, Option.bind_eq_bind, Option.bind_eq_some,
        Option.some.injEq] at h
      obtain ⟨q, hq, r3, hr3, h⟩ := h
      obtain ⟨dc, hpe, hsc⟩ := tExpression_scopes nc _ rest arg p h1
      rw [hpe] at hq
      obtain ⟨sc2, hq2⟩ := tStatementsLoop_scopes nc ⟨0, []⟩ _ stmts q hq
      obtain ⟨sc3, hq3⟩ := exitStatements_scopes nc q r3 hr3
      rw [hq2] at hq3
      injection hq3 with h1x h2
      rw [← h, ← h2]
      exact ⟨dc, rfl, hsc⟩
  | .assignment sp left op right =>
    intro a h
    simp only [tStatement] at h
    by_cases hc : op.isCustom = true
    · simp only [hc, if_true] at h
      cases op with
      | addition =>
        cases h1 : tExpression nc
            ((⟨sc0.statementCount + 1, sc0.newStatements⟩ : Scope) :: rest) right with
        | none => simp [h1] at h
        | some p =>
          simp only [h1, Option.some_bind, Option.bind_eq_bind, Option.some.injEq] at h
          rw [← h]
          exact tExpression_scopes nc _ rest right p h1
      | subtraction =>
        cases h1 : tExpression nc
            ((⟨sc0.statementCount + 1, sc0.newStatements⟩ : Scope) :: rest) right with
        | none => simp [h1] at h
        | some p =>
          simp only [h1, Option.some_bind, Option.bind_eq_bind, Option.some.injEq] at h
          rw [← h]
          exact tExpression_scopes nc _ rest right p h1
      | multiplication =>
        cases h1 : tExpression nc
            ((⟨sc0.statementCount + 1, sc0.newStatements⟩ : Scope) :: rest) right with
        | none => simp [h1] at h
        | some p =>
          simp only [h1, Option.some_bind, Option.bind_eq_bind, Option.some.injEq] at h
          rw [← h]
          exact tExpression_scopes nc _ rest right p h1
      | division =>
        cases h1 : tExpression nc
            ((⟨sc0.statementCount + 1, sc0.newStatements⟩ : Scope) :: rest) right with
        | none => simp [h1] at h
        | some p =>
          simp only [h1, Option.some_bind, Option.bind_eq_bind, Option.some.injEq] at h
          rw [← h]
          exact tExpression_scopes nc _ rest right p h1
      | exponential =>
        cases h1 : tExpression nc
            ((⟨sc0.statementCount + 1, sc0.newStatements⟩ : Scope) :: rest) right with
        | none => simp [h1] at h
        | some p =>
          simp only [h1, Option.some_bind, Option.bind_eq_bind, Option.some.injEq] at h
          rw [← h]
          exact tExpression_scopes nc _ rest right p h1
      | remainder =>
        cases h1 : tExpression nc
            ((⟨sc0.statementCount + 1, sc0.newStatements⟩ : Scope) :: rest) right with
        | none => simp [h1] at h
        | some p =>
          simp only [h1, Option.some_bind, Option.bind_eq_bind, Option.some.injEq] at h
          rw [← h]
          exact tExpression_scopes nc _ rest right p h1
      | shiftLeft =>
        cases h1 : tExpression nc
            ((⟨sc0.statementCount + 1, sc0.newStatements⟩ : Scope) :: rest) right with
        | none => simp [h1] at h
        | some p =>
          simp only [h1, Option.some_bind, Option.bind_eq_bind, Option.some.injEq] at h
          rw [← h]
          exact tExpression_scopes nc _ rest right p h1
      | shiftRight =>
        cases h1 : tExpression nc
            ((⟨sc0.statementCount + 1, sc0.newStatements⟩ : Scope) :: rest) right with
        | none => simp [h1] at h
        | some p =>
          simp only [h1, Option.some_bind, Option.bind_eq_bind, Option.some.injEq] at h
          rw [← h]
          exact tExpression_scopes nc _ rest right p h1
      | logicalOr =>
        cases h1 : tExpression nc ((⟨1, []⟩ : Scope) ::
            (⟨sc0.statementCount + 1, sc0.newStatements⟩ : Scope) :: rest) right with
        | none => simp [h1] at h
        | some p =>
          simp only [h1, Option.some_bind, Option.bind_eq_bind] at h
          obtain ⟨dB, hpe, hsB⟩ := tExpression_scopes nc ⟨1, []⟩ _ right p h1
          rw [hpe] at h
          simp only [Option.bind_eq_bind, Option.bind_eq_some, Option.some.injEq] at h
          obtain ⟨inr, hins, h⟩ := h
          rw [← h]
          exact scExt_refl _ rest
      | logicalAnd =>
        cases h1 : tExpression nc ((⟨1, []⟩ : Scope) ::
            (⟨sc0.statementCount + 1, sc0.newStatements⟩ : Scope) :: rest) right with
        | none => simp [h1] at h
        | some p =>
          simp only [h1, Option.some_bind, Option.bind_eq_bind] at h
          obtain ⟨dB, hpe, hsB⟩ := tExpression_scopes nc ⟨1, []⟩ _ right p h1
          rw [hpe] at h
          simp only [Option.bind_eq_bind, Option.bind_eq_some, Option.some.injEq] at h
          obtain ⟨inr, hins, h⟩ := h
          rw [← h]
          exact scExt_refl _ rest
      | bitwiseOr =>
        simp only [Option.some.injEq] at h
        rw [← h]
        exact scExt_single _ rest _
      | bitwiseAnd =>
        simp only [Option.some.injEq] at h
        rw [← h]
        exact scExt_single _ rest _
      | bitwiseXor =>
        simp only [Option.some.injEq] at h
        rw [← h]
        exact scExt_single _ rest _
      | assign => simp at h
    · rw [if_neg hc] at h
      cases h1 : tExpression nc
          ((⟨sc0.statementCount + 1, sc0.newStatements⟩ : Scope) :: rest) right with
      | none => simp [h1] at h
      | some p =>
        simp only [h1, Option.some_bind, Option.bind_eq_bind, Option.some.injEq] at h
        rw [← h]
        exact tExpression_scopes nc _ rest right p h1
termination_by structural s

/-- Walking a statement list preserves the scope-stack tail. -/
theorem tStatementsLoop_scopes (nc : Bool) (sc : Scope) (rest : List Scope)
    (stmts : List Statement) :
    ∀ a, tStatementsLoop nc (sc :: rest) stmts = some a →
      ∃ sc2, a.2 = sc2 :: rest := by
  match stmts with
  | [] =>
    intro a h
    simp only [tStatementsLoop, Option.some.injEq] at h
    exact ⟨sc, by rw [← h]⟩
  | s :: rest2 =>
    intro a h
    simp only [tStatementsLoop] at h
    cases h1 : tStatement nc (sc :: rest) s with
    | none => simp [h1] at h
    | some p =>
      simp only [h1, Option.some_bind, Option.bind_eq_bind, Option.bind_eq_some,
        Option.some.injEq] at h
      obtain ⟨q, hq, h⟩ := h
      obtain ⟨ds, hpe, _⟩ := tStatement_scopes nc sc rest s p h1
      rw [hpe] at hq
      obtain ⟨sc2, hq2⟩ := tStatementsLoop_scopes nc _ rest rest2 q hq
      exact ⟨sc2, by rw [← h]; exact hq2⟩
termination_by structural stmts

end

/-- Splicing a scope's synthesized statements whose indices are exactly
`q.length, q.length + 1, …` into `q ++ l` inserts them, in order, between
`q` and `l`. -/
theorem insertAll_seq (ds : List (Nat × Statement)) :
    ∀ q l : List Statement,
      (∀ j, (h : j < ds.length) → (ds.get ⟨j, h⟩).1 = q.length + j) →
      insertAll ds (q ++ l) = some (q ++ ds.map Prod.snd ++ l) := by
  induction ds with
  | nil => intro q l _; simp [insertAll]
  | cons p rest ih =>
    intro q l hidx
    obtain ⟨i, s⟩ := p
    have h0 := hidx 0 (by simp)
    simp only [List.get_eq_getElem, List.getElem_cons_zero, Nat.add_zero] at h0
    subst h0
    have hins : vecInsert (q ++ l) q.length s = some (q ++ s :: l) := by
      simp only [vecInsert]
      rw [if_pos (by simp)]
      rw [List.take_left, List.drop_left]
    have hrest : ∀ j, (h : j < rest.length) →
        (rest.get ⟨j, h⟩).1 = (q ++ [s]).length + j := by
      intro j hj
      have hx := hidx (j + 1) (by simp only [List.length_cons]; omega)
      simp only [List.get_eq_getElem, List.getElem_cons_succ] at hx
      simp only [List.get_eq_getElem]
      rw [hx]
      simp only [List.length_append, List.length_singleton]
      omega
    have hih := ih (q ++ [s]) l hrest
    simp only [insertAll, hins, Option.some_bind, Option.bind_eq_bind]
    rw [show q ++ s :: l = (q ++ [s]) ++ l by simp]
    rw [hih]
    simp

/-- C8: whenever the transformer promotes a `Simple` program to `Complex`
(the tree contains an update expression or a bitwise binary, i.e.
`ncExpr e = true`), the transformed body consists of the synthesized lowering
statements followed by `Return(e1)`, where `e1` is the original simple
expression after the other lowering (the walk's result on `e`); concretely,
transforming the simple program `v.x++` and pretty-printing yields
`variable.x = variable.x + 1;` followed by `return variable.x;`. -/
theorem claim_C8_promotion_trailing_return :
    (∀ (p : Program) (e : Expression), p.body = .simple e → ncExpr e = true →
      ∀ p', transform p = some p' →
      ∃ stmts0 e1 S, tExpression true [⟨1, []⟩] e = some (e1, S) ∧
        p'.body = .complex (stmts0 ++ [.ret SPAN e1])) ∧
    (transform (parse "v.x++").program).map (codegen false) =
      some "variable.x = variable.x + 1;\nreturn variable.x;\n" := by
  constructor
  swap
  · decide
  intro p e hb hnc p' ht
  simp only [transform, hb, hnc, eq_self_iff_true, if_true] at ht
  cases hts : tStatements true [] [Statement.expression e] with
  | none => simp [hts] at ht
  | some b2 =>
    simp only [hts, Option.some_bind, Option.bind_eq_bind] at ht
    simp only [tStatements, tStatementsLoop, tStatement, Nat.zero_add] at hts
    cases he : tExpression true [(⟨1, []⟩ : Scope)] e with
    | none => simp [he] at hts
    | some pe =>
      simp only [he, Option.some_bind, Option.bind_eq_bind] at hts
      obtain ⟨ds, hS, hseq⟩ := tExpression_scopes true ⟨1, []⟩ [] e pe he
      rw [hS] at hts
      have hidx : ∀ j, (hj : j < ds.length) →
          (ds.get ⟨j, hj⟩).1 = ([] : List Statement).length + j := by
        intro j hj
        have hx := hseq j hj
        simp only [List.length_nil] at hx ⊢
        omega
      have hins := insertAll_seq ds [] [Statement.expression pe.1] hidx
      simp only [List.nil_append] at hins
      simp only [exitStatements, List.nil_append, hins, Option.some_bind,
        Option.bind_eq_bind, Option.some.injEq] at hts
      rw [← hts] at ht
      simp only [optimizeStatements, eq_self_iff_true, if_true,
        List.getLast?_concat, List.dropLast_concat, Option.some.injEq] at ht
      refine ⟨ds.map Prod.snd, pe.1, pe.2, rfl, ?_⟩
      rw [← ht]

theorem claim_C8_promotion_trailing_return_witness :
    ∃ stmts0 e1 S,
      tExpression true [⟨1, []⟩]
        (.update SPAN (variableExpressionB "x") .increment) = some (e1, S) ∧
      (Program.mk SPAN "v.x++"
        (.complex
          [.assignment SPAN (variableExpressionB "x") .assign
            (.binary SPAN (.variableExpr (variableExpressionB "x")) .addition
              (.numericLiteral SPAN 1 "1")),
           .ret SPAN (.variableExpr (variableExpressionB "x"))])).body =
        .complex (stmts0 ++ [.ret SPAN e1]) :=
  claim_C8_promotion_trailing_return.1
    ⟨SPAN, "v.x++", .simple (.update SPAN (variableExpressionB "x") .increment)⟩
    (.update SPAN (variableExpressionB "x") .increment) rfl rfl
    (Program.mk SPAN "v.x++"
      (.complex
        [.assignment SPAN (variableExpressionB "x") .assign
          (.binary SPAN (.variableExpr (variableExpressionB "x")) .addition
            (.numericLiteral SPAN 1 "1")),
         .ret SPAN (.variableExpr (variableExpressionB "x"))])) rfl

end Nolana

namespace Nolana

/-- Tokens whose first parse records program complexity. -/
def badKind (k : Kind) : Bool := k == .semi || k.isAssignmentOperator || k == .leftBrace

/-- Does the token stream contain a `;`, an assignment operator, or a `{`? -/
def hasComplexToken (toks : List Token) : Bool := toks.any fun t => badKind t.kind

/-- Parser-step invariant (for successful results): tokens are consumed from
the front; the complexity flag is never reset; if the final flag is clear, no
consumed token was a `;`/assignment/`{`; if the flag was raised, such a token
was present. -/
structure Pinv (st st' : PState) : Prop where
  drop : ∃ pre, st.tokens = pre ++ st'.tokens ∧
    (st'.isComplex = false → pre.all (fun t => !badKind t.kind) = true)
  flag : st.isComplex = true → st'.isComplex = true
  became : st.isComplex = false → st'.isComplex = true →
    hasComplexToken st.tokens = true

/-- `bind` for `PM`, in applied form. -/
theorem PM.bind_apply (m : PM α) (f : α → PM β) (st : PState) :
    (m >>= f) st =
      match m st with
      | .ok (a, st1) => f a st1
      | .error e => .error e := rfl

/-- `pure` for `PM`, in applied form. -/
theorem PM.pure_apply (a : α) (st : PState) :
    @Pure.pure PM _ α a st = Except.ok (a, st) := rfl

theorem throwD_apply (d : Diagnostic) (st : PState) :
    (throwD d : PM α) st = .error (d, st) := rfl

/-- Push the state argument through an `if`. -/
theorem PM.ite_app (c : Prop) [Decidable c] (f g : PM α) (st : PState) :
    (if c then f else g) st = if c then f st else g st := by
  by_cases h : c
  · rw [if_pos h, if_pos h]
  · rw [if_neg h, if_neg h]

theorem currentM_apply (st : PState) : currentM st = .ok (currentToken st, st) := rfl

theorem currentKindM_apply (st : PState) :
    currentKindM st = .ok (currentKind st, st) := rfl

theorem atM_apply (k : Kind) (st : PState) : atM k st = .ok (atKind st k, st) := rfl

theorem bumpM_apply (st : PState) : bumpM st = .ok ((), bumpS st) := rfl

theorem eatM_apply (k : Kind) (st : PState) : eatM k st = .ok (eatS st k) := rfl

theorem startSpanM_apply (st : PState) :
    startSpanM st = .ok (⟨(currentToken st).start, 0⟩, st) := rfl

theorem endSpanM_apply (s : Span) (st : PState) :
    endSpanM s st = .ok (⟨s.start, st.prevTokenEnd⟩, st) := rfl

theorem errorM_apply (d : Diagnostic) (st : PState) :
    errorM d st = .ok ((), { st with errors := st.errors ++ [d] }) := rfl

theorem getIsComplex_apply (st : PState) :
    getIsComplex st = .ok (st.isComplex, st) := rfl

theorem setIsComplex_apply (st : PState) :
    setIsComplex st = .ok ((), { st with isComplex := true }) := rfl

theorem getFunctionDepth_apply (st : PState) :
    getFunctionDepth st = .ok (st.functionDepth, st) := rfl

theorem eatS_pos {st : PState} {k : Kind} (h : atKind st k = true) :
    eatS st k = (true, bumpS st) := by simp [eatS, h]

theorem eatS_neg {st : PState} {k : Kind} (h : ¬atKind st k = true) :
    eatS st k = (false, st) := by simp [eatS, h]

/-- A non-`Eof` current kind means the head token is present and has it. -/
theorem current_head {st : PState} {k : Kind} (h : atKind st k = true)
    (hk : k ≠ .eof) : ∃ t rest, st.tokens = t :: rest ∧ t.kind = k := by
  simp only [atKind, currentKind, currentToken, decide_eq_true_eq] at h
  match hst : st.tokens with
  | [] => rw [hst] at h; exact absurd (h ▸ rfl) hk
  | t :: rest =>
    rw [hst] at h
    exact ⟨t, rest, rfl, h⟩

theorem Pinv.refl (st : PState) : Pinv st st := by
  refine ⟨⟨[], by simp, by simp⟩, id, ?_⟩
  intro h1 h2
  rw [h1] at h2
  exact absurd h2 (by simp)

/-- `Pinv` for a state change that keeps tokens and the flag. -/
theorem Pinv.same {st st' : PState} (ht : st'.tokens = st.tokens)
    (hc : st'.isComplex = st.isComplex) : Pinv st st' := by
  refine ⟨⟨[], by simp [ht], by simp⟩, by simp [hc], ?_⟩
  intro h1 h2
  rw [hc] at h2
  rw [h1] at h2
  exact absurd h2 (by simp)

theorem hasComplexToken_suffix {l1 l2 : List Token}
    (hs : List.IsSuffix l1 l2) (h : hasComplexToken l1 = true) :
    hasComplexToken l2 = true := by
  obtain ⟨pre, rfl⟩ := hs
  simp only [hasComplexToken, List.any_append, Bool.or_eq_true]
  exact Or.inr h

theorem Pinv.trans {st st1 st' : PState} (h1 : Pinv st st1) (h2 : Pinv st1 st') :
    Pinv st st' := by
  obtain ⟨⟨p1, he1, hc1⟩, hf1, hb1⟩ := h1
  obtain ⟨⟨p2, he2, hc2⟩, hf2, hb2⟩ := h2
  refine ⟨⟨p1 ++ p2, by rw [he1, he2, List.append_assoc], ?_⟩, fun h => hf2 (hf1 h), ?_⟩
  · intro hic
    have hic1 : st1.isComplex = false := by
      cases hx : st1.isComplex with
      | false => rfl
      | true => rw [hf2 hx] at hic; exact absurd hic (by simp)
    simp only [List.all_append, Bool.and_eq_true]
    exact ⟨hc1 hic1, hc2 hic⟩
  · intro h0 h3
    cases hx : st1.isComplex with
    | true => exact hb1 h0 hx
    | false =>
      have := hb2 hx h3
      exact hasComplexToken_suffix ⟨p1, he1.symm⟩ this
  
theorem parseSemiM_pinv (stmt : Statement) (st : PState) (b : Bool)
    (st' : PState) (h : parseSemiM stmt st = .ok (b, st')) :
    Pinv st st' ∧ (b = false → st' = st) ∧ (b = true → st'.isComplex = true) ∧
      (b = true → stmt.isEmpty = false) := by
  simp only [parseSemiM] at h
  by_cases hne : (!stmt.isEmpty) = true
  · simp only [hne, if_true, PM.bind_apply, PM.pure_apply, eatM_apply] at h
    by_cases hsemi : atKind st Kind.semi = true
    · simp only [eatS_pos hsemi, setIsComplex_apply, PM.bind_apply, PM.pure_apply,
        if_true, Except.ok.injEq, Prod.mk.injEq] at h
      obtain ⟨t, rest, hts, htk⟩ := current_head hsemi (by decide)
      obtain ⟨rfl, rfl⟩ := h
      refine ⟨⟨⟨[t], ?_, ?_⟩, ?_, ?_⟩, ?_, ?_⟩
      · simp [bumpS, hts]
      · intro hic; exact absurd hic (by simp)
      · intro _; simp
      · intro _ _; simp [hasComplexToken, hts, badKind, htk]
      · intro hF; exact absurd hF (by simp)
      · refine ⟨fun _ => by simp, fun _ => by simpa using hne⟩
    · simp only [eatS_neg hsemi, Bool.false_eq_true, if_false, PM.pure_apply,
        Except.ok.injEq, Prod.mk.injEq] at h
      obtain ⟨rfl, rfl⟩ := h
      exact ⟨Pinv.refl st, fun _ => rfl, fun hbt => absurd hbt (by simp),
        fun hbt => absurd hbt (by simp)⟩
  · rw [if_neg hne] at h
    simp only [PM.pure_apply, Except.ok.injEq, Prod.mk.injEq] at h
    obtain ⟨rfl, rfl⟩ := h
    exact ⟨Pinv.refl st, fun _ => rfl, fun hbt => absurd hbt (by simp),
      fun hbt => absurd hbt (by simp)⟩

end Nolana

namespace Nolana

/-- The weak parser-step invariant for statement results: like `Pinv`, but an
empty statement may consume its leading `;` without raising the flag. -/
structure PinvW (st st' : PState) : Prop where
  drop : ∃ pre, st.tokens = pre ++ st'.tokens ∧
    (st'.isComplex = false →
      pre.all (fun t => !(t.kind.isAssignmentOperator || t.kind == .leftBrace)) = true)
  flag : st.isComplex = true → st'.isComplex = true
  became : st.isComplex = false → st'.isComplex = true →
    hasComplexToken st.tokens = true

theorem Pinv.toW {st st' : PState} (h : Pinv st st') : PinvW st st' := by
  obtain ⟨⟨pre, he, hc⟩, hf, hb⟩ := h
  refine ⟨⟨pre, he, ?_⟩, hf, hb⟩
  intro hic
  have := hc hic
  simp only [List.all_eq_true] at this ⊢
  intro t ht
  have h2 := this t ht
  simp only [badKind, Bool.not_eq_true', Bool.or_eq_false_iff] at h2 ⊢
  exact ⟨h2.1.2, h2.2⟩

theorem PinvW.toPinv {st st' : PState} (hic : st.isComplex = true)
    (h : PinvW st st') : Pinv st st' := by
  obtain ⟨⟨pre, he, _⟩, hf, hb⟩ := h
  refine ⟨⟨pre, he, ?_⟩, hf, hb⟩
  intro hic2
  rw [hf hic] at hic2
  exact absurd hic2 (by simp)

theorem PinvW.comp {st st1 st' : PState} (h1 : PinvW st st1)
    (h2 : PinvW st1 st') : PinvW st st' := by
  obtain ⟨⟨p1, he1, hc1⟩, hf1, hb1⟩ := h1
  obtain ⟨⟨p2, he2, hc2⟩, hf2, hb2⟩ := h2
  refine ⟨⟨p1 ++ p2, by rw [he1, he2, List.append_assoc], ?_⟩,
    fun h => hf2 (hf1 h), ?_⟩
  · intro hic
    have hic1 : st1.isComplex = false := by
      cases hx : st1.isComplex with
      | false => rfl
      | true => rw [hf2 hx] at hic; exact absurd hic (by simp)
    simp only [List.all_append, Bool.and_eq_true]
    exact ⟨hc1 hic1, hc2 hic⟩
  · intro h0 h3
    cases hx : st1.isComplex with
    | true => exact hb1 h0 hx
    | false => exact hasComplexToken_suffix ⟨p1, he1.symm⟩ (hb2 hx h3)

theorem badKind_of_isVariable : ∀ k : Kind, k.isVariable = true → badKind k = false := by decide

theorem badKind_of_isCall : ∀ k : Kind, k.isCall = true → badKind k = false := by decide

theorem badKind_of_isResource : ∀ k : Kind, k.isResource = true → badKind k = false := by decide

theorem badKind_of_isUnary : ∀ k : Kind, k.isUnaryOperator = true → badKind k = false := by decide

theorem badKind_of_isBinary : ∀ k : Kind, k.isBinaryOperator = true → badKind k = false := by decide

theorem badKind_of_isUpdate : ∀ k : Kind, k.isUpdateOperator = true → badKind k = false := by decide

/-- Consuming a non-recording token preserves the invariant. -/
theorem bumpS_pinv (st : PState) (h : badKind (currentKind st) = false) :
    Pinv st (bumpS st) := by
  match hts : st.tokens with
  | [] =>
    refine Pinv.same ?_ rfl
    simp [bumpS, hts]
  | t :: rest =>
    refine ⟨⟨[t], ?_, ?_⟩, ?_, ?_⟩
    · simp [bumpS, hts]
    · intro _
      simp only [currentKind, currentToken, hts] at h
      simp [h]
    · intro hx; exact hx
    · intro h1 h2
      simp only [bumpS] at h2
      rw [h1] at h2
      exact absurd h2 (by simp)

theorem expectM_ok {k : Kind} {st st' : PState} {u : Unit}
    (h : expectM k st = .ok (u, st')) : st' = bumpS st ∧ atKind st k = true := by
  simp only [expectM] at h
  by_cases hk : atKind st k = true
  · rw [eatS_pos hk] at h
    simp only [if_true, Except.ok.injEq, Prod.mk.injEq] at h
    exact ⟨h.2.symm, hk⟩
  · rw [eatS_neg hk] at h
    simp only [Bool.false_eq_true, if_false] at h
    exact absurd h (by simp)

theorem expectM_pinv {k : Kind} {st st' : PState} {u : Unit}
    (hk : badKind k = false) (h : expectM k st = .ok (u, st')) : Pinv st st' := by
  obtain ⟨rfl, hat⟩ := expectM_ok h
  refine bumpS_pinv st ?_
  simp only [atKind, decide_eq_true_eq] at hat
  rw [hat]
  exact hk

end Nolana

namespace Nolana

theorem parseIdentifierM_pinv (st : PState) (a : Identifier) (st' : PState)
    (h : parseIdentifierM st = .ok (a, st')) : Pinv st st' := by
  simp only [parseIdentifierM, PM.bind_apply, PM.pure_apply, currentM_apply,
    bumpM_apply, endSpanM_apply, startSpanM_apply] at h
  by_cases hk : ((currentToken st).kind.isVariable || (currentToken st).kind.isCall) = true
  · simp only [hk, if_true, Except.ok.injEq, Prod.mk.injEq] at h
    obtain ⟨_, rfl⟩ := h
    refine bumpS_pinv st ?_
    simp only [Bool.or_eq_true] at hk
    cases hk with
    | inl hv => exact badKind_of_isVariable _ hv
    | inr hc => exact badKind_of_isCall _ hc
  · rw [if_neg hk] at h
    simp only [PM.bind_apply, PM.pure_apply, endSpanM_apply] at h
    split at h
    next p heq =>
      simp only [Except.ok.injEq, Prod.mk.injEq] at h
      obtain ⟨_, rfl⟩ := h
      exact expectM_pinv (by decide) heq
    next e heq => exact absurd h (by simp)

end Nolana

namespace Nolana

theorem parseLiteralNumberM_pinv (st : PState) (a : Expression) (st' : PState)
    (h : parseLiteralNumberM st = .ok (a, st')) : Pinv st st' := by
  simp only [parseLiteralNumberM, PM.bind_apply, PM.pure_apply, currentM_apply,
    startSpanM_apply, endSpanM_apply, throwD_apply] at h
  split at h
  next p heq =>
    cases hrf : rustF32Parse (currentToken st).text with
    | none =>
      rw [hrf] at h
      exact Except.noConfusion h
    | some value =>
      simp only [hrf, PM.pure_apply, Except.ok.injEq, Prod.mk.injEq] at h
      obtain ⟨_, rfl⟩ := h
      exact expectM_pinv (by decide) heq
  next e heq => exact absurd h (by simp)

theorem parseLiteralBooleanM_pinv (st : PState) (a : Expression) (st' : PState)
    (hk : badKind (currentKind st) = false)
    (h : parseLiteralBooleanM st = .ok (a, st')) : Pinv st st' := by
  simp only [parseLiteralBooleanM, PM.bind_apply, PM.pure_apply,
    currentKindM_apply, bumpM_apply, startSpanM_apply, endSpanM_apply,
    Except.ok.injEq, Prod.mk.injEq] at h
  obtain ⟨_, rfl⟩ := h
  exact bumpS_pinv st hk

theorem parseLiteralStringM_pinv (st : PState) (a : Span × String) (st' : PState)
    (h : parseLiteralStringM st = .ok (a, st')) : Pinv st st' := by
  simp only [parseLiteralStringM, PM.bind_apply, PM.pure_apply, currentM_apply,
    startSpanM_apply, endSpanM_apply] at h
  split at h
  next p heq =>
    simp only [PM.pure_apply, Except.ok.injEq, Prod.mk.injEq] at h
    obtain ⟨_, rfl⟩ := h
    exact expectM_pinv (by decide) heq
  next e heq => exact absurd h (by simp)

theorem parseEmptyStatementM_ok (st : PState) (a : Statement) (st' : PState)
    (h : parseEmptyStatementM st = .ok (a, st')) :
    st' = bumpS st ∧ atKind st Kind.semi = true ∧ a.isEmpty = true := by
  simp only [parseEmptyStatementM, PM.bind_apply, PM.pure_apply,
    currentM_apply] at h
  split at h
  next p heq =>
    obtain ⟨rfl, hat⟩ := expectM_ok heq
    simp only [PM.pure_apply, Except.ok.injEq, Prod.mk.injEq] at h
    obtain ⟨ha, rfl⟩ := h
    exact ⟨rfl, hat, by rw [← ha]; rfl⟩
  next e heq => exact absurd h (by simp)

theorem parseBreakStatementM_pinv (st : PState) (a : Statement) (st' : PState)
    (h : parseBreakStatementM st = .ok (a, st')) :
    Pinv st st' ∧ a.isEmpty = false := by
  simp only [parseBreakStatementM, PM.bind_apply, PM.pure_apply,
    startSpanM_apply, endSpanM_apply] at h
  split at h
  next p heq =>
    simp only [PM.pure_apply, Except.ok.injEq, Prod.mk.injEq] at h
    obtain ⟨ha, rfl⟩ := h
    exact ⟨expectM_pinv (by decide) heq, by rw [← ha]; rfl⟩
  next e heq => exact absurd h (by simp)

theorem parseContinueStatementM_pinv (st : PState) (a : Statement) (st' : PState)
    (h : parseContinueStatementM st = .ok (a, st')) :
    Pinv st st' ∧ a.isEmpty = false := by
  simp only [parseContinueStatementM, PM.bind_apply, PM.pure_apply,
    startSpanM_apply, endSpanM_apply] at h
  split at h
  next p heq =>
    simp only [PM.pure_apply, Except.ok.injEq, Prod.mk.injEq] at h
    obtain ⟨ha, rfl⟩ := h
    exact ⟨expectM_pinv (by decide) heq, by rw [← ha]; rfl⟩
  next e heq => exact absurd h (by simp)

theorem parseThisExpressionM_pinv (st : PState) (a : Expression) (st' : PState)
    (h : parseThisExpressionM st = .ok (a, st')) : Pinv st st' := by
  simp only [parseThisExpressionM, PM.bind_apply, PM.pure_apply,
    startSpanM_apply, endSpanM_apply] at h
  split at h
  next p heq =>
    simp only [PM.pure_apply, Except.ok.injEq, Prod.mk.injEq] at h
    obtain ⟨_, rfl⟩ := h
    exact expectM_pinv (by decide) heq
  next e heq => exact absurd h (by simp)

theorem parseResourceExpressionM_pinv (st : PState) (a : Expression)
    (st' : PState) (hk : badKind (currentKind st) = false)
    (h : parseResourceExpressionM st = .ok (a, st')) : Pinv st st' := by
  simp only [parseResourceExpressionM, PM.bind_apply, PM.pure_apply,
    currentKindM_apply, bumpM_apply, startSpanM_apply, endSpanM_apply] at h
  split at h
  next p heq =>
    split at h
    next q heq2 =>
      simp only [PM.pure_apply, Except.ok.injEq, Prod.mk.injEq] at h
      obtain ⟨_, rfl⟩ := h
      exact ((bumpS_pinv st hk).trans (expectM_pinv (by decide) heq)).trans
        (parseIdentifierM_pinv _ _ _ heq2)
    next e heq2 => exact absurd h (by simp)
  next e heq => exact absurd h (by simp)

theorem parseUpdateExpressionM_pinv (sp : Span) (v : VariableExpression)
    (st : PState) (a : Expression) (st' : PState)
    (hk : badKind (currentKind st) = false)
    (h : parseUpdateExpressionM sp v st = .ok (a, st')) : Pinv st st' := by
  simp only [parseUpdateExpressionM, PM.bind_apply, PM.pure_apply,
    currentKindM_apply, bumpM_apply, endSpanM_apply, Except.ok.injEq,
    Prod.mk.injEq] at h
  obtain ⟨_, rfl⟩ := h
  exact bumpS_pinv st hk

theorem parenMissingRpM_not_ok (st : PState) (r : Expression × PState)
    (h : parenMissingRpM st = .ok r) : False := by
  simp only [parenMissingRpM, PM.bind_apply, PM.pure_apply, eatM_apply,
    currentM_apply, throwD_apply] at h
  by_cases hat : atKind st Kind.eof = true
  · rw [eatS_pos hat] at h
    exact Except.noConfusion h
  · rw [eatS_neg hat] at h
    exact Except.noConfusion h

end Nolana

namespace Nolana

/-- A guarded `bump` of a non-recording kind. -/
theorem eat_bump_pinv {st : PState} {k : Kind} (hat : atKind st k = true)
    (hk : badKind k = false) : Pinv st (bumpS st) := by
  refine bumpS_pinv st ?_
  simp only [atKind, decide_eq_true_eq] at hat
  rw [hat]
  exact hk

theorem isAssignment_ne_eof : ∀ k : Kind,
    k.isAssignmentOperator = true → ¬k = Kind.eof := by decide

/-- Composition through a flag-raising step: if the flag is provably raised
right away and a recording token is present, the whole step satisfies the
invariant. -/
theorem Pinv.ofFlagged {st stA st' : PState} (hTok : stA.tokens = st.tokens)
    (hA : stA.isComplex = true) (hrest : Pinv stA st')
    (hbad : hasComplexToken st.tokens = true) : Pinv st st' := by
  obtain ⟨⟨pre, he, _⟩, hf, _⟩ := hrest
  refine ⟨⟨pre, by rw [← hTok]; exact he, ?_⟩, fun _ => hf hA, fun _ _ => hbad⟩
  intro hic
  rw [hf hA] at hic
  exact absurd hic (by simp)

/-- A raised flag: the head token occurs in the stream. -/
theorem hasComplexToken_of_head {toks : List Token} {t : Token}
    {rest : List Token} (he : toks = t :: rest) (hb : badKind t.kind = true) :
    hasComplexToken toks = true := by
  subst he
  simp only [hasComplexToken, List.any_cons, Bool.or_eq_true]
  exact Or.inl hb

/-- Bumping with the flag already raised. -/
theorem bumpS_pinv_flagged (st : PState) (hic : st.isComplex = true) :
    Pinv st (bumpS st) := by
  match hts : st.tokens with
  | [] => exact Pinv.same (by simp [bumpS, hts]) rfl
  | t :: rest =>
    refine ⟨⟨[t], by simp [bumpS, hts], ?_⟩, fun h => h, ?_⟩
    · intro hic2
      rw [show (bumpS st).isComplex = st.isComplex from rfl, hic] at hic2
      exact absurd hic2 (by simp)
    · intro h1 _
      rw [hic] at h1
      exact absurd h1 (by simp)

/-- `expect` with the flag already raised (any kind, `{` included). -/
theorem expectM_pinv_flagged {k : Kind} {st st' : PState} {u : Unit}
    (hic : st.isComplex = true) (h : expectM k st = .ok (u, st')) :
    Pinv st st' := by
  obtain ⟨rfl, _⟩ := expectM_ok h
  exact bumpS_pinv_flagged st hic

/-- Consuming one recording token at a state whose successor has the flag
raised. -/
theorem Pinv.consumeFlagged {st stA st' : PState} {t : Token}
    {rest : List Token} (hts : st.tokens = t :: rest) (hA : stA.tokens = rest)
    (hfl : stA.isComplex = true) (hbad : badKind t.kind = true)
    (hrest : Pinv stA st') : Pinv st st' := by
  obtain ⟨⟨pre, he, _⟩, hf, _⟩ := hrest
  refine ⟨⟨t :: pre, ?_, ?_⟩, fun _ => hf hfl,
    fun _ _ => hasComplexToken_of_head hts hbad⟩
  · rw [hts, List.cons_append]
    rw [hA] at he
    rw [← he]
  · intro hic
    rw [hf hfl] at hic
    exact absurd hic (by simp)

end Nolana

namespace Nolana

set_option maxHeartbeats 3200000

mutual

/-- The member-chain loop only consumes `.` and identifiers. -/
theorem parseVariableMemberLoopM_pinv (fuel : Nat) (member : VariableMember) :
    ∀ st a st', parseVariableMemberLoopM fuel member st = .ok (a, st') →
      Pinv st st' := by
  match fuel with
  | 0 => intro st a st' h; exact Except.noConfusion h
  | fuel + 1 =>
    intro st a st' h
    simp only [parseVariableMemberLoopM, PM.bind_apply, PM.pure_apply, PM.ite_app,
      eatM_apply] at h
    by_cases hdot : atKind st Kind.dot = true
    · simp only [eatS_pos hdot, if_true] at h
      split at h
      next a1 st1 heq =>
        exact ((eat_bump_pinv hdot (by decide)).trans
          (parseIdentifierM_pinv _ _ _ heq)).trans
          (parseVariableMemberLoopM_pinv fuel _ st1 a st' h)
      next e heq => exact Except.noConfusion h
    · simp only [eatS_neg hdot, Bool.false_eq_true, if_false, PM.pure_apply,
        Except.ok.injEq, Prod.mk.injEq] at h
      obtain ⟨_, rfl⟩ := h
      exact Pinv.refl st

/-- `parse_variable_expression` consumes its leading variable token, dots and
identifiers. -/
theorem parseVariableExpressionM_pinv (fuel : Nat) :
    ∀ st a st', badKind (currentKind st) = false →
      parseVariableExpressionM fuel st = .ok (a, st') → Pinv st st' := by
  match fuel with
  | 0 => intro st a st' _ h; exact Except.noConfusion h
  | fuel + 1 =>
    intro st a st' hk h
    simp only [parseVariableExpressionM, PM.bind_apply, PM.pure_apply, PM.ite_app,
      currentKindM_apply, bumpM_apply, startSpanM_apply, endSpanM_apply,
      getFunctionDepth_apply, throwD_apply] at h
    split at h
    next p heq =>
      split at h
      next q heq2 =>
        split at h
        next m st3 heq3 =>
          split at h
          next => exact Except.noConfusion h
          next =>
            simp only [PM.pure_apply, Except.ok.injEq, Prod.mk.injEq] at h
            obtain ⟨_, rfl⟩ := h
            exact ((bumpS_pinv st hk).trans (expectM_pinv (by decide) heq)).trans
              ((parseIdentifierM_pinv _ _ _ heq2).trans
                (parseVariableMemberLoopM_pinv fuel _ _ _ _ heq3))
        next e heq3 => exact Except.noConfusion h
      next e heq2 => exact Except.noConfusion h
    next e heq => exact Except.noConfusion h

/-- The Pratt prefix dispatch plus the infix loop. -/
theorem parseExpressionM_pinv (fuel : Nat) (minBp : Nat) :
    ∀ st a st', parseExpressionM fuel minBp st = .ok (a, st') → Pinv st st' := by
  match fuel with
  | 0 => intro st a st' h; exact Except.noConfusion h
  | fuel + 1 =>
    intro st a st' h
    simp only [parseExpressionM, PM.bind_apply, PM.pure_apply, PM.ite_app,
      currentKindM_apply, startSpanM_apply, endSpanM_apply, currentM_apply,
      throwD_apply] at h
    by_cases h1 : (currentKind st = Kind.trueKw ∨ currentKind st = Kind.falseKw)
    · rw [if_pos h1] at h
      split at h
      next a1 st1 heq =>
        refine (parseLiteralBooleanM_pinv _ _ _ ?_ heq).trans
          (parseExpressionRestM_pinv fuel minBp a1 _ st1 a st' h)
        cases h1 with
        | inl hx => rw [hx]; decide
        | inr hx => rw [hx]; decide
      next e heq => exact Except.noConfusion h
    · rw [if_neg h1] at h
      by_cases h2 : currentKind st = Kind.number
      · rw [if_pos h2] at h
        split at h
        next a1 st1 heq =>
          exact (parseLiteralNumberM_pinv _ _ _ heq).trans
            (parseExpressionRestM_pinv fuel minBp a1 _ st1 a st' h)
        next e heq => exact Except.noConfusion h
      · rw [if_neg h2] at h
        by_cases h3 : currentKind st = Kind.string
        · rw [if_pos h3] at h
          split at h
          next a1 st1 heq =>
            exact (parseLiteralStringM_pinv _ _ _ heq).trans
              (parseExpressionRestM_pinv fuel minBp _ _ st1 a st' h)
          next e heq => exact Except.noConfusion h
        · rw [if_neg h3] at h
          by_cases h4 : (currentKind st).isVariable = true
          · simp only [h4, if_true] at h
            split at h
            next a1 st1 heq =>
              exact (parseVariableExpressionM_pinv fuel _ _ _
                (badKind_of_isVariable _ h4) heq).trans
                (parseExpressionRestM_pinv fuel minBp _ _ st1 a st' h)
            next e heq => exact Except.noConfusion h
          · simp only [h4, Bool.false_eq_true, if_false] at h
            by_cases h5 : currentKind st = Kind.leftParen
            · rw [if_pos h5] at h
              split at h
              next a1 st1 heq =>
                exact (parseParenthesizedExpressionM_pinv fuel _ _ _ heq).trans
                  (parseExpressionRestM_pinv fuel minBp a1 _ st1 a st' h)
              next e heq => exact Except.noConfusion h
            · rw [if_neg h5] at h
              by_cases h6 : currentKind st = Kind.leftBrace
              · rw [if_pos h6] at h
                split at h
                next a1 st1 heq =>
                  exact (parseBlockExpressionM_pinv fuel _ _ _ heq).trans
                    (parseExpressionRestM_pinv fuel minBp _ _ st1 a st' h)
                next e heq => exact Except.noConfusion h
              · rw [if_neg h6] at h
                by_cases h7 : (currentKind st).isUnaryOperator = true
                · simp only [h7, if_true] at h
                  split at h
                  next a1 st1 heq =>
                    exact (parseUnaryExpressionM_pinv fuel _ _ _
                      (badKind_of_isUnary _ h7) heq).trans
                      (parseExpressionRestM_pinv fuel minBp a1 _ st1 a st' h)
                  next e heq => exact Except.noConfusion h
                · simp only [h7, Bool.false_eq_true, if_false] at h
                  by_cases h8 : (currentKind st).isCall = true
                  · simp only [h8, if_true] at h
                    split at h
                    next a1 st1 heq =>
                      exact (parseCallExpressionM_pinv fuel _ _ _
                        (badKind_of_isCall _ h8) heq).trans
                        (parseExpressionRestM_pinv fuel minBp a1 _ st1 a st' h)
                    next e heq => exact Except.noConfusion h
                  · simp only [h8, Bool.false_eq_true, if_false] at h
                    by_cases h9 : (currentKind st).isResource = true
                    · simp only [h9, if_true] at h
                      split at h
                      next a1 st1 heq =>
                        exact (parseResourceExpressionM_pinv _ _ _
                          (badKind_of_isResource _ h9) heq).trans
                          (parseExpressionRestM_pinv fuel minBp a1 _ st1 a st' h)
                      next e heq => exact Except.noConfusion h
                    · simp only [h9, Bool.false_eq_true, if_false] at h
                      by_cases h10 : currentKind st = Kind.array
                      · rw [if_pos h10] at h
                        split at h
                        next a1 st1 heq =>
                          exact (parseArrayAccessExpressionM_pinv fuel _ _ _ heq).trans
                            (parseExpressionRestM_pinv fuel minBp a1 _ st1 a st' h)
                        next e heq => exact Except.noConfusion h
                      · rw [if_neg h10] at h
                        by_cases h11 : (currentKind st = Kind.loopKw ∨ currentKind st = Kind.forEach)
                        · rw [if_pos h11] at h
                          exact Except.noConfusion h
                        · rw [if_neg h11] at h
                          by_cases h12 : currentKind st = Kind.thisKw
                          · rw [if_pos h12] at h
                            split at h
                            next a1 st1 heq =>
                              exact (parseThisExpressionM_pinv _ _ _ heq).trans
                                (parseExpressionRestM_pinv fuel minBp a1 _ st1 a st' h)
                            next e heq => exact Except.noConfusion h
                          · rw [if_neg h12] at h
                            by_cases h13 : currentKind st = Kind.unterminatedString
                            · rw [if_pos h13] at h
                              exact Except.noConfusion h
                            · rw [if_neg h13] at h
                              exact Except.noConfusion h

/-- The Pratt infix/postfix loop. -/
theorem parseExpressionRestM_pinv (fuel : Nat) (minBp : Nat) (left : Expression)
    (span : Span) :
    ∀ st a st', parseExpressionRestM fuel minBp left span st = .ok (a, st') →
      Pinv st st' := by
  match fuel with
  | 0 => intro st a st' h; exact Except.noConfusion h
  | fuel + 1 =>
    intro st a st' h
    simp only [parseExpressionRestM, PM.bind_apply, PM.pure_apply, PM.ite_app,
      currentKindM_apply, endSpanM_apply, throwD_apply] at h
    by_cases h1 : currentKind st = Kind.arrow
    · rw [if_pos h1] at h
      exact parseArrowAccessExpressionM_pinv fuel span left st a st' h
    · rw [if_neg h1] at h
      cases hbp : (currentKind st).bindingPower with
      | none =>
        rw [hbp] at h
        simp only [PM.pure_apply, Except.ok.injEq, Prod.mk.injEq] at h
        obtain ⟨_, rfl⟩ := h
        exact Pinv.refl st
      | some bp =>
        obtain ⟨lbp, rbp⟩ := bp
        rw [hbp] at h
        simp only [PM.bind_apply, PM.pure_apply, PM.ite_app, endSpanM_apply,
          throwD_apply] at h
        by_cases h2 : lbp < minBp
        · rw [if_pos h2] at h
          simp only [PM.pure_apply, Except.ok.injEq, Prod.mk.injEq] at h
          obtain ⟨_, rfl⟩ := h
          exact Pinv.refl st
        · rw [if_neg h2] at h
          by_cases h3 : (currentKind st).isBinaryOperator = true
          · simp only [h3, if_true] at h
            split at h
            next a1 st1 heq =>
              exact (parseBinaryExpressionM_pinv fuel span left rbp st a1 st1
                (badKind_of_isBinary _ h3) heq).trans
                (parseExpressionRestM_pinv fuel minBp a1 span st1 a st' h)
            next e heq => exact Except.noConfusion h
          · simp only [h3, Bool.false_eq_true, if_false] at h
            by_cases h4 : (currentKind st).isUpdateOperator = true
            · simp only [h4, if_true] at h
              revert h
              cases left with
              | variableExpr v =>
                intro h
                simp only [PM.bind_apply, PM.pure_apply] at h
                split at h
                next a1 st1 heq =>
                  exact (parseUpdateExpressionM_pinv span v st a1 st1
                    (badKind_of_isUpdate _ h4) heq).trans
                    (parseExpressionRestM_pinv fuel minBp a1 span st1 a st' h)
                next e heq => exact Except.noConfusion h
              | numericLiteral sp2 v r => intro h; exact Except.noConfusion h
              | booleanLiteral sp2 v => intro h; exact Except.noConfusion h
              | stringLiteral sp2 v => intro h; exact Except.noConfusion h
              | binary sp2 l op r => intro h; exact Except.noConfusion h
              | unary sp2 op x => intro h; exact Except.noConfusion h
              | ternary sp2 t c alt => intro h; exact Except.noConfusion h
              | conditional sp2 t c => intro h; exact Except.noConfusion h
              | parenthesized sp2 b => intro h; exact Except.noConfusion h
              | block b => intro h; exact Except.noConfusion h
              | update sp2 v op => intro h; exact Except.noConfusion h
              | resource sp2 k n => intro h; exact Except.noConfusion h
              | arrayAccess sp2 n i => intro h; exact Except.noConfusion h
              | arrowAccess sp2 l r => intro h; exact Except.noConfusion h
              | call sp2 k c args => intro h; exact Except.noConfusion h
              | thisExpr sp2 => intro h; exact Except.noConfusion h
            · simp only [h4, Bool.false_eq_true, if_false] at h
              by_cases h5 : currentKind st = Kind.question
              · rw [if_pos h5] at h
                split at h
                next a1 st1 heq =>
                  exact (parseTernaryOrConditionalM_pinv fuel span left st a1 st1
                    heq).trans
                    (parseExpressionRestM_pinv fuel minBp a1 span st1 a st' h)
                next e heq => exact Except.noConfusion h
              · rw [if_neg h5] at h
                simp only [PM.pure_apply, Except.ok.injEq, Prod.mk.injEq] at h
                obtain ⟨_, rfl⟩ := h
                exact Pinv.refl st

/-- `parse_binary_expression` bumps its (binary-operator) token. -/
theorem parseBinaryExpressionM_pinv (fuel : Nat) (leftSpan : Span)
    (left : Expression) (rbp : Nat) :
    ∀ st a st', badKind (currentKind st) = false →
      parseBinaryExpressionM fuel leftSpan left rbp st = .ok (a, st') →
      Pinv st st' := by
  match fuel with
  | 0 => intro st a st' _ h; exact Except.noConfusion h
  | fuel + 1 =>
    intro st a st' hk h
    simp only [parseBinaryExpressionM, PM.bind_apply, PM.pure_apply, PM.ite_app,
      currentKindM_apply, bumpM_apply, endSpanM_apply] at h
    split at h
    next a1 st1 heq =>
      simp only [Except.ok.injEq, Prod.mk.injEq] at h
      obtain ⟨_, rfl⟩ := h
      exact (bumpS_pinv st hk).trans (parseExpressionM_pinv fuel rbp _ _ _ heq)
    next e heq => exact Except.noConfusion h

/-- `parse_unary_expression` bumps its (unary-operator) token. -/
theorem parseUnaryExpressionM_pinv (fuel : Nat) :
    ∀ st a st', badKind (currentKind st) = false →
      parseUnaryExpressionM fuel st = .ok (a, st') → Pinv st st' := by
  match fuel with
  | 0 => intro st a st' _ h; exact Except.noConfusion h
  | fuel + 1 =>
    intro st a st' hk h
    simp only [parseUnaryExpressionM, PM.bind_apply, PM.pure_apply, PM.ite_app,
      currentKindM_apply, bumpM_apply, startSpanM_apply, endSpanM_apply] at h
    split at h
    next a1 st1 heq =>
      simp only [Except.ok.injEq, Prod.mk.injEq] at h
      obtain ⟨_, rfl⟩ := h
      exact (bumpS_pinv st hk).trans (parseExpressionM_pinv fuel 0 _ _ _ heq)
    next e heq => exact Except.noConfusion h

/-- Ternary / conditional: consumes `?`, sub-expressions, and maybe `:`. -/
theorem parseTernaryOrConditionalM_pinv (fuel : Nat) (testSpan : Span)
    (test : Expression) :
    ∀ st a st', parseTernaryOrConditionalM fuel testSpan test st = .ok (a, st') →
      Pinv st st' := by
  match fuel with
  | 0 => intro st a st' h; exact Except.noConfusion h
  | fuel + 1 =>
    intro st a st' h
    simp only [parseTernaryOrConditionalM, PM.bind_apply, PM.pure_apply, PM.ite_app,
      eatM_apply, endSpanM_apply] at h
    split at h
    next p heq =>
      split at h
      next a1 st1 heq2 =>
        by_cases hc : atKind st1 Kind.colon = true
        · simp only [eatS_pos hc, if_true] at h
          split at h
          next a2 st2 heq3 =>
            simp only [Except.ok.injEq, Prod.mk.injEq] at h
            obtain ⟨_, rfl⟩ := h
            exact (((expectM_pinv (by decide) heq).trans
              (parseExpressionM_pinv fuel 0 _ _ _ heq2)).trans
              (eat_bump_pinv hc (by decide))).trans
              (parseExpressionM_pinv fuel 0 _ _ _ heq3)
          next e heq3 => exact Except.noConfusion h
        · simp only [eatS_neg hc, Bool.false_eq_true, if_false, PM.pure_apply,
            Except.ok.injEq, Prod.mk.injEq] at h
          obtain ⟨_, rfl⟩ := h
          exact (expectM_pinv (by decide) heq).trans
            (parseExpressionM_pinv fuel 0 _ _ _ heq2)
      next e heq2 => exact Except.noConfusion h
    next e heq => exact Except.noConfusion h

/-- Arrow access: consumes `->` and a sub-expression. -/
theorem parseArrowAccessExpressionM_pinv (fuel : Nat) (leftSpan : Span)
    (left : Expression) :
    ∀ st a st', parseArrowAccessExpressionM fuel leftSpan left st = .ok (a, st') →
      Pinv st st' := by
  match fuel with
  | 0 => intro st a st' h; exact Except.noConfusion h
  | fuel + 1 =>
    intro st a st' h
    simp only [parseArrowAccessExpressionM, PM.bind_apply, PM.pure_apply, PM.ite_app,
      endSpanM_apply] at h
    split at h
    next p heq =>
      split at h
      next a1 st1 heq2 =>
        simp only [Except.ok.injEq, Prod.mk.injEq] at h
        obtain ⟨_, rfl⟩ := h
        exact (expectM_pinv (by decide) heq).trans
          (parseExpressionM_pinv fuel 0 _ _ _ heq2)
      next e heq2 => exact Except.noConfusion h
    next e heq => exact Except.noConfusion h

/-- Parenthesized expressions: a multi-statement group is only entered after
an eaten `;` (which raises the flag). -/
theorem parseParenthesizedExpressionM_pinv (fuel : Nat) :
    ∀ st a st', parseParenthesizedExpressionM fuel st = .ok (a, st') →
      Pinv st st' := by
  match fuel with
  | 0 => intro st a st' h; exact Except.noConfusion h
  | fuel + 1 =>
    intro st a st' h
    simp only [parseParenthesizedExpressionM, PM.bind_apply, PM.pure_apply, PM.ite_app,
      startSpanM_apply, endSpanM_apply, eatM_apply] at h
    split at h
    next p heq =>
      split at h
      next s1 st2 heq2 =>
        split at h
        next b st3 heq3 =>
          obtain ⟨hsp, hbf, hbt, hbe⟩ := parseSemiM_pinv _ _ _ _ heq3
          obtain ⟨hW, hPif⟩ := parseStatementM_pinv fuel _ _ _ heq2
          by_cases hb : b = true
          · simp only [hb, if_true] at h
            refine ((expectM_pinv (by decide) heq).trans
              ((hPif (hbe hb)).trans hsp)).trans ?_
            exact parseParenthesizedRestM_pinv fuel [s1] _ st3 a st' (hbt hb) h
          · have hb0 : b = false := by revert hb; cases b <;> simp
            simp only [hb0, Bool.false_eq_true, if_false] at h
            rw [hbf hb0] at h
            revert h
            cases s1 with
            | expression e =>
              intro h
              simp only [PM.bind_apply, PM.pure_apply, PM.ite_app, eatM_apply,
                endSpanM_apply] at h
              by_cases hrp : atKind st2 Kind.rightParen = true
              · simp only [eatS_pos hrp, if_true, Except.ok.injEq,
                  Prod.mk.injEq] at h
                obtain ⟨_, rfl⟩ := h
                exact ((expectM_pinv (by decide) heq).trans
                  (hPif rfl)).trans (eat_bump_pinv hrp (by decide))
              · simp only [eatS_neg hrp, Bool.false_eq_true, if_false] at h
                exact (parenMissingRpM_not_ok _ _ h).elim
            | assignment sp2 l op r => intro h; exact (parenMissingRpM_not_ok _ _ h).elim
            | loop sp2 c bl => intro h; exact (parenMissingRpM_not_ok _ _ h).elim
            | forEach sp2 v arr bl => intro h; exact (parenMissingRpM_not_ok _ _ h).elim
            | ret sp2 e => intro h; exact (parenMissingRpM_not_ok _ _ h).elim
            | breakStmt sp2 => intro h; exact (parenMissingRpM_not_ok _ _ h).elim
            | continueStmt sp2 => intro h; exact (parenMissingRpM_not_ok _ _ h).elim
            | empty sp2 => intro h; exact (parenMissingRpM_not_ok _ _ h).elim
        next e heq3 => exact Except.noConfusion h
      next e heq2 => exact Except.noConfusion h
    next e heq => exact Except.noConfusion h

/-- The multi-statement parenthesized loop (entered with the flag raised). -/
theorem parseParenthesizedRestM_pinv (fuel : Nat) (stmts : List Statement)
    (span : Span) :
    ∀ st a st', st.isComplex = true →
      parseParenthesizedRestM fuel stmts span st = .ok (a, st') → Pinv st st' := by
  match fuel with
  | 0 => intro st a st' _ h; exact Except.noConfusion h
  | fuel + 1 =>
    intro st a st' hic h
    simp only [parseParenthesizedRestM, PM.bind_apply, PM.pure_apply, PM.ite_app,
      atM_apply, endSpanM_apply, currentM_apply, errorM_apply] at h
    by_cases hrp : atKind st Kind.rightParen = true
    · simp only [hrp, if_true] at h
      split at h
      next p heq =>
        simp only [PM.pure_apply, Except.ok.injEq, Prod.mk.injEq] at h
        obtain ⟨_, rfl⟩ := h
        exact expectM_pinv (by decide) heq
      next e heq => exact Except.noConfusion h
    · simp only [hrp, Bool.false_eq_true, if_false] at h
      split at h
      next s1 st2 heq2 =>
        split at h
        next b st3 heq3 =>
          obtain ⟨hsp, hbf, hbt, hbe⟩ := parseSemiM_pinv _ _ _ _ heq3
          obtain ⟨hW, hPif⟩ := parseStatementM_pinv fuel _ _ _ heq2
          have hic2 : st2.isComplex = true := hW.flag hic
          have hic3 : st3.isComplex = true := hsp.flag hic2
          have hp12 : Pinv st st2 := hW.toPinv hic
          by_cases hb : (!b) = true
          · simp only [hb, if_true, PM.bind_apply, PM.pure_apply, PM.ite_app,
              errorM_apply] at h
            refine (hp12.trans hsp).trans (Pinv.trans ?_
              (parseParenthesizedRestM_pinv fuel _ _ _ a st' ?_ h))
            · exact Pinv.same rfl rfl
            · exact hic3
          · simp only [hb, Bool.false_eq_true, if_false] at h
            exact (hp12.trans hsp).trans
              (parseParenthesizedRestM_pinv fuel _ _ st3 a st' hic3 h)
        next e heq3 => exact Except.noConfusion h
      next e heq2 => exact Except.noConfusion h

/-- `parse_block_expression` raises the flag on entry; `{` is in the stream
whenever it succeeds. -/
theorem parseBlockExpressionM_pinv (fuel : Nat) :
    ∀ st a st', parseBlockExpressionM fuel st = .ok (a, st') → Pinv st st' := by
  match fuel with
  | 0 => intro st a st' h; exact Except.noConfusion h
  | fuel + 1 =>
    intro st a st' h
    simp only [parseBlockExpressionM, PM.bind_apply, PM.pure_apply, PM.ite_app,
      getIsComplex_apply, setIsComplex_apply, startSpanM_apply,
      endSpanM_apply] at h
    by_cases hic : (!st.isComplex) = true
    · simp only [hic, if_true, PM.bind_apply] at h
      split at h
      next p heq =>
        split at h
        next l stL heqL =>
          split at h
          next q heqR =>
            simp only [PM.pure_apply, Except.ok.injEq, Prod.mk.injEq] at h
            obtain ⟨_, rfl⟩ := h
            obtain ⟨rfl, hat⟩ := expectM_ok heq
            obtain ⟨t, rest, hts, htk⟩ := current_head hat (by decide)
            refine @Pinv.ofFlagged _ { st with isComplex := true } _ rfl rfl ?_ ?_
            · refine (expectM_pinv_flagged rfl heq).trans ?_
              refine (parseBlockLoopM_pinv fuel [] _ _ _ rfl heqL).trans ?_
              exact expectM_pinv (by decide) heqR
            · exact hasComplexToken_of_head hts (by simp [badKind, htk])
          next e heqR => exact Except.noConfusion h
        next e heqL => exact Except.noConfusion h
      next e heq => exact Except.noConfusion h
    · simp only [hic, Bool.false_eq_true, if_false, PM.bind_apply] at h
      have hic1 : st.isComplex = true := by revert hic; cases hx : st.isComplex <;> simp
      split at h
      next p heq =>
        split at h
        next l stL heqL =>
          split at h
          next q heqR =>
            simp only [PM.pure_apply, Except.ok.injEq, Prod.mk.injEq] at h
            obtain ⟨_, rfl⟩ := h
            obtain ⟨rfl, hat⟩ := expectM_ok heq
            obtain ⟨t, rest, hts, htk⟩ := current_head hat (by decide)
            refine @Pinv.ofFlagged _ st _ rfl hic1 ?_ ?_
            · refine (expectM_pinv_flagged hic1 heq).trans ?_
              refine (parseBlockLoopM_pinv fuel [] _ _ _ (by
                rw [show (bumpS st).isComplex = st.isComplex from rfl]
                exact hic1) heqL).trans ?_
              exact expectM_pinv (by decide) heqR
            · exact hasComplexToken_of_head hts (by simp [badKind, htk])
          next e heqR => exact Except.noConfusion h
        next e heqL => exact Except.noConfusion h
      next e heq => exact Except.noConfusion h

/-- The block statement loop (entered with the flag raised). -/
theorem parseBlockLoopM_pinv (fuel : Nat) (stmts : List Statement) :
    ∀ st a st', st.isComplex = true →
      parseBlockLoopM fuel stmts st = .ok (a, st') → Pinv st st' := by
  match fuel with
  | 0 => intro st a st' _ h; exact Except.noConfusion h
  | fuel + 1 =>
    intro st a st' hic h
    simp only [parseBlockLoopM, PM.bind_apply, PM.pure_apply, PM.ite_app, atM_apply,
      getIsComplex_apply, currentM_apply, errorM_apply] at h
    by_cases hrb : atKind st Kind.rightBrace = true
    · simp only [hrb, if_true, PM.pure_apply, Except.ok.injEq,
        Prod.mk.injEq] at h
      obtain ⟨_, rfl⟩ := h
      exact Pinv.refl st
    · simp only [hrb, Bool.false_eq_true, if_false] at h
      split at h
      next s1 st2 heq2 =>
        split at h
        next b st3 heq3 =>
          obtain ⟨hsp, hbf, hbt, hbe⟩ := parseSemiM_pinv _ _ _ _ heq3
          obtain ⟨hW, hPif⟩ := parseStatementM_pinv fuel _ _ _ heq2
          have hic2 : st2.isComplex = true := hW.flag hic
          have hic3 : st3.isComplex = true := hsp.flag hic2
          have hp12 : Pinv st st2 := hW.toPinv hic
          by_cases hcond : (!b && st3.isComplex) = true
          · simp only [hcond, if_true, PM.bind_apply, PM.pure_apply, PM.ite_app,
              errorM_apply] at h
            refine (hp12.trans hsp).trans (Pinv.trans ?_
              (parseBlockLoopM_pinv fuel _ _ a st' ?_ h))
            · exact Pinv.same rfl rfl
            · exact hic3
          · simp only [hcond, Bool.false_eq_true, if_false] at h
            exact (hp12.trans hsp).trans
              (parseBlockLoopM_pinv fuel _ st3 a st' hic3 h)
        next e heq3 => exact Except.noConfusion h
      next e heq2 => exact Except.noConfusion h

/-- `parse_call_expression` bumps its (call) token and consumes balanced
argument tokens. -/
theorem parseCallExpressionM_pinv (fuel : Nat) :
    ∀ st a st', badKind (currentKind st) = false →
      parseCallExpressionM fuel st = .ok (a, st') → Pinv st st' := by
  match fuel with
  | 0 => intro st a st' _ h; exact Except.noConfusion h
  | fuel + 1 =>
    intro st a st' hk h
    simp only [parseCallExpressionM, PM.bind_apply, PM.pure_apply, PM.ite_app,
      currentKindM_apply, bumpM_apply, startSpanM_apply, endSpanM_apply,
      eatM_apply] at h
    split at h
    next p heq =>
      split at h
      next q st4 heq2 =>
        by_cases hlp : atKind st4 Kind.leftParen = true
        · simp only [eatS_pos hlp, if_true, PM.bind_apply, PM.pure_apply, PM.ite_app] at h
          split at h
          next args st5 heq3 =>
            simp only [PM.pure_apply, Except.ok.injEq, Prod.mk.injEq] at h
            obtain ⟨_, rfl⟩ := h
            exact (((bumpS_pinv st hk).trans
              (expectM_pinv (by decide) heq)).trans
              ((parseIdentifierM_pinv _ _ _ heq2).trans
                (eat_bump_pinv hlp (by decide)))).trans
              (parseCallArgsM_pinv fuel true [] _ _ _ heq3)
          next e heq3 => exact Except.noConfusion h
        · simp only [eatS_neg hlp, Bool.false_eq_true, if_false, PM.pure_apply,
            Except.ok.injEq, Prod.mk.injEq] at h
          obtain ⟨_, rfl⟩ := h
          exact ((bumpS_pinv st hk).trans (expectM_pinv (by decide) heq)).trans
            (parseIdentifierM_pinv _ _ _ heq2)
      next e heq2 => exact Except.noConfusion h
    next e heq => exact Except.noConfusion h

/-- The call-argument loop. -/
theorem parseCallArgsM_pinv (fuel : Nat) (first : Bool) (args : List Expression) :
    ∀ st a st', parseCallArgsM fuel first args st = .ok (a, st') → Pinv st st' := by
  match fuel with
  | 0 => intro st a st' h; exact Except.noConfusion h
  | fuel + 1 =>
    intro st a st' h
    simp only [parseCallArgsM, PM.bind_apply, PM.pure_apply, PM.ite_app, atM_apply] at h
    by_cases hstop : (atKind st Kind.rightParen || atKind st Kind.eof) = true
    · simp only [hstop, if_true] at h
      split at h
      next p heq =>
        simp only [PM.pure_apply, Except.ok.injEq, Prod.mk.injEq] at h
        obtain ⟨_, rfl⟩ := h
        exact expectM_pinv (by decide) heq
      next e heq => exact Except.noConfusion h
    · simp only [hstop, Bool.false_eq_true, if_false] at h
      by_cases hfirst : first = true
      · simp only [hfirst, if_true] at h
        split at h
        next a1 st1 heq =>
          exact (parseExpressionM_pinv fuel 0 _ _ _ heq).trans
            (parseCallArgsM_pinv fuel false _ st1 a st' h)
        next e heq => exact Except.noConfusion h
      · simp only [hfirst, Bool.false_eq_true, if_false] at h
        split at h
        next u st4 heq =>
          by_cases hrp2 : atKind st4 Kind.rightParen = true
          · simp only [hrp2, if_true] at h
            split at h
            next u2 st5 heq2 =>
              simp only [PM.pure_apply, Except.ok.injEq, Prod.mk.injEq] at h
              obtain ⟨_, rfl⟩ := h
              exact (expectM_pinv (by decide) heq).trans
                (expectM_pinv (by decide) heq2)
            next e2 heq2 => exact Except.noConfusion h
          · simp only [hrp2, Bool.false_eq_true, if_false] at h
            split at h
            next a1 st5 heq2 =>
              exact ((expectM_pinv (by decide) heq).trans
                (parseExpressionM_pinv fuel 0 _ _ _ heq2)).trans
                (parseCallArgsM_pinv fuel false _ _ a st' h)
            next e2 heq2 => exact Except.noConfusion h
        next e heq => exact Except.noConfusion h

/-- Array access: fixed punctuation plus a sub-expression. -/
theorem parseArrayAccessExpressionM_pinv (fuel : Nat) :
    ∀ st a st', parseArrayAccessExpressionM fuel st = .ok (a, st') →
      Pinv st st' := by
  match fuel with
  | 0 => intro st a st' h; exact Except.noConfusion h
  | fuel + 1 =>
    intro st a st' h
    simp only [parseArrayAccessExpressionM, PM.bind_apply, PM.pure_apply, PM.ite_app,
      startSpanM_apply, endSpanM_apply] at h
    split at h
    next p heq =>
      split at h
      next q heq2 =>
        split at h
        next nm st3 heq3 =>
          split at h
          next r heq4 =>
            split at h
            next a1 st5 heq5 =>
              split at h
              next s heq6 =>
                simp only [PM.pure_apply, Except.ok.injEq, Prod.mk.injEq] at h
                obtain ⟨_, rfl⟩ := h
                exact ((((((expectM_pinv (by decide) heq).trans
                  (expectM_pinv (by decide) heq2)).trans
                  (parseIdentifierM_pinv _ _ _ heq3)).trans
                  (expectM_pinv (by decide) heq4)).trans
                  (parseExpressionM_pinv fuel 0 _ _ _ heq5)).trans
                  (expectM_pinv (by decide) heq6))
              next e heq6 => exact Except.noConfusion h
            next e heq5 => exact Except.noConfusion h
          next e heq4 => exact Except.noConfusion h
        next e heq3 => exact Except.noConfusion h
      next e heq2 => exact Except.noConfusion h
    next e heq => exact Except.noConfusion h

/-- `loop(...)` statement. -/
theorem parseLoopStatementM_pinv (fuel : Nat) :
    ∀ st a st', parseLoopStatementM fuel st = .ok (a, st') → Pinv st st' := by
  match fuel with
  | 0 => intro st a st' h; exact Except.noConfusion h
  | fuel + 1 =>
    intro st a st' h
    simp only [parseLoopStatementM, PM.bind_apply, PM.pure_apply, PM.ite_app,
      startSpanM_apply, endSpanM_apply] at h
    split at h
    next p heq =>
      split at h
      next q heq2 =>
        split at h
        next c st3 heq3 =>
          split at h
          next r heq4 =>
            split at h
            next bl st5 heq5 =>
              split at h
              next s heq6 =>
                simp only [PM.pure_apply, Except.ok.injEq, Prod.mk.injEq] at h
                obtain ⟨_, rfl⟩ := h
                exact ((((((expectM_pinv (by decide) heq).trans
                  (expectM_pinv (by decide) heq2)).trans
                  (parseExpressionM_pinv fuel 0 _ _ _ heq3)).trans
                  (expectM_pinv (by decide) heq4)).trans
                  (parseBlockExpressionM_pinv fuel _ _ _ heq5)).trans
                  (expectM_pinv (by decide) heq6))
              next e heq6 => exact Except.noConfusion h
            next e heq5 => exact Except.noConfusion h
          next e heq4 => exact Except.noConfusion h
        next e heq3 => exact Except.noConfusion h
      next e heq2 => exact Except.noConfusion h
    next e heq => exact Except.noConfusion h

/-- `for_each(...)` statement. -/
theorem parseForEachStatementM_pinv (fuel : Nat) :
    ∀ st a st', parseForEachStatementM fuel st = .ok (a, st') → Pinv st st' := by
  match fuel with
  | 0 => intro st a st' h; exact Except.noConfusion h
  | fuel + 1 =>
    intro st a st' h
    simp only [parseForEachStatementM, PM.bind_apply, PM.pure_apply, PM.ite_app,
      startSpanM_apply, endSpanM_apply, currentKindM_apply, currentM_apply,
      throwD_apply] at h
    split at h
    next u st2 heq =>
      split at h
      next u2 st3 heq2 =>
        by_cases hv : (!(currentKind st3).isVariable) = true
        · simp only [hv, if_true] at h
          exact Except.noConfusion h
        · simp only [hv, Bool.false_eq_true, if_false] at h
          have hv2 : (currentKind st3).isVariable = true := by
            revert hv
            cases hx : (currentKind st3).isVariable <;> simp
          split at h
          next v st4 heqv =>
            split at h
            next u3 st5 heqc =>
              split at h
              next arr st6 heqa =>
                split at h
                next u4 st7 heqc2 =>
                  split at h
                  next bl st8 heqb =>
                    split at h
                    next u5 st9 heqr =>
                      simp only [PM.pure_apply, Except.ok.injEq,
                        Prod.mk.injEq] at h
                      obtain ⟨_, rfl⟩ := h
                      exact (((((((expectM_pinv (by decide) heq).trans
                        (expectM_pinv (by decide) heq2)).trans
                        (parseVariableExpressionM_pinv fuel _ _ _
                          (badKind_of_isVariable _ hv2) heqv)).trans
                        (expectM_pinv (by decide) heqc)).trans
                        (parseExpressionM_pinv fuel 0 _ _ _ heqa)).trans
                        (expectM_pinv (by decide) heqc2)).trans
                        (parseBlockExpressionM_pinv fuel _ _ _ heqb)).trans
                        (expectM_pinv (by decide) heqr)
                    next e heqr => exact Except.noConfusion h
                  next e heqb => exact Except.noConfusion h
                next e heqc2 => exact Except.noConfusion h
              next e heqa => exact Except.noConfusion h
            next e heqc => exact Except.noConfusion h
          next e heqv => exact Except.noConfusion h
      next e heq2 => exact Except.noConfusion h
    next e heq => exact Except.noConfusion h

/-- `return` statement. -/
theorem parseReturnStatementM_pinv (fuel : Nat) :
    ∀ st a st', parseReturnStatementM fuel st = .ok (a, st') → Pinv st st' := by
  match fuel with
  | 0 => intro st a st' h; exact Except.noConfusion h
  | fuel + 1 =>
    intro st a st' h
    simp only [parseReturnStatementM, PM.bind_apply, PM.pure_apply, PM.ite_app,
      startSpanM_apply, endSpanM_apply] at h
    split at h
    next p heq =>
      split at h
      next a1 st1 heq2 =>
        simp only [PM.pure_apply, Except.ok.injEq, Prod.mk.injEq] at h
        obtain ⟨_, rfl⟩ := h
        exact (expectM_pinv (by decide) heq).trans
          (parseExpressionM_pinv fuel 0 _ _ _ heq2)
      next e heq2 => exact Except.noConfusion h
    next e heq => exact Except.noConfusion h

/-- Assignment-or-expression: an assignment raises the flag right after
consuming its operator. -/
theorem parseAssignmentOrExpressionM_pinv (fuel : Nat) :
    ∀ st a st', badKind (currentKind st) = false →
      parseAssignmentOrExpressionM fuel st = .ok (a, st') → Pinv st st' := by
  match fuel with
  | 0 => intro st a st' _ h; exact Except.noConfusion h
  | fuel + 1 =>
    intro st a st' hk h
    simp only [parseAssignmentOrExpressionM, PM.bind_apply, PM.pure_apply, PM.ite_app,
      startSpanM_apply, endSpanM_apply, currentKindM_apply, bumpM_apply,
      getIsComplex_apply, setIsComplex_apply] at h
    split at h
    next v st2 heq =>
      have hp2 : Pinv st st2 := parseVariableExpressionM_pinv fuel _ _ _ hk heq
      by_cases hassign : (currentKind st2).isAssignmentOperator = true
      · simp only [hassign, if_true, PM.bind_apply, PM.pure_apply, PM.ite_app] at h
        obtain ⟨t, rest, hts, htk⟩ := current_head
          (show atKind st2 (currentKind st2) = true by simp [atKind])
          (isAssignment_ne_eof _ hassign)
        have hbad : badKind t.kind = true := by simp [badKind, htk, hassign]
        by_cases hic : (!(bumpS st2).isComplex) = true
        · simp only [hic, if_true, PM.bind_apply, PM.pure_apply, PM.ite_app] at h
          split at h
          next a1 st4 heq4 =>
            simp only [PM.pure_apply, Except.ok.injEq, Prod.mk.injEq] at h
            obtain ⟨_, rfl⟩ := h
            refine hp2.trans (Pinv.consumeFlagged hts ?_ rfl hbad
              (parseExpressionM_pinv fuel 0 _ _ _ heq4))
            simp [bumpS, hts]
          next e heq4 => exact Except.noConfusion h
        · have hic1 : (bumpS st2).isComplex = true := by
            revert hic
            cases hx : (bumpS st2).isComplex <;> simp
          simp only [hic, Bool.false_eq_true, if_false, PM.bind_apply,
            PM.pure_apply] at h
          split at h
          next a1 st4 heq4 =>
            simp only [PM.pure_apply, Except.ok.injEq, Prod.mk.injEq] at h
            obtain ⟨_, rfl⟩ := h
            refine hp2.trans (Pinv.consumeFlagged hts ?_ hic1 hbad
              (parseExpressionM_pinv fuel 0 _ _ _ heq4))
            simp [bumpS, hts]
          next e heq4 => exact Except.noConfusion h
      · simp only [hassign, Bool.false_eq_true, if_false, PM.bind_apply,
          PM.pure_apply] at h
        split at h
        next a1 st3 heq3 =>
          simp only [PM.pure_apply, Except.ok.injEq, Prod.mk.injEq] at h
          obtain ⟨_, rfl⟩ := h
          exact hp2.trans (parseExpressionRestM_pinv fuel 0 _ _ _ _ _ heq3)
        next e heq3 => exact Except.noConfusion h
    next e heq => exact Except.noConfusion h

/-- One statement: empty statements may consume their `;` silently; all other
statements satisfy the full invariant. -/
theorem parseStatementM_pinv (fuel : Nat) :
    ∀ st a st', parseStatementM fuel st = .ok (a, st') →
      PinvW st st' ∧ (a.isEmpty = false → Pinv st st') := by
  match fuel with
  | 0 => intro st a st' h; exact Except.noConfusion h
  | fuel + 1 =>
    intro st a st' h
    simp only [parseStatementM, PM.bind_apply, PM.pure_apply, PM.ite_app,
      currentKindM_apply] at h
    by_cases h1 : currentKind st = Kind.semi
    · rw [if_pos h1] at h
      obtain ⟨rfl, hat, hemp⟩ := parseEmptyStatementM_ok _ _ _ h
      obtain ⟨t, rest, hts, htk⟩ := current_head hat (by decide)
      refine ⟨⟨⟨[t], ?_, ?_⟩, ?_, ?_⟩, ?_⟩
      · simp [bumpS, hts]
      · intro _
        simp only [List.all_cons, List.all_nil, Bool.and_true, htk]
        decide
      · intro hx; exact hx
      · intro hx hy
        simp only [bumpS] at hy
        rw [hx] at hy
        exact absurd hy (by simp)
      · intro hF; rw [hemp] at hF; exact absurd hF (by simp)
    · rw [if_neg h1] at h
      by_cases h2 : (currentKind st).isVariable = true
      · simp only [h2, if_true] at h
        have := parseAssignmentOrExpressionM_pinv fuel _ _ _
          (badKind_of_isVariable _ h2) h
        exact ⟨this.toW, fun _ => this⟩
      · simp only [h2, Bool.false_eq_true, if_false] at h
        by_cases h3 : currentKind st = Kind.loopKw
        · rw [if_pos h3] at h
          have := parseLoopStatementM_pinv fuel _ _ _ h
          exact ⟨this.toW, fun _ => this⟩
        · rw [if_neg h3] at h
          by_cases h4 : currentKind st = Kind.forEach
          · rw [if_pos h4] at h
            have := parseForEachStatementM_pinv fuel _ _ _ h
            exact ⟨this.toW, fun _ => this⟩
          · rw [if_neg h4] at h
            by_cases h5 : currentKind st = Kind.returnKw
            · rw [if_pos h5] at h
              have := parseReturnStatementM_pinv fuel _ _ _ h
              exact ⟨this.toW, fun _ => this⟩
            · rw [if_neg h5] at h
              by_cases h6 : currentKind st = Kind.breakKw
              · rw [if_pos h6] at h
                have := parseBreakStatementM_pinv _ _ _ h
                exact ⟨this.1.toW, fun _ => this.1⟩
              · rw [if_neg h6] at h
                by_cases h7 : currentKind st = Kind.continueKw
                · rw [if_pos h7] at h
                  have := parseContinueStatementM_pinv _ _ _ h
                  exact ⟨this.1.toW, fun _ => this.1⟩
                · rw [if_neg h7] at h
                  split at h
                  next a1 st1 heq =>
                    simp only [PM.pure_apply, Except.ok.injEq,
                      Prod.mk.injEq] at h
                    obtain ⟨_, rfl⟩ := h
                    have := parseExpressionM_pinv fuel 0 _ _ _ heq
                    exact ⟨this.toW, fun _ => this⟩
                  next e heq => exact Except.noConfusion h

end

end Nolana

namespace Nolana

set_option maxHeartbeats 1600000

theorem keywordKind_ne_eof (w : String) : keywordKind w ≠ .eof := by
  rw [keywordKind]
  by_cases h1 : (w = "temp" ∨ w = "t")
  · rw [if_pos h1]; decide
  · rw [if_neg h1]
    by_cases h2 : (w = "variable" ∨ w = "v")
    · rw [if_pos h2]; decide
    · rw [if_neg h2]
      by_cases h3 : (w = "context" ∨ w = "c")
      · rw [if_pos h3]; decide
      · rw [if_neg h3]
        by_cases h4 : (w = "Math" ∨ w = "math")
        · rw [if_pos h4]; decide
        · rw [if_neg h4]
          by_cases h5 : (w = "Query" ∨ w = "query" ∨ w = "q")
          · rw [if_pos h5]; decide
          · rw [if_neg h5]
            by_cases h6 : (w = "Geometry" ∨ w = "geometry")
            · rw [if_pos h6]; decide
            · rw [if_neg h6]
              by_cases h7 : (w = "Material" ∨ w = "material")
              · rw [if_pos h7]; decide
              · rw [if_neg h7]
                by_cases h8 : (w = "Texture" ∨ w = "texture")
                · rw [if_pos h8]; decide
                · rw [if_neg h8]
                  by_cases h9 : (w = "Array" ∨ w = "array")
                  · rw [if_pos h9]; decide
                  · rw [if_neg h9]
                    by_cases h10 : (w = "true")
                    · rw [if_pos h10]; decide
                    · rw [if_neg h10]
                      by_cases h11 : (w = "false")
                      · rw [if_pos h11]; decide
                      · rw [if_neg h11]
                        by_cases h12 : (w = "this")
                        · rw [if_pos h12]; decide
                        · rw [if_neg h12]
                          by_cases h13 : (w = "break")
                          · rw [if_pos h13]; decide
                          · rw [if_neg h13]
                            by_cases h14 : (w = "continue")
                            · rw [if_pos h14]; decide
                            · rw [if_neg h14]
                              by_cases h15 : (w = "for_each")
                              · rw [if_pos h15]; decide
                              · rw [if_neg h15]
                                by_cases h16 : (w = "loop")
                                · rw [if_pos h16]; decide
                                · rw [if_neg h16]
                                  by_cases h17 : (w = "return")
                                  · rw [if_pos h17]; decide
                                  · rw [if_neg h17]
                                    decide

theorem matchSymbol_ne_eof {cs : List Char} {k : Kind} {n : Nat}
    (h : matchSymbol cs = some (k, n)) : k ≠ .eof := by
  simp only [matchSymbol, Option.map_eq_some'] at h
  obtain ⟨p, hp, hpk⟩ := h
  have hmem := List.mem_of_find?_eq_some hp
  have hall : ∀ q ∈ symbolTable, q.2 ≠ Kind.eof := by decide
  have hne := hall p hmem
  cases hpk
  exact hne

theorem lexOne_ne_eof (c : Char) (tl : List Char) :
    (lexOne (c :: tl)).1 ≠ .eof := by
  simp only [lexOne]
  by_cases h1 : c.toNat = 39
  · rw [if_pos h1]
    by_cases h2 : (List.takeWhile (fun d => decide (d.toNat ≠ 39)) tl).length < tl.length
    · rw [if_pos h2]
      intro hc
      exact Kind.noConfusion hc
    · rw [if_neg h2]
      intro hc
      exact Kind.noConfusion hc
  · rw [if_neg h1]
    by_cases h2 : isIdentStart c = true
    · simp only [h2, if_true]
      exact keywordKind_ne_eof _
    · simp only [h2, Bool.false_eq_true, if_false]
      cases hnum : numberLen (c :: tl) with
      | some n => simp [hnum]
      | none =>
        simp only [hnum]
        cases hsym : matchSymbol (c :: tl) with
        | some kn =>
          obtain ⟨k2, n2⟩ := kn
          simpa using matchSymbol_ne_eof hsym
        | none => simp [hsym]

theorem lexGo_no_eof (fuel : Nat) : ∀ pos cs t, t ∈ lexGo fuel pos cs →
    t.kind ≠ .eof := by
  induction fuel with
  | zero => intro pos cs t ht; simp [lexGo] at ht
  | succ fuel ih =>
    intro pos cs t ht
    match cs with
    | [] => simp [lexGo] at ht
    | c :: tl =>
      simp only [lexGo] at ht
      by_cases hws : isLexWs c = true
      · simp only [hws, if_true] at ht
        exact ih _ _ _ ht
      · simp only [hws, Bool.false_eq_true, if_false, List.mem_cons] at ht
        cases ht with
        | inl he => rw [he]; exact lexOne_ne_eof c tl
        | inr hm => exact ih _ _ _ hm

theorem lex_no_eof (src : String) : ∀ t ∈ lex src, t.kind ≠ .eof := by
  intro t ht
  exact lexGo_no_eof _ _ _ _ ht

/-- The statement loop keeps a `Simple` body unchanged. -/
theorem parseProgramLoopM_simple (fuel : Nat) : ∀ (e : Expression) (st : PState)
    (r : ProgramBody × PState), parseProgramLoopM fuel (.simple e) st = .ok r →
    r.1 = .simple e := by
  induction fuel with
  | zero => intro e st r h; exact Except.noConfusion h
  | succ fuel ih =>
    intro e st r h
    simp only [parseProgramLoopM, PM.bind_apply, PM.pure_apply, PM.ite_app,
      atM_apply, getIsComplex_apply, currentM_apply, errorM_apply] at h
    by_cases heof : atKind st Kind.eof = true
    · simp only [heof, if_true, Except.ok.injEq] at h
      rw [← h]
    · simp only [heof, Bool.false_eq_true, if_false] at h
      split at h
      next s1 st2 heq =>
        split at h
        next b st3 heq2 =>
          by_cases hcond : (!b && st3.isComplex) = true
          · simp only [hcond, if_true] at h
            exact ih e _ r h
          · simp only [hcond, Bool.false_eq_true, if_false] at h
            exact ih e _ r h
        next e2 heq2 => exact Except.noConfusion h
      next e2 heq => exact Except.noConfusion h

/-- The statement loop keeps a `Complex` body `Complex` and only appends; if
nothing was appended, the loop was already at `Eof`. -/
theorem parseProgramLoopM_complex (fuel : Nat) : ∀ (l0 : List Statement)
    (st : PState) (r : ProgramBody × PState),
    parseProgramLoopM fuel (.complex l0) st = .ok r →
    ∃ ds, r.1 = .complex (l0 ++ ds) ∧ (ds = [] → atKind st Kind.eof = true) := by
  induction fuel with
  | zero => intro l0 st r h; exact Except.noConfusion h
  | succ fuel ih =>
    intro l0 st r h
    simp only [parseProgramLoopM, PM.bind_apply, PM.pure_apply, PM.ite_app,
      atM_apply, getIsComplex_apply, currentM_apply, errorM_apply] at h
    by_cases heof : atKind st Kind.eof = true
    · simp only [heof, if_true, Except.ok.injEq] at h
      exact ⟨[], by rw [← h]; simp, fun _ => heof⟩
    · simp only [heof, Bool.false_eq_true, if_false] at h
      split at h
      next s1 st2 heq =>
        split at h
        next b st3 heq2 =>
          by_cases hcond : (!b && st3.isComplex) = true
          · simp only [hcond, if_true] at h
            obtain ⟨ds2, hr, _⟩ := ih (l0 ++ [s1]) _ r h
            exact ⟨[s1] ++ ds2, by rw [hr]; simp, fun hF => absurd hF (by simp)⟩
          · simp only [hcond, Bool.false_eq_true, if_false] at h
            obtain ⟨ds2, hr, _⟩ := ih (l0 ++ [s1]) _ r h
            exact ⟨[s1] ++ ds2, by rw [hr]; simp, fun hF => absurd hF (by simp)⟩
        next e2 heq2 => exact Except.noConfusion h
      next e2 heq => exact Except.noConfusion h

end Nolana

namespace Nolana

theorem hasComplexToken_eq_false_of_all {l : List Token}
    (h : l.all (fun t => !badKind t.kind) = true) : hasComplexToken l = false := by
  simp only [List.all_eq_true, Bool.not_eq_true'] at h
  cases hx : hasComplexToken l with
  | false => rfl
  | true =>
    exfalso
    simp only [hasComplexToken, List.any_eq_true] at hx
    obtain ⟨t, ht, hb⟩ := hx
    rw [h t ht] at hb
    exact absurd hb (by simp)

/-- If the first statement run of the program loop ends `Simple`, no
`;`/assignment/`{` token occurs in the remaining stream. -/
theorem progLoop_empty_simple (fuel : Nat) (st : PState)
    (r : ProgramBody × PState) (e : Expression)
    (h : parseProgramLoopM (fuel + 1) .empty st = .ok r)
    (hr : r.1 = .simple e) (hic : st.isComplex = false)
    (hne : ∀ t ∈ st.tokens, t.kind ≠ .eof) :
    hasComplexToken st.tokens = false := by
  simp only [parseProgramLoopM, PM.bind_apply, PM.pure_apply, PM.ite_app,
    atM_apply, getIsComplex_apply, currentM_apply, errorM_apply] at h
  by_cases heof : atKind st Kind.eof = true
  · have htok : st.tokens = [] := by
      cases hts : st.tokens with
      | nil => rfl
      | cons t rest =>
        exfalso
        simp only [atKind, currentKind, currentToken, hts,
          decide_eq_true_eq] at heof
        exact hne t (by rw [hts]; simp) heof
    simp [hasComplexToken, htok]
  · simp only [heof, Bool.false_eq_true, if_false] at h
    split at h
    next s1 st2 heq =>
      split at h
      next b st3 heq2 =>
        obtain ⟨hsp, hbf, hbt, hbe⟩ := parseSemiM_pinv _ _ _ _ heq2
        obtain ⟨hW, hPif⟩ := parseStatementM_pinv fuel _ _ _ heq
        by_cases hcond : (!b && st3.isComplex) = true
        · simp only [Bool.and_eq_true, Bool.not_eq_eq_eq_not,
            Bool.not_true] at hcond
          exfalso
          simp only [hcond.1, hcond.2, if_true, Bool.not_true, Bool.false_and,
            Bool.false_eq_true, if_false] at h
          revert h
          cases s1 with
          | expression e2 =>
            intro h
            obtain ⟨ds, hr2, _⟩ := parseProgramLoopM_complex fuel _ _ _ h
            rw [hr2] at hr
            exact absurd hr (by simp)
          | assignment sp2 l op rr =>
            intro h
            obtain ⟨ds, hr2, _⟩ := parseProgramLoopM_complex fuel _ _ _ h
            rw [hr2] at hr
            exact absurd hr (by simp)
          | loop sp2 c bl =>
            intro h
            obtain ⟨ds, hr2, _⟩ := parseProgramLoopM_complex fuel _ _ _ h
            rw [hr2] at hr
            exact absurd hr (by simp)
          | forEach sp2 v arr bl =>
            intro h
            obtain ⟨ds, hr2, _⟩ := parseProgramLoopM_complex fuel _ _ _ h
            rw [hr2] at hr
            exact absurd hr (by simp)
          | ret sp2 e3 =>
            intro h
            obtain ⟨ds, hr2, _⟩ := parseProgramLoopM_complex fuel _ _ _ h
            rw [hr2] at hr
            exact absurd hr (by simp)
          | breakStmt sp2 =>
            intro h
            obtain ⟨ds, hr2, _⟩ := parseProgramLoopM_complex fuel _ _ _ h
            rw [hr2] at hr
            exact absurd hr (by simp)
          | continueStmt sp2 =>
            intro h
            obtain ⟨ds, hr2, _⟩ := parseProgramLoopM_complex fuel _ _ _ h
            rw [hr2] at hr
            exact absurd hr (by simp)
          | empty sp2 =>
            intro h
            obtain ⟨ds, hr2, _⟩ := parseProgramLoopM_complex fuel _ _ _ h
            rw [hr2] at hr
            exact absurd hr (by simp)
        · simp only [hcond, Bool.false_eq_true, if_false] at h
          revert h
          cases s1 with
          | expression e2 =>
            intro h
            by_cases hdec : (!st3.isComplex && atKind st3 Kind.eof) = true
            · simp only [hdec, if_true] at h
              simp only [Bool.and_eq_true, Bool.not_eq_eq_eq_not,
                Bool.not_true] at hdec
              have hb0 : b = false := by
                cases hx : b with
                | false => rfl
                | true => exact absurd (hbt hx) (by simp [hdec.1])
              rw [hbf hb0] at hdec
              have hp : Pinv st st2 := hPif rfl
              obtain ⟨⟨pre, hpre, hclean⟩, _, _⟩ := hp
              have htok2 : st2.tokens = [] := by
                cases hts : st2.tokens with
                | nil => rfl
                | cons t rest =>
                  exfalso
                  simp only [atKind, currentKind, currentToken, hts,
                    decide_eq_true_eq] at hdec
                  refine hne t ?_ hdec.2
                  rw [hpre, hts]
                  simp
              rw [hpre, htok2, List.append_nil]
              exact hasComplexToken_eq_false_of_all (hclean hdec.1)
            · simp only [hdec, Bool.false_eq_true, if_false] at h
              obtain ⟨ds, hr2, _⟩ := parseProgramLoopM_complex fuel _ _ _ h
              rw [hr2] at hr
              exact absurd hr (by simp)
          | assignment sp2 l op rr =>
            intro h
            obtain ⟨ds, hr2, _⟩ := parseProgramLoopM_complex fuel _ _ _ h
            rw [hr2] at hr
            exact absurd hr (by simp)
          | loop sp2 c bl =>
            intro h
            obtain ⟨ds, hr2, _⟩ := parseProgramLoopM_complex fuel _ _ _ h
            rw [hr2] at hr
            exact absurd hr (by simp)
          | forEach sp2 v arr bl =>
            intro h
            obtain ⟨ds, hr2, _⟩ := parseProgramLoopM_complex fuel _ _ _ h
            rw [hr2] at hr
            exact absurd hr (by simp)
          | ret sp2 e3 =>
            intro h
            obtain ⟨ds, hr2, _⟩ := parseProgramLoopM_complex fuel _ _ _ h
            rw [hr2] at hr
            exact absurd hr (by simp)
          | breakStmt sp2 =>
            intro h
            obtain ⟨ds, hr2, _⟩ := parseProgramLoopM_complex fuel _ _ _ h
            rw [hr2] at hr
            exact absurd hr (by simp)
          | continueStmt sp2 =>
            intro h
            obtain ⟨ds, hr2, _⟩ := parseProgramLoopM_complex fuel _ _ _ h
            rw [hr2] at hr
            exact absurd hr (by simp)
          | empty sp2 =>
            intro h
            obtain ⟨ds, hr2, _⟩ := parseProgramLoopM_complex fuel _ _ _ h
            rw [hr2] at hr
            exact absurd hr (by simp)
      next e2 heq2 => exact Except.noConfusion h
    next e2 heq => exact Except.noConfusion h

/-- If the program loop starting from `Empty` returns a `Complex` body whose
single statement is an expression statement, a `;`/assignment/`\x7b` token was
present in the stream. -/
theorem progLoop_empty_complex_singleton (fuel : Nat) (st : PState)
    (r : ProgramBody × PState) (e : Expression)
    (h : parseProgramLoopM (fuel + 1) .empty st = .ok r)
    (hr : r.1 = .complex [Statement.expression e])
    (hic : st.isComplex = false) :
    hasComplexToken st.tokens = true := by
  simp only [parseProgramLoopM, PM.bind_apply, PM.pure_apply, PM.ite_app,
    atM_apply, getIsComplex_apply, currentM_apply, errorM_apply] at h
  by_cases heof : atKind st Kind.eof = true
  · simp only [heof, if_true] at h
    injection h with h2
    rw [← h2] at hr
    exact absurd hr (by simp)
  · simp only [heof, Bool.false_eq_true, if_false] at h
    split at h
    next s1 st2 heq =>
      split at h
      next b st3 heq2 =>
        obtain ⟨hsp, hbf, hbt, hbe⟩ := parseSemiM_pinv _ _ _ _ heq2
        obtain ⟨hW, hPif⟩ := parseStatementM_pinv fuel _ _ _ heq
        have hW3 : PinvW st st3 := PinvW.comp hW hsp.toW
        by_cases hic3 : st3.isComplex = true
        · exact hW3.became hic hic3
        · simp only [Bool.not_eq_true] at hic3
          have hcond : (!b && st3.isComplex) = true → False := by
            intro hx
            rw [hic3] at hx
            simp at hx
          rw [if_neg hcond] at h
          revert h
          cases s1 with
          | expression e2 =>
            intro h
            by_cases hdec : (!st3.isComplex && atKind st3 Kind.eof) = true
            · simp only [hdec, if_true] at h
              rw [parseProgramLoopM_simple fuel _ _ _ h] at hr
              exact absurd hr (by simp)
            · simp only [hdec, Bool.false_eq_true, if_false] at h
              obtain ⟨ds, hr2, hds⟩ := parseProgramLoopM_complex fuel _ _ _ h
              rw [hr2] at hr
              simp only [ProgramBody.complex.injEq, List.cons_append,
                List.nil_append, List.cons.injEq] at hr
              exact absurd (by simp [hic3, hds hr.2]) hdec
          | assignment sp2 l op rr =>
            intro h
            obtain ⟨ds, hr2, _⟩ := parseProgramLoopM_complex fuel _ _ _ h
            rw [hr2] at hr
            exact absurd hr (by simp)
          | loop sp2 c bl =>
            intro h
            obtain ⟨ds, hr2, _⟩ := parseProgramLoopM_complex fuel _ _ _ h
            rw [hr2] at hr
            exact absurd hr (by simp)
          | forEach sp2 v arr bl =>
            intro h
            obtain ⟨ds, hr2, _⟩ := parseProgramLoopM_complex fuel _ _ _ h
            rw [hr2] at hr
            exact absurd hr (by simp)
          | ret sp2 e3 =>
            intro h
            obtain ⟨ds, hr2, _⟩ := parseProgramLoopM_complex fuel _ _ _ h
            rw [hr2] at hr
            exact absurd hr (by simp)
          | breakStmt sp2 =>
            intro h
            obtain ⟨ds, hr2, _⟩ := parseProgramLoopM_complex fuel _ _ _ h
            rw [hr2] at hr
            exact absurd hr (by simp)
          | continueStmt sp2 =>
            intro h
            obtain ⟨ds, hr2, _⟩ := parseProgramLoopM_complex fuel _ _ _ h
            rw [hr2] at hr
            exact absurd hr (by simp)
          | empty sp2 =>
            intro h
            obtain ⟨ds, hr2, _⟩ := parseProgramLoopM_complex fuel _ _ _ h
            rw [hr2] at hr
            exact absurd hr (by simp)
      next e2 heq2 => exact Except.noConfusion h
    next e2 heq => exact Except.noConfusion h

/-- Starting from `Empty` on a non-empty, eof-free token stream, a successful
loop run never returns `Empty`. -/
theorem progLoop_empty_nonempty (fuel : Nat) (st : PState)
    (r : ProgramBody × PState)
    (h : parseProgramLoopM (fuel + 1) .empty st = .ok r)
    (hne : st.tokens ≠ [])
    (hnoeof : ∀ t ∈ st.tokens, t.kind ≠ .eof) :
    r.1 ≠ .empty := by
  simp only [parseProgramLoopM, PM.bind_apply, PM.pure_apply, PM.ite_app,
    atM_apply, getIsComplex_apply, currentM_apply, errorM_apply] at h
  have heof : ¬ atKind st Kind.eof = true := by
    cases hts : st.tokens with
    | nil => exact absurd hts hne
    | cons t rest =>
      simp only [atKind, currentKind, currentToken, hts, decide_eq_true_eq]
      exact hnoeof t (by rw [hts]; simp)
  simp only [heof, Bool.false_eq_true, if_false] at h
  split at h
  next s1 st2 heq =>
    split at h
    next b st3 heq2 =>
      by_cases hcond : (!b && st3.isComplex) = true
      · simp only [Bool.and_eq_true, Bool.not_eq_eq_eq_not,
          Bool.not_true] at hcond
        simp only [hcond.1, hcond.2, if_true, Bool.not_true, Bool.false_and,
          Bool.false_eq_true, if_false] at h
        revert h
        cases s1 with
        | expression e2 =>
          intro h
          obtain ⟨ds, hr2, _⟩ := parseProgramLoopM_complex fuel _ _ _ h
          rw [hr2]
          simp
        | assignment sp2 l op rr =>
          intro h
          obtain ⟨ds, hr2, _⟩ := parseProgramLoopM_complex fuel _ _ _ h
          rw [hr2]
          simp
        | loop sp2 c bl =>
          intro h
          obtain ⟨ds, hr2, _⟩ := parseProgramLoopM_complex fuel _ _ _ h
          rw [hr2]
          simp
        | forEach sp2 v arr bl =>
          intro h
          obtain ⟨ds, hr2, _⟩ := parseProgramLoopM_complex fuel _ _ _ h
          rw [hr2]
          simp
        | ret sp2 e3 =>
          intro h
          obtain ⟨ds, hr2, _⟩ := parseProgramLoopM_complex fuel _ _ _ h
          rw [hr2]
          simp
        | breakStmt sp2 =>
          intro h
          obtain ⟨ds, hr2, _⟩ := parseProgramLoopM_complex fuel _ _ _ h
          rw [hr2]
          simp
        | continueStmt sp2 =>
          intro h
          obtain ⟨ds, hr2, _⟩ := parseProgramLoopM_complex fuel _ _ _ h
          rw [hr2]
          simp
        | empty sp2 =>
          intro h
          obtain ⟨ds, hr2, _⟩ := parseProgramLoopM_complex fuel _ _ _ h
          rw [hr2]
          simp
      · simp only [hcond, Bool.false_eq_true, if_false] at h
        revert h
        cases s1 with
        | expression e2 =>
          intro h
          by_cases hdec : (!st3.isComplex && atKind st3 Kind.eof) = true
          · simp only [hdec, if_true] at h
            rw [parseProgramLoopM_simple fuel _ _ _ h]
            simp
          · simp only [hdec, Bool.false_eq_true, if_false] at h
            obtain ⟨ds, hr2, _⟩ := parseProgramLoopM_complex fuel _ _ _ h
            rw [hr2]
            simp
        | assignment sp2 l op rr =>
          intro h
          obtain ⟨ds, hr2, _⟩ := parseProgramLoopM_complex fuel _ _ _ h
          rw [hr2]
          simp
        | loop sp2 c bl =>
          intro h
          obtain ⟨ds, hr2, _⟩ := parseProgramLoopM_complex fuel _ _ _ h
          rw [hr2]
          simp
        | forEach sp2 v arr bl =>
          intro h
          obtain ⟨ds, hr2, _⟩ := parseProgramLoopM_complex fuel _ _ _ h
          rw [hr2]
          simp
        | ret sp2 e3 =>
          intro h
          obtain ⟨ds, hr2, _⟩ := parseProgramLoopM_complex fuel _ _ _ h
          rw [hr2]
          simp
        | breakStmt sp2 =>
          intro h
          obtain ⟨ds, hr2, _⟩ := parseProgramLoopM_complex fuel _ _ _ h
          rw [hr2]
          simp
        | continueStmt sp2 =>
          intro h
          obtain ⟨ds, hr2, _⟩ := parseProgramLoopM_complex fuel _ _ _ h
          rw [hr2]
          simp
        | empty sp2 =>
          intro h
          obtain ⟨ds, hr2, _⟩ := parseProgramLoopM_complex fuel _ _ _ h
          rw [hr2]
          simp
    next e2 heq2 => exact Except.noConfusion h
  next e2 heq => exact Except.noConfusion h

/-- `Parser::parse` either succeeds, with body and errors taken from a
successful statement-loop run on the lexed tokens, or fails with an `Empty`
body and a non-empty error list. -/
theorem parse_body_eq (src : String) :
    (∃ m r, parseProgramLoopM (m + 1) ProgramBody.empty
        ⟨lex src, src.length, 0, false, 0, []⟩ = Except.ok r ∧
      (parse src).program.body = r.1 ∧ (parse src).errors = r.2.errors) ∨
    ((parse src).program.body = .empty ∧ (parse src).errors ≠ []) := by
  have h16 : 16 ≤ parseFuel src := by
    have := Nat.mul_le_mul (Nat.le_add_left 4 src.length)
      (Nat.le_add_left 4 src.length)
    simpa [parseFuel] using this
  obtain ⟨m, hm⟩ : ∃ m, parseFuel src = m + 2 := ⟨parseFuel src - 2, by omega⟩
  cases hloop : parseProgramLoopM (m + 1) ProgramBody.empty
      ⟨lex src, src.length, 0, false, 0, []⟩ with
  | ok r =>
    left
    obtain ⟨body, st2⟩ := r
    refine ⟨m, (body, st2), hloop, ?_, ?_⟩
    · simp only [parse, hm, parseProgramM, PM.bind_apply, PM.pure_apply,
        startSpanM_apply, endSpanM_apply, hloop]
    · simp only [parse, hm, parseProgramM, PM.bind_apply, PM.pure_apply,
        startSpanM_apply, endSpanM_apply, hloop]
  | error d =>
    right
    constructor
    · simp only [parse, hm, parseProgramM, PM.bind_apply, PM.pure_apply,
        startSpanM_apply, endSpanM_apply, hloop]
    · simp only [parse, hm, parseProgramM, PM.bind_apply, PM.pure_apply,
        startSpanM_apply, endSpanM_apply, hloop]
      simp

/-- A `Simple` parse result means the token stream held no `;`, assignment
operator, or `\x7b`. -/
theorem parse_simple_no_complex (src : String) (e : Expression)
    (h : (parse src).program.body = .simple e) :
    hasComplexToken (lex src) = false := by
  rcases parse_body_eq src with ⟨m, r, hloop, hb, _⟩ | ⟨hb, _⟩
  · exact progLoop_empty_simple m _ r e hloop (hb.symm.trans h) rfl
      (lex_no_eof src)
  · exact absurd (h.symm.trans hb) (by simp)

/-- A `Complex` parse result holding exactly one expression statement means
some `;`, assignment operator, or `\x7b` occurred in the token stream. -/
theorem parse_complex_singleton_has_token (src : String) (e : Expression)
    (h : (parse src).program.body = .complex [.expression e]) :
    hasComplexToken (lex src) = true := by
  rcases parse_body_eq src with ⟨m, r, hloop, hb, _⟩ | ⟨hb, _⟩
  · exact progLoop_empty_complex_singleton m _ r e hloop (hb.symm.trans h) rfl
  · exact absurd (h.symm.trans hb) (by simp)

/-- An error-free parse of a source with at least one token never yields an
`Empty` body. -/
theorem parse_nonempty_not_empty (src : String) (hlex : lex src ≠ [])
    (herr : (parse src).errors = []) :
    (parse src).program.body ≠ .empty := by
  rcases parse_body_eq src with ⟨m, r, hloop, hb, _⟩ | ⟨hb, herrne⟩
  · rw [hb]
    exact progLoop_empty_nonempty m _ r hloop hlex (lex_no_eof src)
  · exact absurd herr herrne

/-- **C3.** `Parser::parse` returns a `Simple` body only when no `;`,
assignment operator, or `\x7b` token occurred (so the source parsed to a lone
expression with none of those); a one-expression parse that nevertheless comes
back `Complex` is always caused by such a token; and with a non-empty token
stream an error-free parse never returns `Empty`. -/
theorem claim_C3_simple_iff_no_complex_token :
    (∀ src e, (parse src).program.body = .simple e →
      hasComplexToken (lex src) = false) ∧
    (∀ src e, (parse src).program.body = .complex [.expression e] →
      hasComplexToken (lex src) = true) ∧
    (∀ src, lex src ≠ [] → (parse src).errors = [] →
      (parse src).program.body ≠ .empty) :=
  ⟨parse_simple_no_complex, parse_complex_singleton_has_token,
    parse_nonempty_not_empty⟩

theorem claim_C3_simple_iff_no_complex_token_witness :
    hasComplexToken (lex "v.x") = false ∧
    hasComplexToken (lex "v.x;") = true ∧
    (parse "v.x").program.body ≠ .empty :=
  ⟨claim_C3_simple_iff_no_complex_token.1 "v.x"
      (.variableExpr ⟨⟨0, 3⟩, .variableLt, .property ⟨⟨2, 3⟩, "x"⟩⟩) rfl,
    claim_C3_simple_iff_no_complex_token.2.1 "v.x;"
      (.variableExpr ⟨⟨0, 3⟩, .variableLt, .property ⟨⟨2, 3⟩, "x"⟩⟩) rfl,
    claim_C3_simple_iff_no_complex_token.2.2 "v.x" (by decide) rfl⟩

/-- A statement list consisting solely of `Empty` statements prints as the
empty string (each `Empty` prints nothing and its `;` is suppressed). -/
theorem printStatements_all_empty (m ic : Bool) :
    ∀ (stmts : List Statement), (∀ s ∈ stmts, s.isEmpty = true) →
      printStatements m ic 0 stmts = "" := by
  intro stmts
  induction stmts with
  | nil => intro _; rfl
  | cons s rest ih =>
    intro h
    have hs := h s (by simp)
    cases s with
    | empty sp =>
      have hrest := ih (fun s2 hs2 => h s2 (by simp [hs2]))
      simp only [printStatements, hrest, printStatement, Statement.isEmpty,
        Bool.not_true, Bool.and_false, Bool.false_eq_true, if_false,
        cgIndent]
      cases hx : (!m && ic) with
      | false =>
        simp only [Bool.false_eq_true, if_false, String.append_empty,
          String.empty_append]
      | true =>
        simp only [if_true, List.replicate_zero]
        rw [show String.join [] = "" from rfl]
        simp only [String.append_empty, String.empty_append]
    | expression e => exact absurd hs (by simp [Statement.isEmpty])
    | assignment sp l op r => exact absurd hs (by simp [Statement.isEmpty])
    | loop sp c b => exact absurd hs (by simp [Statement.isEmpty])
    | forEach sp v a b => exact absurd hs (by simp [Statement.isEmpty])
    | ret sp e => exact absurd hs (by simp [Statement.isEmpty])
    | breakStmt sp => exact absurd hs (by simp [Statement.isEmpty])
    | continueStmt sp => exact absurd hs (by simp [Statement.isEmpty])

/-- **C4** counterexample: the source `";"` parses without errors to a
`Complex` body holding one `Empty` statement, yet its unminified codegen
output re-parses to the `Empty` body — not structurally equal under any
span-ignoring equivalence. -/
theorem claim_C4_counterexample_semicolon :
    (parse ";").errors = [] ∧
    (∃ sp, (parse ";").program.body =
      ProgramBody.complex [Statement.empty sp]) ∧
    (parse (codegen false (parse ";").program)).program.body =
      ProgramBody.empty :=
  ⟨rfl, ⟨⟨1, 2⟩, rfl⟩, rfl⟩

/-- **C4** (amended). `Codegen::build` erases `Empty` statements — it prints
nothing for them and suppresses their `;` — so an error-free program whose
`Complex` body consists solely of `Empty` statements prints as the empty
string and re-parses to the `Empty` body instead of round-tripping. -/
theorem claim_C4_roundtrip_drops_empty_statements :
    ∀ (p : Program) (stmts : List Statement), p.body = .complex stmts →
      (∀ s ∈ stmts, s.isEmpty = true) →
      codegen false p = "" ∧
        (parse (codegen false p)).program.body = ProgramBody.empty := by
  intro p stmts hb hall
  have hcg : codegen false p = "" := by
    simp only [codegen, hb]
    exact printStatements_all_empty false (ProgramBody.complex stmts).isComplex
      stmts hall
  refine ⟨hcg, ?_⟩
  rw [hcg]
  rfl

theorem claim_C4_roundtrip_drops_empty_statements_witness :
    codegen false ⟨⟨0, 1⟩, ";", .complex [.empty ⟨1, 2⟩]⟩ = "" ∧
      (parse (codegen false ⟨⟨0, 1⟩, ";", .complex [.empty ⟨1, 2⟩]⟩)).program.body =
        ProgramBody.empty :=
  claim_C4_roundtrip_drops_empty_statements
    ⟨⟨0, 1⟩, ";", .complex [.empty ⟨1, 2⟩]⟩ [.empty ⟨1, 2⟩] rfl
    (by intro s hs; simp only [List.mem_singleton] at hs; rw [hs]; rfl)

end Nolana
